import Mathlib

/-!
Verification of the WordPress HTML sanitization and URL-safety core of the
nerdcow website repository.

The development shallowly embeds:
* the markup policy and sanitizer configuration (`ALLOWED_TAGS`,
  `ALLOWED_ATTRIBUTES`, `ALLOWED_URL_SCHEMES`, `ALLOWED_IFRAME_HOSTS`, the
  `transformTags` closures and the `exclusiveFilter`) translated directly from
  `src/lib/wordpress/sanitize.ts`;
* the URL utilities (`isValidSlug`, the route builders, `extractSlugFromUrl`)
  translated directly from `src/lib/wordpress/urls.ts`;
* the sanitize-html engine and the WHATWG URL parser, which are external
  dependencies of the repository; these are modelled from the specification
  (sections 4.2-4.4).
-/

set_option linter.unusedVariables false
set_option linter.unnecessarySimpa false

-- ===========================================================================
-- Character/string primitives (models of the JS string operations used)
-- ===========================================================================

/-- Whitespace characters recognised by JavaScript `String.prototype.trim`
(restricted to the ASCII range, which is all the repository's inputs use). -/
def isWsChar (c : Char) : Bool :=
  c == ' ' || c == '\t' || c == '\n' || c == '\r' || c == '\x0b' || c == '\x0c'

/-- Model of JavaScript `String.prototype.trim`. -/
def jsTrim (s : String) : String :=
  ⟨((s.data.dropWhile isWsChar).reverse.dropWhile isWsChar).reverse⟩

/-- Substring test over character lists. -/
def listInfixOf (pat l : List Char) : Bool :=
  l.tails.any (fun t => pat.isPrefixOf t)

/-- Model of JavaScript `String.prototype.includes`. -/
def strContains (s pat : String) : Bool :=
  listInfixOf pat.data s.data

/-- Model of JavaScript `String.prototype.startsWith` (kernel-reducible
replacement for `String.startsWith`). -/
def strStarts (s pat : String) : Bool :=
  pat.data.isPrefixOf s.data

/-- Lower-case every character of a string. -/
def lowerStr (s : String) : String :=
  ⟨s.data.map Char.toLower⟩

/-- Case-insensitive substring test. -/
def strContainsCI (s pat : String) : Bool :=
  strContains (lowerStr s) (lowerStr pat)

/-- Split a character list at every occurrence of `sep`
(model of JavaScript `String.prototype.split` with a one-character
separator: keeps empty pieces). -/
def splitCharAux (sep : Char) : List Char → List Char → List (List Char)
  | [], acc => [acc.reverse]
  | c :: cs, acc =>
    if c == sep then acc.reverse :: splitCharAux sep cs []
    else splitCharAux sep cs (c :: acc)

/-- Model of JavaScript `String.prototype.split` with a one-character
separator. -/
def splitStr (sep : Char) (s : String) : List String :=
  (splitCharAux sep s.data []).map (fun l => ⟨l⟩)

/-- Join strings with single spaces (model of `Array.prototype.join(' ')`). -/
def joinSpace : List String → String
  | [] => ""
  | [t] => t
  | t :: ts => t ++ " " ++ joinSpace ts

-- ===========================================================================
-- URL parsing
-- Modelled from the spec: the repository calls the WHATWG `new URL`
-- constructor (sections 4.3 and 4.4 rely on "standard URL parsing": scheme
-- extraction, host extraction with userinfo/port stripping, lower-cased
-- hostnames, failure on malformed input).  Only the components the
-- repository reads (scheme, hostname, pathname) are modelled.
-- ===========================================================================

/-- The components of a parsed URL that the repository consumes. -/
structure UrlParts where
  scheme : String
  hostname : String
  pathname : String
deriving Repr, DecidableEq

/-- Characters permitted in a URL scheme after the first (ASCII alphanumeric
plus `+`, `-`, `.`). -/
def isSchemeChar (c : Char) : Bool :=
  c.isAlphanum || c == '+' || c == '-' || c == '.'

/-- Schemes whose URLs carry an authority (host) component. -/
def specialSchemes : List String := ["http", "https", "ws", "wss", "ftp"]

/-- Characters that terminate the authority component. -/
def isAuthorityEnd (c : Char) : Bool :=
  c == '/' || c == '\\' || c == '?' || c == '#'

/-- Characters that may not appear in a parsed host. -/
def isForbiddenHostChar (c : Char) : Bool :=
  c == '\x00' || c == ' ' || c == '#' || c == '/' || c == ':' || c == '<' ||
  c == '>' || c == '?' || c == '@' || c == '[' || c == '\\' || c == ']' ||
  c == '^' || c == '|' || c == '%'

/-- Parse the authority component of a special-scheme URL: strip the userinfo
(everything up to the last `@`), split off a digits-only port at the first
`:`, reject empty or malformed hosts, and lower-case the host. -/
def parseAuthority (authority : List Char) : Option (List Char) :=
  let hostport := (splitCharAux '@' authority []).getLastD []
  let host := hostport.takeWhile (fun c => c != ':')
  let rest := hostport.drop host.length
  let portOk :=
    match rest with
    | [] => true
    | _ :: port => port.all Char.isDigit
  if host == [] then none
  else if !portOk then none
  else if host.any isForbiddenHostChar then none
  else some (host.map Char.toLower)

/-- Modelled from the spec: WHATWG absolute-URL parsing as used by the
repository through `new URL(input)` — returns `none` exactly when the
constructor would throw. -/
def parseUrl (s : String) : Option UrlParts :=
  -- leading/trailing C0-control-and-space stripping, and removal of interior
  -- tabs and newlines, as WHATWG prescribes
  let l := ((s.data.dropWhile (fun c => c.val ≤ 32)).reverse.dropWhile
            (fun c => c.val ≤ 32)).reverse
  let l := l.filter (fun c => !(c == '\t' || c == '\n' || c == '\r'))
  let pre := l.takeWhile (fun c => c != ':')
  if pre.length = l.length then none       -- no colon: not an absolute URL
  else
    match pre with
    | [] => none
    | c :: cs =>
      if !(c.isAlpha && cs.all isSchemeChar) then none
      else
        let scheme : String := ⟨(c :: cs).map Char.toLower⟩
        let rest := l.drop (pre.length + 1)
        if specialSchemes.contains scheme then
          let afterSlashes := rest.dropWhile (fun c => c == '/' || c == '\\')
          let authority := afterSlashes.takeWhile (fun c => !isAuthorityEnd c)
          let tail := afterSlashes.drop authority.length
          match parseAuthority authority with
          | none => none
          | some host =>
            let rawPath := tail.takeWhile (fun c => !(c == '?' || c == '#'))
            some { scheme := scheme
                   hostname := ⟨host⟩
                   pathname := if rawPath == [] then "/" else ⟨rawPath⟩ }
        else
          -- non-special scheme (mailto, tel, javascript, data, ...): opaque
          -- path, no host component
          let rawPath := rest.takeWhile (fun c => !(c == '?' || c == '#'))
          some { scheme := scheme, hostname := "", pathname := ⟨rawPath⟩ }

/-- Modelled from the spec: `new URL(href, base)` — an absolute `href` parses
on its own, a protocol-relative `href` borrows the base's scheme, and any
other `href` is resolved against the base's authority. -/
def resolveUrl (href base : String) : Option UrlParts :=
  match parseUrl href with
  | some u => some u
  | none =>
    match parseUrl base with
    | none => none
    | some b =>
      if strStarts href "//" then parseUrl (b.scheme ++ ":" ++ href)
      else
        let rawPath := href.data.takeWhile (fun c => !(c == '?' || c == '#'))
        let path : String :=
          if strStarts href "/" then ⟨rawPath⟩
          else if rawPath == [] then b.pathname
          else ⟨(b.pathname.data.reverse.dropWhile (fun c => c != '/')).reverse
                ++ rawPath⟩
        some { scheme := b.scheme, hostname := b.hostname, pathname := path }

-- ===========================================================================
-- `src/lib/wordpress/sanitize.ts`: configuration data (translated verbatim)
-- ===========================================================================

/-- Allowed iframe source domains for embedded content. -/
def ALLOWED_IFRAME_HOSTS : List String :=
  [ "www.youtube.com"
  , "youtube.com"
  , "www.youtube-nocookie.com"
  , "youtube-nocookie.com"
  , "player.vimeo.com"
  , "vimeo.com" ]

/-- Safe URL schemes permitted in href and src attributes. -/
def ALLOWED_URL_SCHEMES : List String := ["http", "https", "mailto", "tel"]

/-- Block-level HTML elements commonly used in WordPress content. -/
def ALLOWED_BLOCK_ELEMENTS : List String :=
  [ "article", "section", "nav", "aside", "header", "footer"
  , "h1", "h2", "h3", "h4", "h5", "h6"
  , "p", "div", "span", "blockquote", "pre", "code"
  , "ul", "ol", "li", "dl", "dt", "dd"
  , "table", "thead", "tbody", "tfoot", "tr", "th", "td"
  , "caption", "colgroup", "col", "figure", "figcaption", "address", "main" ]

/-- Inline HTML elements for text formatting and links. -/
def ALLOWED_INLINE_ELEMENTS : List String :=
  [ "a", "strong", "em", "b", "i", "u", "s", "mark", "small", "sub", "sup"
  , "abbr", "cite", "q", "br", "hr", "wbr", "del", "ins", "kbd", "samp"
  , "var", "time", "data", "bdo", "bdi", "ruby", "rt", "rp" ]

/-- Media elements, including iframe for embedded content. -/
def ALLOWED_MEDIA_ELEMENTS : List String :=
  ["img", "video", "audio", "source", "track", "picture", "iframe"]

/-- Interactive disclosure elements. -/
def ALLOWED_INTERACTIVE_ELEMENTS : List String := ["details", "summary"]

/-- Complete list of all allowed HTML tags. -/
def ALLOWED_TAGS : List String :=
  ALLOWED_BLOCK_ELEMENTS ++ ALLOWED_INLINE_ELEMENTS ++
  ALLOWED_MEDIA_ELEMENTS ++ ALLOWED_INTERACTIVE_ELEMENTS

/-- Global attributes allowed on all elements (the `'*'` entry of
`ALLOWED_ATTRIBUTES`; `aria-*` and `data-*` are pattern entries, handled in
`attrNameAllowed`). -/
def GLOBAL_ATTRIBUTES : List String :=
  ["class", "id", "lang", "dir", "title", "role"]

/-- Per-element attribute allow-list (the non-wildcard entries of
`ALLOWED_ATTRIBUTES`).  Elements without an entry admit only the global
attributes. -/
def tagAttributes : String → List String
  | "a" => ["href", "target", "rel", "hreflang", "type", "download"]
  | "img" => ["src", "srcset", "sizes", "alt", "width", "height", "loading",
              "decoding"]
  | "video" => ["src", "poster", "width", "height", "controls", "autoplay",
                "loop", "muted", "playsinline", "preload"]
  | "audio" => ["src", "controls", "autoplay", "loop", "muted", "preload"]
  | "source" => ["src", "srcset", "type", "media", "sizes"]
  | "track" => ["src", "kind", "srclang", "label", "default"]
  | "picture" => []
  | "iframe" => ["src", "width", "height", "frameborder", "allow",
                 "allowfullscreen", "loading", "title"]
  | "table" => ["border", "cellpadding", "cellspacing", "summary"]
  | "th" => ["scope", "colspan", "rowspan", "headers", "abbr"]
  | "td" => ["colspan", "rowspan", "headers"]
  | "col" => ["span"]
  | "colgroup" => ["span"]
  | "blockquote" => ["cite"]
  | "q" => ["cite"]
  | "cite" => []
  | "time" => ["datetime"]
  | "data" => ["value"]
  | "abbr" => ["title"]
  | "bdo" => ["dir"]
  | "bdi" => []
  | "details" => ["open"]
  | "summary" => []
  | "ol" => ["start", "reversed", "type"]
  | "li" => ["value"]
  | _ => []

/-- Whether attribute `name` is allowed on elements with tag `tag` under
`ALLOWED_ATTRIBUTES`: a global attribute, an `aria-*`/`data-*` pattern match,
or a member of the element's own entry. -/
def attrNameAllowed (tag name : String) : Bool :=
  GLOBAL_ATTRIBUTES.contains name ||
  strStarts name "aria-" || strStarts name "data-" ||
  (tagAttributes tag).contains name

/-- The `allowedSchemesByTag` table of the sanitizer options; `none` means the
global `ALLOWED_URL_SCHEMES` list applies. -/
def allowedSchemesByTag : String → Option (List String)
  | "a" => some ["http", "https", "mailto", "tel"]
  | "img" => some ["http", "https"]
  | "video" => some ["http", "https"]
  | "audio" => some ["http", "https"]
  | "source" => some ["http", "https"]
  | "iframe" => some ["https"]
  | _ => none

/-- The scheme allow-list in force for a given element: the per-tag override
when present, else the global list. -/
def effectiveSchemes (tag : String) : List String :=
  (allowedSchemesByTag tag).getD ALLOWED_URL_SCHEMES

/-- Validates whether an iframe src URL points to an allowed host
(translated from `isAllowedIframeSrc`). -/
def isAllowedIframeSrc (src : String) : Bool :=
  match parseUrl src with
  | some url => ALLOWED_IFRAME_HOSTS.contains url.hostname
  | none => false

/-- The externality test of the anchor `transformTags` entry (translated from
the closure in `sanitizeWordPressHtml`); `siteUrlStr` models the
`NEXT_PUBLIC_SITE_URL` environment value with its `http://localhost`
default already applied. -/
def isExternal (siteUrlStr href target : String) : Bool :=
  if target == "_blank" then true
  else if href == "" then false
  else if strStarts href "/" && !strStarts href "//" then false
  else if strStarts href "#" then false
  else if strStarts href "mailto:" || strStarts href "tel:" then false
  else
    match resolveUrl href siteUrlStr, parseUrl siteUrlStr with
    | some linkUrl, some siteUrl => linkUrl.hostname != siteUrl.hostname
    | _, _ => false

-- ===========================================================================
-- `src/lib/wordpress/urls.ts` (translated verbatim)
-- ===========================================================================

/-- Validates a slug to ensure it is safe for use in URL paths
(translated from `isValidSlug`). -/
def isValidSlug (slug : String) : Bool :=
  if slug == "" then false
  else if jsTrim slug == "" then false
  else if strContains slug ".." then false
  else if strStarts slug "/" then false
  else if slug.data.contains '\\' then false
  else if slug.data.contains '\x00' then false
  else true

/-- One UTF-8 code-unit sequence of a character, as a list of byte values. -/
def utf8Bytes (c : Char) : List Nat :=
  let n := c.toNat
  if n < 0x80 then [n]
  else if n < 0x800 then [0xC0 + n / 0x40, 0x80 + n % 0x40]
  else if n < 0x10000 then
    [0xE0 + n / 0x1000, 0x80 + n / 0x40 % 0x40, 0x80 + n % 0x40]
  else
    [0xF0 + n / 0x40000, 0x80 + n / 0x1000 % 0x40, 0x80 + n / 0x40 % 0x40,
     0x80 + n % 0x40]

/-- Upper-case hexadecimal digit of a value below 16. -/
def hexDigitUpper (n : Nat) : Char :=
  if n < 10 then Char.ofNat (48 + n) else Char.ofNat (55 + n)

/-- Characters that JavaScript `encodeURIComponent` leaves unescaped. -/
def isUriUnreserved (c : Char) : Bool :=
  c.isAlphanum || c == '-' || c == '_' || c == '.' || c == '!' || c == '~' ||
  c == '*' || c == '\'' || c == '(' || c == ')'

/-- Modelled from the spec: JavaScript `encodeURIComponent`, used by the
route builders to percent-encode slugs. -/
def encodeURIComponent (s : String) : String :=
  ⟨s.data.flatMap (fun c =>
    if isUriUnreserved c then [c]
    else (utf8Bytes c).flatMap (fun b =>
      ['%', hexDigitUpper (b / 16), hexDigitUpper (b % 16)]))⟩

/-- Generates the frontend URL for a category page (translated from
`getCategoryUrl`; the category record is represented by its optional slug,
`none` standing for a missing/undefined slug). -/
def getCategoryUrl (slug? : Option String) : String :=
  match slug? with
  | none => "/blog"
  | some slug =>
    if slug == "" || !isValidSlug slug then "/blog"
    else "/blog/category/" ++ encodeURIComponent slug

/-- Generates the frontend URL for an author page (translated from
`getAuthorUrl`). -/
def getAuthorUrl (slug? : Option String) : String :=
  match slug? with
  | none => "/blog"
  | some slug =>
    if slug == "" || !isValidSlug slug then "/blog"
    else "/blog/author/" ++ encodeURIComponent slug

/-- Generates the frontend URL for a blog post (translated from
`getPostUrl`). -/
def getPostUrl (slug? : Option String) : String :=
  match slug? with
  | none => "/blog"
  | some slug =>
    if slug == "" || !isValidSlug slug then "/blog"
    else "/blog/" ++ encodeURIComponent slug

/-- Generates the frontend URL for a tag page (translated from
`getTagUrl`). -/
def getTagUrl (slug? : Option String) : String :=
  match slug? with
  | none => "/blog"
  | some slug =>
    if slug == "" || !isValidSlug slug then "/blog"
    else "/blog/tag/" ++ encodeURIComponent slug

/-- Model of the regex fallback `wpUrl.match(/\/([^\/]+)\/?$/)` used when URL
parsing fails: after discarding one optional trailing slash, the final
slash-delimited segment, provided a slash precedes it and it is nonempty. -/
def slugRegexFallback (s : String) : Option String :=
  let t := if s.data.getLast? == some '/' then s.data.dropLast else s.data
  let seg := (t.reverse.takeWhile (fun c => c != '/')).reverse
  if seg.length = t.length then none
  else if seg == [] then none
  else some ⟨seg⟩

/-- Extracts a slug from a WordPress backend URL (translated from
`extractSlugFromUrl`). -/
def extractSlugFromUrl (wpUrl : String) : Option String :=
  if wpUrl == "" then none
  else
    match parseUrl wpUrl with
    | some url =>
      let stripped :=
        if url.pathname.data.getLast? == some '/' then url.pathname.data.dropLast
        else url.pathname.data
      let segs := (splitCharAux '/' stripped []).map (fun l => (⟨l⟩ : String))
      let segs := segs.filter (fun t => t != "")
      match segs.getLast? with
      | none => none
      | some slug => if !isValidSlug slug then none else some slug
    | none =>
      match slugRegexFallback wpUrl with
      | none => none
      | some slug => if !isValidSlug slug then none else some slug

-- ===========================================================================
-- HTML fragments
-- ===========================================================================

mutual
/-- An HTML fragment node: a text node or an element with an ordered
attribute list and a child list.  This is the document model the sanitizer
engine operates on. -/
inductive Html where
  | text : String → Html
  | elem : String → List (String × String) → HtmlList → Html

/-- A list of HTML fragment nodes (a mutual inductive rather than `List
Html`, so that recursive functions over fragments compile to structural
recursion and evaluate inside the kernel). -/
inductive HtmlList where
  | nil : HtmlList
  | cons : Html → HtmlList → HtmlList
end

/-- Concatenation of fragment lists. -/
def HtmlList.append : HtmlList → HtmlList → HtmlList
  | .nil, l => l
  | .cons x xs, l => .cons x (HtmlList.append xs l)

/-- First value bound to attribute `name`, or `dflt` when absent (model of
`attribs.name || dflt`, with the empty string standing for a falsy value). -/
def getAttrD (attrs : List (String × String)) (name dflt : String) : String :=
  match attrs.find? (fun a => a.1 == name) with
  | some a => a.2
  | none => dflt

/-- Replace the value of attribute `name` in place, appending it when absent
(model of the `{ ...attribs, name: value }` object spread). -/
def setAttr : List (String × String) → String → String → List (String × String)
  | [], name, val => [(name, val)]
  | a :: rest, name, val =>
    if a.1 == name then (name, val) :: rest else a :: setAttr rest name val

-- ===========================================================================
-- HTML entity decoding and URL-scheme extraction
-- ===========================================================================

/-- Numeric value of a hexadecimal digit. -/
def hexVal (c : Char) : Nat :=
  if c.isDigit then c.toNat - 48
  else if 'a' ≤ c ∧ c ≤ 'f' then c.toNat - 87
  else if 'A' ≤ c ∧ c ≤ 'F' then c.toNat - 55
  else 0

/-- Whether a character is a hexadecimal digit. -/
def isHexDigit (c : Char) : Bool :=
  c.isDigit || ('a' ≤ c && c ≤ 'f') || ('A' ≤ c && c ≤ 'F')

/-- Try to read one character reference right after a `&`: the named
references the serializer produces, `&colon;`, and decimal/hexadecimal
numeric references.  Returns the decoded character and the remaining
input. -/
def tryRef (rest : List Char) : Option (Char × List Char) :=
  match rest with
  | 'a' :: 'm' :: 'p' :: ';' :: r => some ('&', r)
  | 'l' :: 't' :: ';' :: r => some ('<', r)
  | 'g' :: 't' :: ';' :: r => some ('>', r)
  | 'q' :: 'u' :: 'o' :: 't' :: ';' :: r => some ('"', r)
  | 'c' :: 'o' :: 'l' :: 'o' :: 'n' :: ';' :: r => some (':', r)
  | '#' :: 'x' :: r =>
    let ds := r.takeWhile isHexDigit
    let after := r.drop ds.length
    if ds ≠ [] ∧ after.headD ' ' = ';' then
      some (Char.ofNat (ds.foldl (fun n c => 16 * n + hexVal c) 0),
        after.drop 1)
    else none
  | '#' :: r =>
    let ds := r.takeWhile Char.isDigit
    let after := r.drop ds.length
    if ds ≠ [] ∧ after.headD ' ' = ';' then
      some (Char.ofNat (ds.foldl (fun n c => 10 * n + (c.toNat - 48)) 0),
        after.drop 1)
    else none
  | _ => none

/-- Fuelled worker for `decodeEntities`; the fuel dominates the input length,
so the zero-fuel case is never reached from `decodeEntities`. -/
def decodeEntitiesF : Nat → List Char → List Char
  | 0, l => l
  | _ + 1, [] => []
  | f + 1, c :: rest =>
    if c = '&' then
      match tryRef rest with
      | some (d, rest2) => d :: decodeEntitiesF f rest2
      | none => '&' :: decodeEntitiesF f rest
    else c :: decodeEntitiesF f rest

/-- Modelled from the spec: HTML character-reference decoding as performed by
the parsing stage before attribute values are inspected (the spec requires
encoded-colon variants like `javascript&#58;` to be recognised).  Handles the
named references the sanitizer's own output can produce plus decimal,
hexadecimal and `&colon;` references; unknown references are left verbatim. -/
def decodeEntities (l : List Char) : List Char :=
  decodeEntitiesF l.length l

/-- The URL scheme of an attribute value, per the spec's step 4: decode
character references, trim leading whitespace, and read a
`[a-zA-Z][a-zA-Z0-9.+-]*` token terminated by a colon, case-normalised;
`none` when the value has no scheme (a relative URL). -/
def schemeOf (v : String) : Option String :=
  let t := (decodeEntities v.data).dropWhile isWsChar
  let pre := t.takeWhile (fun c => c != ':')
  if pre.length = t.length then none
  else
    match pre with
    | [] => none
    | c :: cs =>
      if c.isAlpha && cs.all isSchemeChar then some ⟨(c :: cs).map Char.toLower⟩
      else none

/-- Whether an attribute value passes the scheme filter for the given scheme
allow-list: schemeless values are kept, scheme-bearing values only when the
scheme is allowed. -/
def schemeAllowedValue (schemes : List String) (v : String) : Bool :=
  match schemeOf v with
  | none => true
  | some s => schemes.contains s

-- ===========================================================================
-- The sanitizer engine
-- ===========================================================================

/-- The configuration surface of the sanitize-html engine that the repository
exercises: the tag allow-list, the per-tag attribute allow-list, the scheme
allow-lists, which attributes are URL-bearing, whether the repository's
`transformTags` entries (anchor and iframe) run, and whether the empty-`p`
`exclusiveFilter` runs. -/
structure SanitizeConfig where
  allowedTags : List String
  attrOk : String → String → Bool
  schemesFor : String → List String
  urlAttrs : List String
  useTransforms : Bool
  dropEmptyP : Bool

/-- The configuration `sanitizeWordPressHtml` passes to the engine
(translated from the options object in `src/lib/wordpress/sanitize.ts`); the
URL-bearing attributes follow the spec's step 4 (`href`, `src`, `poster`,
`cite`). -/
def wpConfig : SanitizeConfig :=
  { allowedTags := ALLOWED_TAGS
  , attrOk := attrNameAllowed
  , schemesFor := effectiveSchemes
  , urlAttrs := ["href", "src", "cite", "poster"]
  , useTransforms := true
  , dropEmptyP := true }

/-- Tokens of a `rel` attribute value: split on spaces, dropping empty pieces
(model of `existingRel.split(' ').filter(Boolean)`). -/
def relTokens (rel : String) : List String :=
  (splitStr ' ' rel).filter (fun t => t != "")

/-- Deduplicate keeping first occurrences (model of iterating a JS `Set`
built from a list, whose iteration order is insertion order). -/
def dedupFirst : List String → List String :=
  go []
where
  go (seen : List String) : List String → List String
    | [] => []
    | t :: ts => if t ∈ seen then go seen ts else t :: go (t :: seen) ts

/-- Append a token unless already present (model of `Set.prototype.add`). -/
def addToken (l : List String) (t : String) : List String :=
  if t ∈ l then l else l ++ [t]

/-- The merged `rel` token list: the deduplicated existing tokens with
`noopener` and `noreferrer` added. -/
def mergeRelTokens (rel : String) : List String :=
  addToken (addToken (dedupFirst (relTokens rel)) "noopener") "noreferrer"

/-- The merged `rel` attribute value. -/
def mergeRel (rel : String) : String :=
  joinSpace (mergeRelTokens rel)

/-- The anchor `transformTags` entry (translated from
`sanitizeWordPressHtml`): external links get `noopener`/`noreferrer` merged
into `rel`; internal links are returned unchanged. -/
def transformA (site : String) (attrs : List (String × String)) :
    List (String × String) :=
  let href := getAttrD attrs "href" ""
  let target := getAttrD attrs "target" ""
  if isExternal site href target then
    setAttr attrs "rel" (mergeRel (getAttrD attrs "rel" ""))
  else attrs

/-- The iframe `transformTags` entry (translated from
`sanitizeWordPressHtml`): iframes from non-allowed sources become an inert
`blocked-embed` placeholder div; allowed iframes get `loading`
(existing value, or `lazy` when absent or empty). -/
def transformIframe (attrs : List (String × String)) (children : HtmlList) :
    Html :=
  let src := getAttrD attrs "src" ""
  if !isAllowedIframeSrc src then
    .elem "div"
      [("class", "blocked-embed"),
       ("data-blocked-src", "iframe-source-not-allowed")] .nil
  else
    let lv := getAttrD attrs "loading" ""
    .elem "iframe" (setAttr attrs "loading" (if lv == "" then "lazy" else lv))
      children

/-- Elements that never have children (HTML void elements). -/
def voidTags : List String :=
  ["area", "base", "br", "col", "embed", "hr", "img", "input", "link",
   "meta", "param", "source", "track", "wbr"]

/-- Concatenated text content of a fragment list (descendant text nodes, in
order). -/
def textContentList : HtmlList → String
  | .nil => ""
  | .cons (.text s) xs => s ++ textContentList xs
  | .cons (.elem _ _ children) xs =>
    textContentList children ++ textContentList xs

/-- Whether a node is a media element (the `frame.mediaChildren` test of the
`exclusiveFilter`). -/
def isMediaElem : Html → Bool
  | .elem tag _ _ => ALLOWED_MEDIA_ELEMENTS.contains tag
  | .text _ => false

/-- Whether a fragment list has a media element among its direct members. -/
def hasMediaChild : HtmlList → Bool
  | .nil => false
  | .cons x xs => isMediaElem x || hasMediaChild xs

/-- The `exclusiveFilter` condition (translated from
`sanitizeWordPressHtml`): a `p` whose text content is whitespace-only and
which has no media children is dropped. -/
def emptyParagraph (children : HtmlList) : Bool :=
  (textContentList children).data.all isWsChar && !hasMediaChild children

/-- Merge adjacent text nodes and drop empty text nodes (the document model
never distinguishes adjacent text runs). -/
def normalizeTexts : HtmlList → HtmlList
  | .nil => .nil
  | .cons (.text a) rest =>
    match normalizeTexts rest with
    | .cons (.text b) more =>
      if a ++ b == "" then more else .cons (.text (a ++ b)) more
    | other => if a == "" then other else .cons (.text a) other
  | .cons x rest => .cons x (normalizeTexts rest)

/-- Modelled from the spec: the treatment of a single element whose children
have already been sanitized (section 4.2, steps 2-7): discard the element
when its tag is disallowed, otherwise filter its attributes by name and then
by URL scheme, empty the child list of void elements, and (under the
repository's configuration) apply the iframe and anchor transforms and the
empty-paragraph filter.  Returns the zero or one nodes the element
contributes to the output. -/
def processElem (cfg : SanitizeConfig) (site : String) (tag : String)
    (attrs : List (String × String)) (kids : HtmlList) : HtmlList :=
  if !cfg.allowedTags.contains tag then .nil
  else
    let attrs1 := attrs.filter (fun a => cfg.attrOk tag a.1)
    let attrs2 := attrs1.filter (fun a =>
      !cfg.urlAttrs.contains a.1 ||
      schemeAllowedValue (cfg.schemesFor tag) a.2)
    let kids' := if voidTags.contains tag then .nil else kids
    if cfg.useTransforms && tag == "iframe" then
      .cons (transformIframe attrs2 kids') .nil
    else
      let attrs3 :=
        if cfg.useTransforms && tag == "a" then transformA site attrs2
        else attrs2
      if cfg.dropEmptyP && tag == "p" && emptyParagraph kids' then .nil
      else .cons (.elem tag attrs3 kids') .nil

/-- Modelled from the spec: the sanitize-html engine's pass over a fragment
list (section 4.2, steps 2-7) under configuration `cfg` and site origin
`site`: children are sanitized and normalized recursively and each element
is handled by `processElem`. -/
def sanitizeList (cfg : SanitizeConfig) (site : String) :
    HtmlList → HtmlList
  | .nil => .nil
  | .cons (.text s) xs => .cons (.text s) (sanitizeList cfg site xs)
  | .cons (.elem tag attrs children) xs =>
    HtmlList.append
      (processElem cfg site tag attrs
        (normalizeTexts (sanitizeList cfg site children)))
      (sanitizeList cfg site xs)

/-- The engine applied to a whole fragment. -/
def sanitizeFragment (cfg : SanitizeConfig) (site : String)
    (ts : HtmlList) : HtmlList :=
  normalizeTexts (sanitizeList cfg site ts)

-- ===========================================================================
-- Serialization
-- ===========================================================================

/-- Escape a character for a text position. -/
def escapeTextChar (c : Char) : List Char :=
  if c == '&' then ['&', 'a', 'm', 'p', ';']
  else if c == '<' then ['&', 'l', 't', ';']
  else if c == '>' then ['&', 'g', 't', ';']
  else [c]

/-- Escape a character for a double-quoted attribute value. -/
def escapeAttrChar (c : Char) : List Char :=
  if c == '"' then ['&', 'q', 'u', 'o', 't', ';'] else escapeTextChar c

/-- Escape a string for a text position. -/
def escapeText (s : String) : String :=
  ⟨s.data.flatMap escapeTextChar⟩

/-- Escape a string for a double-quoted attribute value. -/
def escapeAttrVal (s : String) : String :=
  ⟨s.data.flatMap escapeAttrChar⟩

/-- Serialize an attribute list. -/
def serializeAttrs (attrs : List (String × String)) : String :=
  String.join (attrs.map (fun a => " " ++ a.1 ++ "=\"" ++ escapeAttrVal a.2 ++ "\""))

/-- Modelled from the spec: serialization of a sanitized fragment back to
HTML text (section 4.2, step 8): void elements self-close, text is
entity-escaped, attribute values are double-quoted and escaped. -/
def serializeList : HtmlList → String
  | .nil => ""
  | .cons (.text s) xs => escapeText s ++ serializeList xs
  | .cons (.elem tag attrs children) xs =>
    (if voidTags.contains tag then
      "<" ++ tag ++ serializeAttrs attrs ++ " />"
    else
      "<" ++ tag ++ serializeAttrs attrs ++ ">" ++ serializeList children ++
      "</" ++ tag ++ ">") ++ serializeList xs

-- ===========================================================================
-- HTML parsing
-- Modelled from the spec: the sanitize-html engine parses its input
-- permissively before filtering (section 4.2, step 1: "best-effort tree
-- repair", malformed input must not cause failure).  Tag and attribute
-- names are lower-cased, character references in text and attribute values
-- are decoded, void elements take no children, unmatched closing tags are
-- ignored and unclosed elements are closed at the end of input.
-- ===========================================================================

/-- Lexical tokens of an HTML fragment. -/
inductive Token where
  | chars : String → Token
  | startTag : String → List (String × String) → Bool → Token
  | endTag : String → Token
deriving Repr, DecidableEq

/-- Characters that end a tag or attribute name. -/
def isNameEnd (c : Char) : Bool :=
  isWsChar c || c == '=' || c == '/' || c == '>'

/-- Drop attributes whose name already occurred earlier in the list. -/
def dedupAttrsAux (seen : List String) :
    List (String × String) → List (String × String)
  | [] => []
  | a :: rest =>
    if seen.contains a.1 then dedupAttrsAux seen rest
    else a :: dedupAttrsAux (a.1 :: seen) rest

/-- Keep the first occurrence of each attribute name. -/
def dedupAttrs (attrs : List (String × String)) : List (String × String) :=
  dedupAttrsAux [] attrs

/-- Read the attribute section of a start tag, up to and including the
closing `>`.  Returns the attributes in order, whether the tag was
self-closing, and the remaining input.  Attribute values may be
double-quoted, single-quoted or unquoted; a name alone denotes an empty
value.  The fuel dominates the input length. -/
def readAttrsF : Nat → List Char → (List (String × String) × Bool × List Char)
  | 0, l => ([], false, l)
  | f + 1, l =>
    match l.dropWhile isWsChar with
    | [] => ([], false, [])
    | c :: rest =>
      if c = '>' then ([], false, rest)
      else if c = '/' then
        let r := rest.dropWhile isWsChar
        if r.headD ' ' = '>' then ([], true, r.drop 1)
        else readAttrsF f rest
      else
        let name := (c :: rest).takeWhile (fun d => !isNameEnd d)
        let nm : String := ⟨name.map Char.toLower⟩
        let l2 := ((c :: rest).drop name.length).dropWhile isWsChar
        if l2.headD ' ' = '=' then
          let l3 := (l2.drop 1).dropWhile isWsChar
          if l3.headD ' ' = '"' then
            let v := (l3.drop 1).takeWhile (fun d => d != '"')
            let (as, sc, r) := readAttrsF f ((l3.drop 1).drop (v.length + 1))
            ((nm, ⟨decodeEntities v⟩) :: as, sc, r)
          else if l3.headD ' ' = '\'' then
            let v := (l3.drop 1).takeWhile (fun d => d != '\'')
            let (as, sc, r) := readAttrsF f ((l3.drop 1).drop (v.length + 1))
            ((nm, ⟨decodeEntities v⟩) :: as, sc, r)
          else
            let v := l3.takeWhile (fun d => !(isWsChar d || d == '>'))
            let (as, sc, r) := readAttrsF f (l3.drop v.length)
            ((nm, ⟨decodeEntities v⟩) :: as, sc, r)
        else
          let (as, sc, r) := readAttrsF f l2
          ((nm, "") :: as, sc, r)

/-- Skip past the end of an HTML comment. -/
def skipCommentEnd : List Char → List Char
  | [] => []
  | '-' :: '-' :: '>' :: rest => rest
  | _ :: rest => skipCommentEnd rest

/-- Fuelled HTML tokenizer; the fuel dominates the input length. -/
def tokenizeF : Nat → List Char → List Token
  | 0, _ => []
  | _ + 1, [] => []
  | f + 1, c :: rest =>
    if c = '<' then
      match rest with
      | [] => [.chars "<"]
      | d :: r2 =>
        if d = '/' then
          let name := r2.takeWhile (fun e => !(isWsChar e || e == '>'))
          let r3 := ((r2.drop name.length).dropWhile (fun e => e != '>')).drop 1
          if name.headD ' ' |>.isAlpha then
            .endTag ⟨name.map Char.toLower⟩ :: tokenizeF f r3
          else tokenizeF f r3
        else if d = '!' then
          match r2 with
          | '-' :: '-' :: r3 => tokenizeF f (skipCommentEnd r3)
          | _ => tokenizeF f ((r2.dropWhile (fun e => e != '>')).drop 1)
        else if d.isAlpha then
          let name := rest.takeWhile (fun e => !isNameEnd e)
          let (attrs, sc, r3) := readAttrsF f (rest.drop name.length)
          .startTag ⟨name.map Char.toLower⟩ (dedupAttrs attrs) sc ::
            tokenizeF f r3
        else .chars "<" :: tokenizeF f rest
    else
      let t := (c :: rest).takeWhile (fun d => d != '<')
      .chars ⟨decodeEntities t⟩ :: tokenizeF f ((c :: rest).drop t.length)

/-- Fuelled tree construction from a token stream: read nodes until the
closing tag named `stop` (left unconsumed for the caller), ignoring
unmatched closing tags; void and self-closing elements take no children. -/
def buildNodesF : Nat → List Token → Option String → (HtmlList × List Token)
  | 0, toks, _ => (.nil, toks)
  | _ + 1, [], _ => (.nil, [])
  | f + 1, .chars s :: rest, stop =>
    let (ns, r) := buildNodesF f rest stop
    (.cons (.text s) ns, r)
  | f + 1, .endTag n :: rest, stop =>
    if stop = some n then (.nil, .endTag n :: rest)
    else buildNodesF f rest stop
  | f + 1, .startTag n attrs sc :: rest, stop =>
    if voidTags.contains n || sc then
      let (ns, r) := buildNodesF f rest stop
      (.cons (.elem n attrs .nil) ns, r)
    else
      let (children, r1) := buildNodesF f rest (some n)
      let r2 := match r1 with
        | .endTag m :: r => if m = n then r else r1
        | _ => r1
      let (ns, r3) := buildNodesF f r2 stop
      (.cons (.elem n attrs children) ns, r3)

/-- Modelled from the spec: permissive parsing of an HTML fragment into the
document model (section 4.2, step 1). -/
def parseHtml (s : String) : HtmlList :=
  let toks := tokenizeF (s.data.length + 1) s.data
  normalizeTexts (buildNodesF (2 * toks.length + 2) toks none).1

-- ===========================================================================
-- The public sanitization operations
-- ===========================================================================

/-- The value passed to `sanitizeWordPressHtml`, whose signature admits
`string | null | undefined`. -/
inductive WpInput where
  | null : WpInput
  | undef : WpInput
  | str : String → WpInput

/-- Sanitizes HTML content from WordPress (translated from
`sanitizeWordPressHtml`: falsy input yields the empty string, everything
else runs through the sanitize-html engine under `wpConfig`).  `siteUrl`
models the `NEXT_PUBLIC_SITE_URL` environment value with its
`http://localhost` default already applied. -/
def sanitizeWordPressHtml (siteUrl : String) : WpInput → String
  | .null => ""
  | .undef => ""
  | .str s =>
    if s == "" then ""
    else serializeList (sanitizeFragment wpConfig siteUrl (parseHtml s))

/-- Sanitizes HTML for Gutenberg block fallback rendering (translated from
`sanitizeBlockHtml`, a direct delegation). -/
def sanitizeBlockHtml (siteUrl : String) (innerHTML : WpInput) : String :=
  sanitizeWordPressHtml siteUrl innerHTML

/-- The sanitize-html options the `Text` component passes when cleaning its
string children (translated from `src/components/primitives/Text/Text.tsx`):
tags `strong`, `em`, `span`; attributes `class` on `span` only; no
repository transforms or filters; the library's default scheme handling. -/
def textComponentConfig : SanitizeConfig :=
  { allowedTags := ["strong", "em", "span"]
  , attrOk := fun tag name => tag == "span" && name == "class"
  , schemesFor := fun _ => ["http", "https", "ftp", "mailto"]
  , urlAttrs := ["href", "src", "cite"]
  , useTransforms := false
  , dropEmptyP := false }

/-- The inline-context sanitization performed by the `Text` component on its
string children: the same sanitize-html engine under
`textComponentConfig`. -/
def sanitizeForInlineContext (s : String) : String :=
  serializeList (sanitizeFragment textComponentConfig "http://localhost"
    (parseHtml s))

/-- The sanitization the spec's words describe for the inline variant: the
main engine's configuration restricted to a bold/italic/span/anchor/
line-break allow-list (stated for comparison with
`sanitizeForInlineContext`). -/
def specInlineConfig : SanitizeConfig :=
  { wpConfig with allowedTags := ["b", "i", "strong", "em", "span", "a", "br"] }

/-- The main engine restricted to the spec's inline allow-list. -/
def specInlineSanitize (s : String) : String :=
  serializeList (sanitizeFragment specInlineConfig "http://localhost"
    (parseHtml s))


-- ===========================================================================
-- Helper lemmas
-- ===========================================================================

/-- A membership form of `List.contains` for strings. -/
theorem contains_iff_mem (l : List String) (a : String) :
    l.contains a = true ↔ a ∈ l :=
  List.elem_iff

/-- A slug accepted by `isValidSlug` is nonempty. -/
theorem isValidSlug_ne_empty {slug : String} (h : isValidSlug slug = true) :
    (slug == "") = false := by
  by_cases hs : slug = ""
  · subst hs; exact absurd h (by decide)
  · simpa using hs

-- ===========================================================================
-- C5
-- ===========================================================================

/-- C5: `isAllowedIframeSrc src` is true exactly when `src` parses as an
absolute URL whose hostname is literally one of the six allowed embed hosts;
it fails closed on unparsable input (including the empty string and
`not-a-url`), rejects `https://evil.com/embed`, and performs no subdomain
matching (`evil.youtube.com` is rejected). -/
theorem C5_embed_allowlist :
    (∀ src : String, isAllowedIframeSrc src = true ↔
        ∃ u, parseUrl src = some u ∧ u.hostname ∈ ALLOWED_IFRAME_HOSTS)
    ∧ isAllowedIframeSrc "https://www.youtube.com/embed/abc" = true
    ∧ isAllowedIframeSrc "https://evil.com/embed" = false
    ∧ isAllowedIframeSrc "not-a-url" = false
    ∧ isAllowedIframeSrc "" = false
    ∧ isAllowedIframeSrc "https://evil.youtube.com/embed" = false := by
  refine ⟨?_, by decide, by decide, by decide, by decide, by decide⟩
  intro src
  unfold isAllowedIframeSrc
  cases h : parseUrl src with
  | none => simp
  | some u => simpa using (contains_iff_mem ALLOWED_IFRAME_HOSTS u.hostname)

-- ===========================================================================
-- C7
-- ===========================================================================

/-- C7: `sanitizeWordPressHtml` is a total function (the embedding has no
exceptional path, modelling "never throws"), and `null`, `undefined` and the
empty string all map to the empty string, for every site origin. -/
theorem C7_null_safety :
    ∀ site : String,
      sanitizeWordPressHtml site .null = ""
      ∧ sanitizeWordPressHtml site .undef = ""
      ∧ sanitizeWordPressHtml site (.str "") = "" := by
  intro site
  exact ⟨rfl, rfl, rfl⟩

-- ===========================================================================
-- C8
-- ===========================================================================

/-- C8: `isValidSlug` returns false exactly when the slug is empty or
whitespace-only, contains `..`, starts with `/`, contains a backslash, or
contains a NUL byte — and returns true for every other string; each route
builder returns the safe default `/blog` when the slug is missing or
invalid, and otherwise its route with the slug percent-encoded. -/
theorem C8_slug_validation :
    (∀ slug : String, isValidSlug slug = false ↔
        (slug = "" ∨ jsTrim slug = "" ∨ strContains slug ".." = true
         ∨ strStarts slug "/" = true ∨ slug.data.contains '\\' = true
         ∨ slug.data.contains '\x00' = true))
    ∧ (getCategoryUrl none = "/blog" ∧ getAuthorUrl none = "/blog"
       ∧ getPostUrl none = "/blog" ∧ getTagUrl none = "/blog")
    ∧ (∀ slug, isValidSlug slug = false →
        getCategoryUrl (some slug) = "/blog" ∧ getAuthorUrl (some slug) = "/blog"
        ∧ getPostUrl (some slug) = "/blog" ∧ getTagUrl (some slug) = "/blog")
    ∧ (∀ slug, isValidSlug slug = true →
        getCategoryUrl (some slug) = "/blog/category/" ++ encodeURIComponent slug
        ∧ getAuthorUrl (some slug) = "/blog/author/" ++ encodeURIComponent slug
        ∧ getPostUrl (some slug) = "/blog/" ++ encodeURIComponent slug
        ∧ getTagUrl (some slug) = "/blog/tag/" ++ encodeURIComponent slug) := by
  refine ⟨?_, ⟨rfl, rfl, rfl, rfl⟩, ?_, ?_⟩
  · intro slug
    unfold isValidSlug
    split_ifs with h1 h2 h3 h4 h5 h6 <;> simp_all
  · intro slug h
    have hne := h
    unfold getCategoryUrl getAuthorUrl getPostUrl getTagUrl
    simp [h]
  · intro slug h
    unfold getCategoryUrl getAuthorUrl getPostUrl getTagUrl
    simp [h, isValidSlug_ne_empty h]

/-- Witness for C8 at concrete slugs. -/
theorem C8_slug_validation_witness :
    getCategoryUrl (some "web-design") = "/blog/category/web-design"
    ∧ getPostUrl (some "../etc/passwd") = "/blog" :=
  ⟨((C8_slug_validation.2.2.2 "web-design" (by decide)).1).trans (by decide),
   (C8_slug_validation.2.2.1 "../etc/passwd" (by decide)).2.2.1⟩

-- ===========================================================================
-- C10
-- ===========================================================================

/-- C10: `extractSlugFromUrl` returns either `none` or a slug satisfying
`isValidSlug` — on the URL-parsing path and on the regex fallback path
alike. -/
theorem C10_extract_slug_valid :
    ∀ (wpUrl slug : String),
      extractSlugFromUrl wpUrl = some slug → isValidSlug slug = true := by
  intro u s h
  unfold extractSlugFromUrl at h
  split at h
  · exact absurd h (by simp)
  · split at h
    · dsimp only at h
      split at h
      · exact absurd h (by simp)
      · split at h
        · exact absurd h (by simp)
        · simp_all
    · split at h
      · exact absurd h (by simp)
      · split at h
        · exact absurd h (by simp)
        · simp_all

/-- Witness for C10 at a concrete WordPress URL. -/
theorem C10_extract_slug_valid_witness : isValidSlug "web-design" = true :=
  C10_extract_slug_valid "https://wp.example.com/category/web-design/"
    "web-design" (by decide)

-- ===========================================================================
-- Attribute-list and rel-token lemmas
-- ===========================================================================

/-- Reading back the attribute just set. -/
theorem getAttrD_setAttr_self (a : List (String × String)) (n v d : String) :
    getAttrD (setAttr a n v) n d = v := by
  induction a with
  | nil => simp [setAttr, getAttrD]
  | cons x rest ih =>
    by_cases hx : x.1 = n
    · simp [setAttr, hx, getAttrD]
    · simp only [setAttr, beq_iff_eq, hx, if_false]
      simpa [getAttrD, List.find?_cons, show (x.1 == n) = false by simpa using hx]
        using ih

/-- Setting one attribute leaves the others unchanged. -/
theorem getAttrD_setAttr_ne (a : List (String × String)) (n m v d : String)
    (h : m ≠ n) : getAttrD (setAttr a n v) m d = getAttrD a m d := by
  induction a with
  | nil => simp [setAttr, getAttrD, List.find?_cons,
      show (n == m) = false by simpa using fun e => h e.symm]
  | cons x rest ih =>
    by_cases hx : x.1 = n
    · simp [setAttr, hx, getAttrD, List.find?_cons,
        show (n == m) = false by simpa using fun e => h e.symm,
        show (x.1 == m) = false by simpa [hx] using fun e => h e.symm]
    · simp only [setAttr, beq_iff_eq, hx, if_false]
      by_cases hm : x.1 = m
      · simp [getAttrD, List.find?_cons, show (x.1 == m) = true by simpa using hm]
      · simpa [getAttrD, List.find?_cons,
          show (x.1 == m) = false by simpa using hm] using ih

/-- `setAttr` preserves a pointwise attribute property. -/
theorem all_setAttr (p : String × String → Bool) (a : List (String × String))
    (n v : String) (ha : a.all p = true) (hp : p (n, v) = true) :
    (setAttr a n v).all p = true := by
  induction a with
  | nil => simpa [setAttr] using hp
  | cons x rest ih =>
    simp only [List.all_cons, Bool.and_eq_true] at ha
    by_cases hx : x.1 = n
    · simp [setAttr, hx, hp, ha.2]
    · simp [setAttr, hx, ha.1, ih ha.2]

/-- Membership in the seen-set-accumulating deduplication worker. -/
theorem mem_dedupFirst_go (l : List String) :
    ∀ (seen : List String) (t : String),
      t ∈ dedupFirst.go seen l ↔ (t ∈ l ∧ t ∉ seen) := by
  induction l with
  | nil => intro seen t; simp [dedupFirst.go]
  | cons a l ih =>
    intro seen t
    by_cases hmem : a ∈ seen
    · simp only [dedupFirst.go, hmem, if_true, ih, List.mem_cons]
      constructor
      · rintro ⟨h1, h2⟩; exact ⟨Or.inr h1, h2⟩
      · rintro ⟨h1 | h1, h2⟩
        · exact absurd (h1 ▸ hmem) h2
        · exact ⟨h1, h2⟩
    · simp only [dedupFirst.go, hmem, if_false, List.mem_cons, ih]
      constructor
      · rintro (rfl | ⟨h1, h2⟩)
        · exact ⟨Or.inl rfl, hmem⟩
        · exact ⟨Or.inr h1, fun hs => h2 (Or.inr hs)⟩
      · rintro ⟨rfl | h1, h2⟩
        · exact Or.inl rfl
        · by_cases hta : t = a
          · exact Or.inl hta
          · exact Or.inr ⟨h1, by simp [hta, h2]⟩

/-- The deduplication worker produces duplicate-free output. -/
theorem nodup_dedupFirst_go (l : List String) :
    ∀ seen : List String, (dedupFirst.go seen l).Nodup := by
  induction l with
  | nil => intro seen; simp [dedupFirst.go]
  | cons a l ih =>
    intro seen
    by_cases hmem : a ∈ seen
    · simpa [dedupFirst.go, hmem] using ih seen
    · simp only [dedupFirst.go, hmem, if_false, List.nodup_cons]
      refine ⟨fun hm => ?_, ih (a :: seen)⟩
      exact ((mem_dedupFirst_go l (a :: seen) a).mp hm).2 (List.mem_cons_self a seen)

/-- `addToken` keeps existing members. -/
theorem mem_addToken_of_mem {l : List String} {s : String} (t : String)
    (h : s ∈ l) : s ∈ addToken l t := by
  unfold addToken
  split
  · exact h
  · exact List.mem_append_left _ h

/-- `addToken` guarantees its token is a member. -/
theorem mem_addToken_self (l : List String) (t : String) : t ∈ addToken l t := by
  unfold addToken
  split
  · assumption
  · exact List.mem_append_right _ (List.mem_singleton_self t)

/-- `addToken` preserves freedom from duplicates. -/
theorem nodup_addToken {l : List String} (t : String) (h : l.Nodup) :
    (addToken l t).Nodup := by
  unfold addToken
  split
  · exact h
  · next hnot =>
    refine List.Nodup.append h (List.nodup_singleton t) ?_
    intro x hx hxt
    rcases List.mem_singleton.mp hxt with rfl
    exact hnot hx

/-- The merged `rel` token list contains every original token. -/
theorem mem_mergeRelTokens_of_mem {r t : String} (h : t ∈ relTokens r) :
    t ∈ mergeRelTokens r := by
  unfold mergeRelTokens
  exact mem_addToken_of_mem _ (mem_addToken_of_mem _
    ((mem_dedupFirst_go (relTokens r) [] t).mpr ⟨h, by simp⟩))

/-- The merged `rel` token list contains `noopener`. -/
theorem mem_mergeRelTokens_noopener (r : String) :
    "noopener" ∈ mergeRelTokens r :=
  mem_addToken_of_mem _ (mem_addToken_self _ _)

/-- The merged `rel` token list contains `noreferrer`. -/
theorem mem_mergeRelTokens_noreferrer (r : String) :
    "noreferrer" ∈ mergeRelTokens r :=
  mem_addToken_self _ _

/-- The merged `rel` token list is duplicate-free. -/
theorem nodup_mergeRelTokens (r : String) : (mergeRelTokens r).Nodup :=
  nodup_addToken _ (nodup_addToken _ (nodup_dedupFirst_go _ []))

-- ===========================================================================
-- C3
-- ===========================================================================

/-- C3: with site origin `https://example.com` the externality test accepts
all six bypass-attempt hrefs as external and all five internal forms as
internal; every anchor classified external gets `noopener` and `noreferrer`
merged into its deduplicated, space-separated `rel` value while keeping all
existing tokens, and every anchor classified internal keeps its attributes
untouched. -/
theorem C3_external_links :
    (isExternal "https://example.com" "https://evil.com/example.com" "" = true
     ∧ isExternal "https://example.com" "https://evil.com?x=example.com" "" = true
     ∧ isExternal "https://example.com" "https://evil.com#example.com" "" = true
     ∧ isExternal "https://example.com" "https://example.com.evil.com" "" = true
     ∧ isExternal "https://example.com" "https://example.com:pw@evil.com" "" = true
     ∧ isExternal "https://example.com" "//evil.com" "" = true
     ∧ isExternal "https://example.com" "/about" "" = false
     ∧ isExternal "https://example.com" "#section" "" = false
     ∧ isExternal "https://example.com" "mailto:a@example.com" "" = false
     ∧ isExternal "https://example.com" "tel:+123" "" = false
     ∧ isExternal "https://example.com" "https://example.com:8080/x" "" = false)
    ∧ (∀ site attrs,
        isExternal site (getAttrD attrs "href" "") (getAttrD attrs "target" "")
          = true →
        transformA site attrs =
          setAttr attrs "rel" (joinSpace (mergeRelTokens (getAttrD attrs "rel" "")))
        ∧ getAttrD (transformA site attrs) "rel" ""
            = joinSpace (mergeRelTokens (getAttrD attrs "rel" ""))
        ∧ "noopener" ∈ mergeRelTokens (getAttrD attrs "rel" "")
        ∧ "noreferrer" ∈ mergeRelTokens (getAttrD attrs "rel" "")
        ∧ (mergeRelTokens (getAttrD attrs "rel" "")).Nodup
        ∧ ∀ t ∈ relTokens (getAttrD attrs "rel" ""),
            t ∈ mergeRelTokens (getAttrD attrs "rel" ""))
    ∧ (∀ site attrs,
        isExternal site (getAttrD attrs "href" "") (getAttrD attrs "target" "")
          = false →
        transformA site attrs = attrs) := by
  refine ⟨by decide, ?_, ?_⟩
  · intro site attrs h
    have he : transformA site attrs =
        setAttr attrs "rel" (joinSpace (mergeRelTokens (getAttrD attrs "rel" ""))) := by
      unfold transformA
      simp [h, mergeRel]
    refine ⟨he, ?_, mem_mergeRelTokens_noopener _, mem_mergeRelTokens_noreferrer _,
      nodup_mergeRelTokens _, fun t ht => mem_mergeRelTokens_of_mem ht⟩
    rw [he, getAttrD_setAttr_self]
  · intro site attrs h
    unfold transformA
    simp [h]

/-- Witness for C3 at a concrete external anchor carrying `rel="nofollow"`. -/
theorem C3_external_links_witness :
    transformA "https://example.com"
        [("href", "https://evil.com/x"), ("rel", "nofollow")]
      = [("href", "https://evil.com/x"),
         ("rel", "nofollow noopener noreferrer")]
    ∧ transformA "https://example.com" [("href", "/about")]
      = [("href", "/about")] :=
  ⟨((C3_external_links.2.1 "https://example.com"
      [("href", "https://evil.com/x"), ("rel", "nofollow")] (by decide)).1).trans
    (by decide),
   C3_external_links.2.2 "https://example.com" [("href", "/about")] (by decide)⟩

-- ===========================================================================
-- Output invariants of the sanitizer engine
-- ===========================================================================

/-- Whether every element of a fragment (at any depth) satisfies a predicate
on its tag and attribute list. -/
def allElemsSat (p : String → List (String × String) → Bool) : HtmlList → Bool
  | .nil => true
  | .cons (.text _) xs => allElemsSat p xs
  | .cons (.elem t a children) xs =>
    p t a && allElemsSat p children && allElemsSat p xs

/-- A list filtered by a predicate satisfies that predicate throughout. -/
theorem filter_all_self {α : Type} (p : α → Bool) (l : List α) :
    (l.filter p).all p = true := by
  simp only [List.all_eq_true]
  intro a ha
  exact (List.mem_filter.mp ha).2

/-- Filtering preserves an `all` property. -/
theorem all_of_all_filter {α : Type} (p q : α → Bool) (l : List α)
    (h : l.all q = true) : (l.filter p).all q = true := by
  simp only [List.all_eq_true] at h ⊢
  intro a ha
  exact h a (List.mem_filter.mp ha).1

/-- Text-node normalization leaves the element predicate untouched. -/
theorem allElemsSat_normalizeTexts (p : String → List (String × String) → Bool) :
    (l : HtmlList) → allElemsSat p (normalizeTexts l) = allElemsSat p l
  | .nil => rfl
  | .cons (.text a) rest => by
    have ih := allElemsSat_normalizeTexts p rest
    simp only [normalizeTexts]
    cases hnr : normalizeTexts rest with
    | nil =>
      rw [hnr] at ih
      split <;> (try split) <;> simp_all [allElemsSat]
    | cons y more =>
      rw [hnr] at ih
      cases y <;> split <;> (try split) <;> simp_all [allElemsSat]
  | .cons (.elem t as cs) rest => by
    simp [normalizeTexts, allElemsSat, allElemsSat_normalizeTexts p rest]

/-- The element invariant established by `sanitizeWordPressHtml`'s
configuration: allowed tag, allow-listed attribute names, allowed URL
schemes on URL-bearing attributes, and for iframes an allow-listed source
with a nonempty `loading` attribute. -/
def wpElemOk (t : String) (a : List (String × String)) : Bool :=
  ALLOWED_TAGS.contains t
  && a.all (fun x => attrNameAllowed t x.1)
  && a.all (fun x => !wpConfig.urlAttrs.contains x.1
      || schemeAllowedValue (effectiveSchemes t) x.2)
  && (t != "iframe"
      || (isAllowedIframeSrc (getAttrD a "src" "")
          && getAttrD a "loading" "" != ""))

theorem allElemsSat_append (p : String → List (String × String) → Bool) :
    (a : HtmlList) → (b : HtmlList) →
      allElemsSat p (HtmlList.append a b)
        = (allElemsSat p a && allElemsSat p b)
  | .nil, b => by simp [HtmlList.append, allElemsSat]
  | .cons (.text s) xs, b => by
    simp [HtmlList.append, allElemsSat, allElemsSat_append p xs b]
  | .cons (.elem t a c) xs, b => by
    simp [HtmlList.append, allElemsSat, allElemsSat_append p xs b,
      Bool.and_assoc]

theorem all_transformA (site : String) (attrs : List (String × String))
    (p : String × String → Bool) (hp : attrs.all p = true)
    (hrel : ∀ v, p ("rel", v) = true) : (transformA site attrs).all p = true := by
  unfold transformA
  dsimp only
  split
  · exact all_setAttr p attrs "rel" _ hp (hrel _)
  · exact hp

/-- Introduction form for the element invariant on non-iframe elements. -/
theorem wpElemOk_intro (tag : String) (attrs : List (String × String))
    (hc : ALLOWED_TAGS.contains tag = true) (hni : tag ≠ "iframe")
    (h1 : attrs.all (fun x => attrNameAllowed tag x.1) = true)
    (h2 : attrs.all (fun x => !wpConfig.urlAttrs.contains x.1
        || schemeAllowedValue (effectiveSchemes tag) x.2) = true) :
    wpElemOk tag attrs = true := by
  unfold wpElemOk
  rw [hc, h1, h2]
  simp [hni]

/-- Introduction form for the element invariant on iframes. -/
theorem wpElemOk_iframe_intro (attrs : List (String × String))
    (h1 : attrs.all (fun x => attrNameAllowed "iframe" x.1) = true)
    (h2 : attrs.all (fun x => !wpConfig.urlAttrs.contains x.1
        || schemeAllowedValue (effectiveSchemes "iframe") x.2) = true)
    (hsrc : isAllowedIframeSrc (getAttrD attrs "src" "") = true)
    (hload : getAttrD attrs "loading" "" ≠ "") :
    wpElemOk "iframe" attrs = true := by
  unfold wpElemOk
  rw [show ALLOWED_TAGS.contains "iframe" = true from by decide, h1, h2, hsrc]
  simp [hload]

/-- The blocked-embed placeholder or the lazily-loading iframe produced by
the iframe transform satisfies the element invariant. -/
theorem transformIframe_wpElemOk (attrs2 : List (String × String))
    (kids : HtmlList)
    (h1 : attrs2.all (fun x => attrNameAllowed "iframe" x.1) = true)
    (h2 : attrs2.all (fun x => !wpConfig.urlAttrs.contains x.1
        || schemeAllowedValue (effectiveSchemes "iframe") x.2) = true)
    (hk : allElemsSat wpElemOk kids = true) :
    allElemsSat wpElemOk (.cons (transformIframe attrs2 kids) .nil) = true := by
  unfold transformIframe
  dsimp only
  by_cases hsrc : isAllowedIframeSrc (getAttrD attrs2 "src" "") = true
  · rw [if_neg (by simp [hsrc])]
    simp only [allElemsSat, Bool.and_true, Bool.and_eq_true]
    refine ⟨?_, hk⟩
    have hne : "src" ≠ "loading" := by decide
    refine wpElemOk_iframe_intro _ ?_ ?_ ?_ ?_
    · exact all_setAttr _ attrs2 "loading" _ h1
        (show attrNameAllowed "iframe" "loading" = true by decide)
    · refine all_setAttr _ attrs2 "loading" _ h2 ?_
      show (!wpConfig.urlAttrs.contains "loading" || _) = true
      rw [show wpConfig.urlAttrs.contains "loading" = false from by decide]
      rfl
    · rw [getAttrD_setAttr_ne attrs2 "loading" "src" _ _ hne]
      exact hsrc
    · rw [getAttrD_setAttr_self]
      by_cases hl : getAttrD attrs2 "loading" "" = ""
      · rw [if_pos (by simp [hl])]
        decide
      · rw [if_neg (by simp [hl])]
        exact hl
  · rw [if_pos (by simp [hsrc])]
    decide

theorem processElem_wpElemOk (site tag : String)
    (attrs : List (String × String)) (kids : HtmlList)
    (hk : allElemsSat wpElemOk kids = true) :
    allElemsSat wpElemOk (processElem wpConfig site tag attrs kids) = true := by
  unfold processElem
  by_cases htag : tag ∈ wpConfig.allowedTags
  case neg =>
    rw [if_pos (by simpa [contains_iff_mem] using htag)]
    rfl
  case pos =>
    rw [if_neg (by simpa [contains_iff_mem] using htag)]
    dsimp only
    have htagc : ALLOWED_TAGS.contains tag = true :=
      (contains_iff_mem _ _).mpr htag
    have hA1 : (attrs.filter (fun a => wpConfig.attrOk tag a.1)).all
        (fun x => attrNameAllowed tag x.1) = true := by
      have h := filter_all_self (fun a => wpConfig.attrOk tag a.1) attrs
      exact h
    have hA1' : ((attrs.filter (fun a => wpConfig.attrOk tag a.1)).filter
        (fun a => !wpConfig.urlAttrs.contains a.1
          || schemeAllowedValue (wpConfig.schemesFor tag) a.2)).all
        (fun x => attrNameAllowed tag x.1) = true :=
      all_of_all_filter _ _ _ hA1
    have hA2 : ((attrs.filter (fun a => wpConfig.attrOk tag a.1)).filter
        (fun a => !wpConfig.urlAttrs.contains a.1
          || schemeAllowedValue (wpConfig.schemesFor tag) a.2)).all
        (fun x => !wpConfig.urlAttrs.contains x.1
          || schemeAllowedValue (effectiveSchemes tag) x.2) = true :=
      filter_all_self _ _
    by_cases hif : tag = "iframe"
    · subst hif
      rw [if_pos (by decide)]
      rw [if_neg (show ¬voidTags.contains "iframe" = true by decide)]
      exact transformIframe_wpElemOk _ _ hA1' hA2 hk
    · rw [if_neg (by simp [hif])]
      by_cases hv : voidTags.contains tag = true
      · rw [if_pos hv]
        by_cases hdrop : (wpConfig.dropEmptyP && tag == "p"
            && emptyParagraph HtmlList.nil) = true
        · rw [if_pos hdrop]; rfl
        · rw [if_neg hdrop]
          simp only [allElemsSat, Bool.and_true]
          by_cases ha : tag = "a"
          · subst ha
            rw [if_pos (by decide)]
            refine wpElemOk_intro _ _ htagc hif ?_ ?_
            · exact all_transformA _ _ _ hA1'
                (fun v => show attrNameAllowed "a" "rel" = true by decide)
            · refine all_transformA _ _ _ hA2 (fun v => ?_)
              show (!wpConfig.urlAttrs.contains "rel" || _) = true
              rw [show wpConfig.urlAttrs.contains "rel" = false from by decide]
              rfl
          · rw [if_neg (by simp [ha])]
            exact wpElemOk_intro _ _ htagc hif hA1' hA2
      · rw [if_neg hv]
        by_cases hdrop : (wpConfig.dropEmptyP && tag == "p"
            && emptyParagraph kids) = true
        · rw [if_pos hdrop]; rfl
        · rw [if_neg hdrop]
          simp only [allElemsSat, Bool.and_true]
          rw [hk, Bool.and_true]
          by_cases ha : tag = "a"
          · subst ha
            rw [if_pos (by decide)]
            refine wpElemOk_intro _ _ htagc hif ?_ ?_
            · exact all_transformA _ _ _ hA1'
                (fun v => show attrNameAllowed "a" "rel" = true by decide)
            · refine all_transformA _ _ _ hA2 (fun v => ?_)
              show (!wpConfig.urlAttrs.contains "rel" || _) = true
              rw [show wpConfig.urlAttrs.contains "rel" = false from by decide]
              rfl
          · rw [if_neg (by simp [ha])]
            exact wpElemOk_intro _ _ htagc hif hA1' hA2

/-- The sanitizer's output under the repository configuration satisfies the
element invariant throughout. -/
theorem sanitize_wpElemOk (site : String) : (l : HtmlList) →
    allElemsSat wpElemOk (sanitizeList wpConfig site l) = true
  | .nil => rfl
  | .cons (.text s) xs => by
    simpa [sanitizeList, allElemsSat] using sanitize_wpElemOk site xs
  | .cons (.elem tag attrs children) xs => by
    have ihc := sanitize_wpElemOk site children
    have ihx := sanitize_wpElemOk site xs
    simp only [sanitizeList]
    rw [allElemsSat_append,
      processElem_wpElemOk site tag attrs _
        (by rw [allElemsSat_normalizeTexts]; exact ihc),
      ihx]
    rfl

/-- Weakening of fragment-wide element predicates. -/
theorem allElemsSat_mono (p q : String → List (String × String) → Bool)
    (hpq : ∀ t a, p t a = true → q t a = true) :
    (l : HtmlList) → allElemsSat p l = true → allElemsSat q l = true
  | .nil, _ => rfl
  | .cons (.text s) xs, h => allElemsSat_mono p q hpq xs h
  | .cons (.elem t a c) xs, h => by
    simp only [allElemsSat, Bool.and_eq_true] at h ⊢
    exact ⟨⟨hpq t a h.1.1, allElemsSat_mono p q hpq c h.1.2⟩,
      allElemsSat_mono p q hpq xs h.2⟩

/-- The element invariant holds of every element of a fully sanitized
fragment. -/
theorem sanitizeFragment_wpElemOk (site : String) (l : HtmlList) :
    allElemsSat wpElemOk (sanitizeFragment wpConfig site l) = true := by
  unfold sanitizeFragment
  rw [allElemsSat_normalizeTexts]
  exact sanitize_wpElemOk site l

-- ===========================================================================
-- C1
-- ===========================================================================

/-- C1: an element whose tag is not in `ALLOWED_TAGS` contributes nothing to
the sanitizer's output — the element, its attributes and its whole subtree
(text included) are discarded; every element of the output carries an
allowed tag; and on the concrete script scenario the output keeps `Hello`
and `World` while containing no case-insensitive `<script` and no
`alert`. -/
theorem C1_disallowed_tags_removed :
    (∀ (site tag : String) (attrs : List (String × String))
        (children rest : HtmlList), ALLOWED_TAGS.contains tag = false →
        sanitizeList wpConfig site (.cons (.elem tag attrs children) rest)
          = sanitizeList wpConfig site rest)
    ∧ (∀ (site : String) (l : HtmlList),
        allElemsSat (fun t _ => ALLOWED_TAGS.contains t)
          (sanitizeFragment wpConfig site l) = true)
    ∧ (sanitizeWordPressHtml "http://localhost"
        (.str "<p>Hello</p><script>alert(1)</script><p>World</p>")
          = "<p>Hello</p><p>World</p>"
       ∧ strContains (sanitizeWordPressHtml "http://localhost"
          (.str "<p>Hello</p><script>alert(1)</script><p>World</p>")) "Hello"
          = true
       ∧ strContains (sanitizeWordPressHtml "http://localhost"
          (.str "<p>Hello</p><script>alert(1)</script><p>World</p>")) "World"
          = true
       ∧ strContainsCI (sanitizeWordPressHtml "http://localhost"
          (.str "<p>Hello</p><script>alert(1)</script><p>World</p>")) "<script"
          = false
       ∧ strContains (sanitizeWordPressHtml "http://localhost"
          (.str "<p>Hello</p><script>alert(1)</script><p>World</p>")) "alert"
          = false) := by
  refine ⟨?_, ?_, by decide, by decide, by decide, by decide, by decide⟩
  · intro site tag attrs children rest h
    have htag : ¬ tag ∈ wpConfig.allowedTags := fun hm => by
      have hc : ALLOWED_TAGS.contains tag = true := (contains_iff_mem _ _).mpr hm
      rw [hc] at h
      simp at h
    simp only [sanitizeList]
    rw [show processElem wpConfig site tag attrs
          (normalizeTexts (sanitizeList wpConfig site children)) = .nil from by
        unfold processElem
        rw [if_pos (by simpa [contains_iff_mem] using htag)]]
    rfl
  · intro site l
    exact allElemsSat_mono wpElemOk _
      (fun t a h => by
        simp only [wpElemOk, Bool.and_eq_true] at h
        exact h.1.1.1)
      _ (sanitizeFragment_wpElemOk site l)

/-- Witness for C1 at the `script` tag. -/
theorem C1_disallowed_tags_removed_witness :
    sanitizeList wpConfig "http://localhost"
        (.cons (.elem "script" [] (.cons (.text "alert(1)") .nil)) .nil)
      = sanitizeList wpConfig "http://localhost" .nil :=
  C1_disallowed_tags_removed.1 "http://localhost" "script" []
    (.cons (.text "alert(1)") .nil) .nil (by decide)

-- ===========================================================================
-- C2
-- ===========================================================================

/-- C2: every URL-bearing attribute surviving in the sanitizer's output has
a scheme in the effective allow-list (the per-tag override when present,
else the global `{http, https, mailto, tel}`); scheme extraction trims
leading whitespace, lower-cases, and sees through encoded-colon variants;
`javascript` and `data` are in no allow-list, and the concrete dangerous
inputs lose the attribute entirely. -/
theorem C2_scheme_filtering :
    (∀ (site : String) (l : HtmlList),
        allElemsSat (fun t a => a.all (fun x =>
            !wpConfig.urlAttrs.contains x.1
            || schemeAllowedValue (effectiveSchemes t) x.2))
          (sanitizeFragment wpConfig site l) = true)
    ∧ schemeOf "javascript:alert(1)" = some "javascript"
    ∧ schemeOf "javascript&#58;alert(1)" = some "javascript"
    ∧ schemeOf "  JaVaScRiPt:alert(1)" = some "javascript"
    ∧ schemeOf "data:text/html,x" = some "data"
    ∧ (∀ tag : String, (effectiveSchemes tag).contains "javascript" = false
        ∧ (effectiveSchemes tag).contains "data" = false)
    ∧ sanitizeWordPressHtml "http://localhost"
        (.str "<a href=\"javascript:alert(1)\">Click me</a>") = "<a>Click me</a>"
    ∧ sanitizeWordPressHtml "http://localhost"
        (.str "<a href=\"javascript&#58;alert(1)\">Click</a>") = "<a>Click</a>"
    ∧ sanitizeWordPressHtml "http://localhost"
        (.str "<a href=\"  JaVaScRiPt:alert(1)\">Click</a>") = "<a>Click</a>"
    ∧ sanitizeWordPressHtml "http://localhost"
        (.str "<img src=\"data:image/svg+xml;base64,AAAA\">") = "<img />"
    ∧ sanitizeWordPressHtml "http://localhost"
        (.str "<video poster=\"javascript:alert(1)\" controls></video>")
        = "<video controls=\"\"></video>"
    ∧ sanitizeWordPressHtml "http://localhost"
        (.str "<blockquote cite=\"javascript:x\">q</blockquote>")
        = "<blockquote>q</blockquote>" := by
  refine ⟨?_, by decide, by decide, by decide, by decide, ?_, by decide,
    by decide, by decide, by decide, by decide, by decide⟩
  · intro site l
    exact allElemsSat_mono wpElemOk _
      (fun t a h => by
        simp only [wpElemOk, Bool.and_eq_true] at h
        exact h.1.2)
      _ (sanitizeFragment_wpElemOk site l)
  · intro tag
    unfold effectiveSchemes allowedSchemesByTag
    constructor <;> (repeat' split) <;> decide

-- ===========================================================================
-- C4
-- ===========================================================================

/-- C4: an iframe whose `src` is missing, empty, unparsable or from a
non-allow-listed host is replaced wholesale by an inert placeholder div
marked `blocked-embed` with a data attribute describing why; a permitted
iframe keeps its attributes and gains `loading="lazy"` when `loading` is
absent or empty, keeping an explicit value otherwise; every iframe in any
sanitized output has an allow-listed source and a nonempty `loading`; and
the concrete blocked scenario produces the placeholder without the literal
src value. -/
theorem C4_iframe_policy :
    (∀ (attrs : List (String × String)) (kids : HtmlList),
        isAllowedIframeSrc (getAttrD attrs "src" "") = false →
        transformIframe attrs kids
          = .elem "div" [("class", "blocked-embed"),
              ("data-blocked-src", "iframe-source-not-allowed")] .nil)
    ∧ (∀ (attrs : List (String × String)) (kids : HtmlList),
        isAllowedIframeSrc (getAttrD attrs "src" "") = true →
        ∃ v, transformIframe attrs kids = .elem "iframe" (setAttr attrs "loading" v) kids
          ∧ v ≠ ""
          ∧ (getAttrD attrs "loading" "" = "" → v = "lazy")
          ∧ (getAttrD attrs "loading" "" ≠ "" → v = getAttrD attrs "loading" ""))
    ∧ (∀ (site : String) (l : HtmlList),
        allElemsSat (fun t a => t != "iframe"
          || (isAllowedIframeSrc (getAttrD a "src" "")
              && getAttrD a "loading" "" != ""))
          (sanitizeFragment wpConfig site l) = true)
    ∧ (sanitizeWordPressHtml "http://localhost"
        (.str "<iframe src=\"https://unknown.com/embed\"></iframe>")
        = "<div class=\"blocked-embed\" data-blocked-src=\"iframe-source-not-allowed\"></div>"
       ∧ strContains (sanitizeWordPressHtml "http://localhost"
          (.str "<iframe src=\"https://unknown.com/embed\"></iframe>"))
          "https://unknown.com/embed" = false
       ∧ sanitizeWordPressHtml "http://localhost"
          (.str "<iframe src=\"https://www.youtube.com/embed/abc123\"></iframe>")
          = "<iframe src=\"https://www.youtube.com/embed/abc123\" loading=\"lazy\"></iframe>"
       ∧ sanitizeWordPressHtml "http://localhost"
          (.str "<iframe src=\"https://www.youtube.com/embed/a\" loading=\"eager\"></iframe>")
          = "<iframe src=\"https://www.youtube.com/embed/a\" loading=\"eager\"></iframe>") := by
  refine ⟨?_, ?_, ?_, by decide, by decide, by decide, by decide⟩
  · intro attrs kids h
    unfold transformIframe
    rw [if_pos (by simp [h])]
  · intro attrs kids h
    refine ⟨if getAttrD attrs "loading" "" == "" then "lazy"
      else getAttrD attrs "loading" "", ?_, ?_, ?_, ?_⟩
    · unfold transformIframe
      rw [if_neg (by simp [h])]
    · by_cases hl : getAttrD attrs "loading" "" = ""
      · rw [if_pos (by simp [hl])]; decide
      · rw [if_neg (by simp [hl])]; exact hl
    · intro hl
      rw [if_pos (by simp [hl])]
    · intro hl
      rw [if_neg (by simp [hl])]
  · intro site l
    exact allElemsSat_mono wpElemOk _
      (fun t a h => by
        simp only [wpElemOk, Bool.and_eq_true] at h
        exact h.2)
      _ (sanitizeFragment_wpElemOk site l)

/-- Witness for C4 at a blocked and at a permitted iframe. -/
theorem C4_iframe_policy_witness :
    transformIframe [("src", "https://unknown.com/embed")] .nil
      = .elem "div" [("class", "blocked-embed"),
          ("data-blocked-src", "iframe-source-not-allowed")] .nil
    ∧ ∃ v, transformIframe [("src", "https://www.youtube.com/embed/a")] .nil
        = .elem "iframe"
            (setAttr [("src", "https://www.youtube.com/embed/a")] "loading" v)
            .nil
      ∧ v ≠ ""
      ∧ (getAttrD [("src", "https://www.youtube.com/embed/a")] "loading" "" = ""
          → v = "lazy")
      ∧ (getAttrD [("src", "https://www.youtube.com/embed/a")] "loading" "" ≠ ""
          → v = getAttrD [("src", "https://www.youtube.com/embed/a")] "loading" "") :=
  ⟨C4_iframe_policy.1 [("src", "https://unknown.com/embed")] .nil (by decide),
   C4_iframe_policy.2.1 [("src", "https://www.youtube.com/embed/a")] .nil (by decide)⟩

-- ===========================================================================
-- C9
-- ===========================================================================

/-- C9 counterexample: the inline-context sanitization (the `Text`
component's cleaning of its string children) does not admit anchors or line
breaks — both are removed — and its output differs from the main engine
restricted to a bold/italic/span/anchor/line-break allow-list on a concrete
input, so it is not that restriction. -/
theorem C9_counterexample :
    sanitizeForInlineContext "<a href=\"https://example.org/\">link</a><br>x"
      = "x"
    ∧ specInlineSanitize "<a href=\"https://example.org/\">link</a><br>x"
      = "<a href=\"https://example.org/\" rel=\"noopener noreferrer\">link</a><br />x"
    ∧ sanitizeForInlineContext "<a href=\"https://example.org/\">link</a><br>x"
      ≠ specInlineSanitize "<a href=\"https://example.org/\">link</a><br>x"
    ∧ sanitizeForInlineContext "<strong class=\"x\">hi</strong>"
      ≠ specInlineSanitize "<strong class=\"x\">hi</strong>" := by
  refine ⟨by decide, by decide, by decide, by decide⟩

/-- C9 (amended): the inline-context sanitization variant used by the `Text`
component invokes the same sanitize-html engine, but with its own options:
an allow-list of exactly `strong`, `em` and `span` (anchors and line breaks
are removed), with `class` permitted on `span` only — so its output is not
the main engine's behavior restricted to a smaller allow-list (`class` on
`strong` is dropped by the variant but kept by the main configuration). -/
theorem C9_amended_inline_variant :
    textComponentConfig.allowedTags = ["strong", "em", "span"]
    ∧ (∀ s : String, sanitizeForInlineContext s
        = serializeList (sanitizeFragment textComponentConfig "http://localhost"
            (parseHtml s)))
    ∧ (∀ tag : String, textComponentConfig.attrOk tag "class" = (tag == "span"))
    ∧ sanitizeForInlineContext
        "<strong>b</strong><em>i</em><span class=\"c\" id=\"z\">s</span>"
      = "<strong>b</strong><em>i</em><span class=\"c\">s</span>"
    ∧ sanitizeForInlineContext "<strong class=\"x\">hi</strong>"
      = "<strong>hi</strong>"
    ∧ specInlineSanitize "<strong class=\"x\">hi</strong>"
      = "<strong class=\"x\">hi</strong>" := by
  refine ⟨rfl, fun s => rfl, ?_, by decide, by decide, by decide⟩
  intro tag
  simp [textComponentConfig]

-- ===========================================================================
-- Idempotence of the engine: text-normalization algebra
-- ===========================================================================

/-- Both components of an empty concatenation are empty. -/
theorem append_eq_empty {a b : String} (h : a ++ b = "") : a = "" ∧ b = "" := by
  have hd := congrArg String.data h
  rw [String.data_append] at hd
  rcases List.append_eq_nil.mp hd with ⟨h1, h2⟩
  exact ⟨String.ext (by simp [h1]), String.ext (by simp [h2])⟩

/-- The effect of prepending a text node to an already-normalized list. -/
def consText : String → HtmlList → HtmlList
  | a, .cons (.text b) more =>
    if a ++ b == "" then more else .cons (.text (a ++ b)) more
  | a, .nil => if a == "" then .nil else .cons (.text a) .nil
  | a, .cons (.elem t at_ c) more =>
    if a == "" then .cons (.elem t at_ c) more
    else .cons (.text a) (.cons (.elem t at_ c) more)

/-- `normalizeTexts` on a text head is `consText` of the normalized tail. -/
theorem normalizeTexts_cons_text (a : String) (w : HtmlList) :
    normalizeTexts (.cons (.text a) w) = consText a (normalizeTexts w) := by
  simp only [normalizeTexts]
  cases hnw : normalizeTexts w with
  | nil => simp [consText]
  | cons y more => cases y <;> simp [consText]

/-- `normalizeTexts` passes element heads through. -/
theorem normalizeTexts_cons_elem (t : String) (at_ : List (String × String))
    (c w : HtmlList) :
    normalizeTexts (.cons (.elem t at_ c) w)
      = .cons (.elem t at_ c) (normalizeTexts w) := by
  simp only [normalizeTexts]

/-- Top-level normal form: no empty text nodes, no two adjacent text
nodes. -/
def topNormal : HtmlList → Bool
  | .nil => true
  | .cons (.text s) xs =>
    (s != "") && (match xs with
      | .cons (.text _) _ => false
      | _ => topNormal xs)
  | .cons (.elem _ _ _) xs => topNormal xs

/-- `consText` preserves the top-level normal form. -/
theorem topNormal_consText (a : String) (w : HtmlList)
    (hw : topNormal w = true) : topNormal (consText a w) = true := by
  cases w with
  | nil =>
    simp only [consText]
    split <;> simp_all [topNormal]
  | cons y more =>
    cases y with
    | text b =>
      simp only [consText]
      simp only [topNormal, Bool.and_eq_true, bne_iff_ne] at hw
      by_cases hab : a ++ b = ""
      · rw [if_pos (by simp [hab])]
        cases more with
        | nil => rfl
        | cons z zs =>
          cases z with
          | text c => simp at hw
          | elem t at_ cc => exact hw.2
      · rw [if_neg (by simp [hab])]
        simp only [topNormal, Bool.and_eq_true, bne_iff_ne]
        exact ⟨hab, hw.2⟩
    | elem t at_ cc =>
      simp only [consText]
      split <;> simp_all [topNormal]

/-- `normalizeTexts` produces a top-level normal form. -/
theorem topNormal_normalizeTexts : (l : HtmlList) →
    topNormal (normalizeTexts l) = true
  | .nil => rfl
  | .cons (.text a) rest => by
    rw [normalizeTexts_cons_text]
    exact topNormal_consText a _ (topNormal_normalizeTexts rest)
  | .cons (.elem t at_ c) rest => by
    rw [normalizeTexts_cons_elem]
    simpa [topNormal] using topNormal_normalizeTexts rest

/-- The empty string is a left unit for concatenation. -/
theorem empty_append_str (b : String) : "" ++ b = b :=
  String.ext (by simp [String.data_append])

/-- Prepending the empty text to a normalized list changes nothing. -/
theorem consText_empty (w : HtmlList) (hw : topNormal w = true) :
    consText "" w = w := by
  cases w with
  | nil => rfl
  | cons y more =>
    cases y with
    | text b =>
      simp only [topNormal, Bool.and_eq_true, bne_iff_ne] at hw
      simp only [consText]
      rw [if_neg (by simpa [empty_append_str] using hw.1), empty_append_str]
    | elem t at_ c => rfl

/-- `consText` turns string concatenation into composition on normalized
lists. -/
theorem consText_append (a b : String) (w : HtmlList)
    (hw : topNormal w = true) :
    consText (a ++ b) w = consText a (consText b w) := by
  cases w with
  | nil =>
    by_cases hb : b = ""
    · subst hb
      have h0 : consText "" HtmlList.nil = HtmlList.nil := by
        simp [consText]
      rw [h0, String.append_empty]
    · have h0 : consText b HtmlList.nil = .cons (.text b) .nil := by
        simp [consText, hb]
      rw [h0]
      have hab : ¬ a ++ b = "" := fun h => hb (append_eq_empty h).2
      simp only [consText]
  | cons y more =>
    cases y with
    | text c =>
      have hc : c ≠ "" := by
        simp only [topNormal, Bool.and_eq_true, bne_iff_ne] at hw
        exact hw.1
      have hbc : ¬ b ++ c = "" := fun h => hc (append_eq_empty h).2
      have h0 : consText b (.cons (.text c) more) = .cons (.text (b ++ c)) more := by
        simp only [consText]
        rw [if_neg (by simpa using hbc)]
      rw [h0]
      simp only [consText]
      rw [String.append_assoc]
    | elem t at_ cc =>
      by_cases hb : b = ""
      · subst hb
        have h0 : consText "" (HtmlList.cons (.elem t at_ cc) more)
            = .cons (.elem t at_ cc) more := by
          simp [consText]
        rw [h0, String.append_empty]
      · have h0 : consText b (HtmlList.cons (.elem t at_ cc) more)
            = .cons (.text b) (.cons (.elem t at_ cc) more) := by
          simp [consText, hb]
        rw [h0]
        have hab : ¬ a ++ b = "" := fun h => hb (append_eq_empty h).2
        simp only [consText]

/-- Unfolding of the engine on a text head. -/
theorem sanitizeList_cons_text (cfg : SanitizeConfig) (site s : String)
    (xs : HtmlList) :
    sanitizeList cfg site (.cons (.text s) xs)
      = .cons (.text s) (sanitizeList cfg site xs) := by
  simp only [sanitizeList]

/-- Unfolding of the engine on an element head. -/
theorem sanitizeList_cons_elem (cfg : SanitizeConfig) (site tag : String)
    (attrs : List (String × String)) (children xs : HtmlList) :
    sanitizeList cfg site (.cons (.elem tag attrs children) xs)
      = HtmlList.append
          (processElem cfg site tag attrs
            (normalizeTexts (sanitizeList cfg site children)))
          (sanitizeList cfg site xs) := by
  simp only [sanitizeList]

/-- `transformIframe` always yields a single element. -/
theorem transformIframe_shape (attrs : List (String × String))
    (kids : HtmlList) :
    ∃ t a c, transformIframe attrs kids = .elem t a c := by
  unfold transformIframe
  dsimp only
  split
  · exact ⟨_, _, _, rfl⟩
  · exact ⟨_, _, _, rfl⟩

/-- `processElem` yields nothing or a single element node. -/
theorem processElem_shape (cfg : SanitizeConfig) (site tag : String)
    (attrs : List (String × String)) (kids : HtmlList) :
    processElem cfg site tag attrs kids = .nil
    ∨ ∃ t a c, processElem cfg site tag attrs kids
        = .cons (.elem t a c) .nil := by
  unfold processElem
  dsimp only
  repeat' split
  all_goals
    first
      | exact Or.inl rfl
      | exact Or.inr ⟨_, _, _, rfl⟩
      | (obtain ⟨t, a, c, h⟩ := transformIframe_shape _ _
         rw [h]
         exact Or.inr ⟨_, _, _, rfl⟩)

/-- Normalization passes over the element (or nothing) that `processElem`
contributes. -/
theorem norm_append_processElem (cfg : SanitizeConfig) (site tag : String)
    (attrs : List (String × String)) (kids w : HtmlList) :
    normalizeTexts (HtmlList.append (processElem cfg site tag attrs kids) w)
      = HtmlList.append (processElem cfg site tag attrs kids)
          (normalizeTexts w) := by
  rcases processElem_shape cfg site tag attrs kids with h | ⟨t, a, c, h⟩ <;>
    rw [h]
  · rfl
  · show normalizeTexts (.cons (.elem t a c) w)
      = .cons (.elem t a c) (normalizeTexts w)
    exact normalizeTexts_cons_elem t a c w

/-- Normalizing the input fragment first does not change the normalized
output of the engine. -/
theorem norm_sanitize_norm (site : String) : (m : HtmlList) →
    normalizeTexts (sanitizeList wpConfig site (normalizeTexts m))
      = normalizeTexts (sanitizeList wpConfig site m)
  | .nil => rfl
  | .cons (.elem t a c) rest => by
    have ih := norm_sanitize_norm site rest
    rw [normalizeTexts_cons_elem, sanitizeList_cons_elem,
      sanitizeList_cons_elem, norm_append_processElem,
      norm_append_processElem, ih]
  | .cons (.text a) rest => by
    have ih := norm_sanitize_norm site rest
    rw [normalizeTexts_cons_text, sanitizeList_cons_text,
      normalizeTexts_cons_text]
    cases hnr : normalizeTexts rest with
    | nil =>
      have hsr : normalizeTexts (sanitizeList wpConfig site rest) = .nil := by
        rw [← ih, hnr]; rfl
      by_cases ha : a = ""
      · subst ha
        rw [show consText "" HtmlList.nil = HtmlList.nil from rfl, hsr,
          show consText "" HtmlList.nil = HtmlList.nil from rfl]
        rfl
      · rw [show consText a HtmlList.nil = .cons (.text a) .nil from by
            simp [consText, ha],
          sanitizeList_cons_text, normalizeTexts_cons_text, hsr]
        rfl
    | cons y more =>
      cases y with
      | text b =>
        have hb : b ≠ "" := by
          have := topNormal_normalizeTexts rest
          rw [hnr] at this
          simp only [topNormal, Bool.and_eq_true, bne_iff_ne] at this
          exact this.1
        have hab : ¬ a ++ b = "" := fun h => hb (append_eq_empty h).2
        have hconsEq : consText a (.cons (.text b) more)
            = .cons (.text (a ++ b)) more := by
          simp only [consText]
          rw [if_neg (by simpa using hab)]
        have hrest : normalizeTexts (sanitizeList wpConfig site rest)
            = consText b (normalizeTexts (sanitizeList wpConfig site more)) := by
          rw [← ih, hnr, sanitizeList_cons_text, normalizeTexts_cons_text]
        rw [hconsEq, sanitizeList_cons_text, normalizeTexts_cons_text, hrest,
          ← consText_append a b _
            (topNormal_normalizeTexts (sanitizeList wpConfig site more))]
      | elem t at_ cc =>
        have hrest : normalizeTexts (sanitizeList wpConfig site rest)
            = normalizeTexts (sanitizeList wpConfig site
                (.cons (.elem t at_ cc) more)) := by
          rw [← ih, hnr]
        by_cases ha : a = ""
        · subst ha
          rw [show consText "" (HtmlList.cons (.elem t at_ cc) more)
              = .cons (.elem t at_ cc) more from rfl, hrest,
            consText_empty _ (topNormal_normalizeTexts _)]
        · rw [show consText a (HtmlList.cons (.elem t at_ cc) more)
              = .cons (.text a) (.cons (.elem t at_ cc) more) from by
                simp [consText, ha],
            sanitizeList_cons_text, normalizeTexts_cons_text, hrest]

-- ===========================================================================
-- Split/join inverses and idempotence of the transforms
-- ===========================================================================

/-- A separator-free input splits into a single piece. -/
theorem splitCharAux_no_sep_eq (sep : Char) :
    (u : List Char) → (acc : List Char) → (∀ c ∈ u, c ≠ sep) →
    splitCharAux sep u acc = [acc.reverse ++ u]
  | [], acc, _ => by simp [splitCharAux]
  | c :: cs, acc, h => by
    have hc : ¬ c == sep := by simpa using h c (List.mem_cons_self c cs)
    simp only [splitCharAux, hc, Bool.false_eq_true, if_false]
    rw [splitCharAux_no_sep_eq sep cs (c :: acc)
      (fun d hd => h d (List.mem_cons_of_mem c hd))]
    simp

/-- Splitting at the first separator after a separator-free prefix. -/
theorem splitCharAux_append_sep (sep : Char) :
    (u : List Char) → (acc r : List Char) → (∀ c ∈ u, c ≠ sep) →
    splitCharAux sep (u ++ sep :: r) acc
      = (acc.reverse ++ u) :: splitCharAux sep r []
  | [], acc, r, _ => by simp [splitCharAux]
  | c :: cs, acc, r, h => by
    have hc : ¬ c == sep := by simpa using h c (List.mem_cons_self c cs)
    rw [List.cons_append]
    simp only [splitCharAux, hc, Bool.false_eq_true, if_false]
    rw [splitCharAux_append_sep sep cs (c :: acc) r
      (fun d hd => h d (List.mem_cons_of_mem c hd))]
    simp

/-- Every piece produced by the splitter is separator-free. -/
theorem splitCharAux_pieces_no_sep (sep : Char) :
    (l : List Char) → (acc : List Char) → (∀ c ∈ acc, c ≠ sep) →
    ∀ p ∈ splitCharAux sep l acc, ∀ c ∈ p, c ≠ sep
  | [], acc, hacc => by
    intro p hp c hc
    simp only [splitCharAux, List.mem_singleton] at hp
    subst hp
    exact hacc c (List.mem_reverse.mp hc)
  | d :: cs, acc, hacc => by
    intro p hp c hc
    by_cases hd : d == sep
    · simp only [splitCharAux, hd, if_true] at hp
      rcases List.mem_cons.mp hp with rfl | hp
      · exact hacc c (List.mem_reverse.mp hc)
      · exact splitCharAux_pieces_no_sep sep cs [] (by simp) p hp c hc
    · simp only [splitCharAux, hd, Bool.false_eq_true, if_false] at hp
      refine splitCharAux_pieces_no_sep sep cs (d :: acc) ?_ p hp c hc
      intro e he
      rcases List.mem_cons.mp he with rfl | he
      · simpa using hd
      · exact hacc e he

/-- Joining space-free nonempty tokens with spaces and re-splitting is the
identity. -/
theorem relTokens_joinSpace : (toks : List String) →
    (∀ t ∈ toks, t ≠ "" ∧ ∀ c ∈ t.data, c ≠ ' ') →
    relTokens (joinSpace toks) = toks
  | [], _ => by decide
  | [t], h => by
    obtain ⟨ht, hsp⟩ := h t (List.mem_singleton_self t)
    unfold relTokens splitStr joinSpace
    rw [splitCharAux_no_sep_eq ' ' t.data [] hsp]
    simp [ht]
  | t :: t2 :: ts, h => by
    obtain ⟨ht, hsp⟩ := h t (List.mem_cons_self t (t2 :: ts))
    have ih := relTokens_joinSpace (t2 :: ts)
      (fun u hu => h u (List.mem_cons_of_mem t hu))
    unfold relTokens splitStr at ih ⊢
    have hdata : (t ++ " " ++ joinSpace (t2 :: ts)).data
        = t.data ++ ' ' :: (joinSpace (t2 :: ts)).data := by
      simp [String.data_append]
    simp only [joinSpace]
    rw [hdata, splitCharAux_append_sep ' ' t.data [] _ hsp]
    simp only [List.nil_append, List.map_cons, List.filter_cons]
    rw [if_pos (by simpa using ht)]
    exact congrArg (fun l => t :: l) ih

/-- Deduplication is the identity on duplicate-free lists disjoint from the
seen set. -/
theorem dedupFirst_go_eq_self : (l : List String) → (seen : List String) →
    l.Nodup → (∀ t ∈ l, t ∉ seen) → dedupFirst.go seen l = l
  | [], seen, _, _ => rfl
  | t :: ts, seen, hnd, hdisj => by
    simp only [List.nodup_cons] at hnd
    simp only [dedupFirst.go]
    rw [if_neg (hdisj t (List.mem_cons_self t ts))]
    refine congrArg (fun l => t :: l)
      (dedupFirst_go_eq_self ts (t :: seen) hnd.2 ?_)
    intro u hu hmem
    rcases List.mem_cons.mp hmem with rfl | hmem
    · exact hnd.1 hu
    · exact hdisj u (List.mem_cons_of_mem t hu) hmem

/-- `addToken` is the identity when the token is present. -/
theorem addToken_of_mem {l : List String} {t : String} (h : t ∈ l) :
    addToken l t = l := by
  unfold addToken
  rw [if_pos h]

/-- Members of `addToken l x` come from `l` or are `x`. -/
theorem mem_addToken {l : List String} {x s : String}
    (h : s ∈ addToken l x) : s ∈ l ∨ s = x := by
  unfold addToken at h
  split at h
  · exact Or.inl h
  · rcases List.mem_append.mp h with h | h
    · exact Or.inl h
    · exact Or.inr (List.mem_singleton.mp h)

/-- Merged `rel` tokens are nonempty and space-free. -/
theorem mergeRelTokens_wf (r : String) :
    ∀ t ∈ mergeRelTokens r, t ≠ "" ∧ ∀ c ∈ t.data, c ≠ ' ' := by
  intro t ht
  rcases mem_addToken ht with ht | rfl
  · rcases mem_addToken ht with ht | rfl
    · have ht' : t ∈ relTokens r :=
        ((mem_dedupFirst_go (relTokens r) [] t).mp ht).1
      unfold relTokens at ht'
      have htne : t ≠ "" := by
        have := List.mem_filter.mp ht'
        simpa using this.2
      refine ⟨htne, ?_⟩
      have hmem := (List.mem_filter.mp ht').1
      unfold splitStr at hmem
      rcases List.mem_map.mp hmem with ⟨p, hp, rfl⟩
      exact splitCharAux_pieces_no_sep ' ' r.data [] (by simp) p hp
    · exact ⟨by decide, by decide⟩
  · exact ⟨by decide, by decide⟩

/-- Re-merging an already-merged `rel` token list changes nothing. -/
theorem mergeRelTokens_mergeRel (r : String) :
    mergeRelTokens (mergeRel r) = mergeRelTokens r := by
  have h1 : relTokens (mergeRel r) = mergeRelTokens r := by
    show relTokens (joinSpace (mergeRelTokens r)) = mergeRelTokens r
    exact relTokens_joinSpace _ (mergeRelTokens_wf r)
  show addToken (addToken (dedupFirst (relTokens (mergeRel r))) "noopener")
      "noreferrer" = mergeRelTokens r
  rw [h1,
    show dedupFirst (mergeRelTokens r) = mergeRelTokens r from
      dedupFirst_go_eq_self (mergeRelTokens r) []
        (nodup_mergeRelTokens r) (by simp),
    addToken_of_mem (mem_mergeRelTokens_noopener r),
    addToken_of_mem (mem_mergeRelTokens_noreferrer r)]

/-- `mergeRel` is idempotent. -/
theorem mergeRel_idem (r : String) : mergeRel (mergeRel r) = mergeRel r := by
  show joinSpace (mergeRelTokens (mergeRel r)) = mergeRel r
  rw [mergeRelTokens_mergeRel]
  rfl

/-- Re-setting the same attribute value is the identity. -/
theorem setAttr_idem : (a : List (String × String)) → (n v : String) →
    setAttr (setAttr a n v) n v = setAttr a n v
  | [], n, v => by simp [setAttr]
  | x :: rest, n, v => by
    by_cases hx : x.1 = n
    · simp [setAttr, hx]
    · simp only [setAttr, beq_iff_eq, hx, if_false]
      rw [setAttr_idem rest n v]

/-- The anchor transform is idempotent. -/
theorem transformA_idem (site : String) (x : List (String × String)) :
    transformA site (transformA site x) = transformA site x := by
  by_cases h : isExternal site (getAttrD x "href" "") (getAttrD x "target" "")
      = true
  · have h1 : transformA site x
        = setAttr x "rel" (mergeRel (getAttrD x "rel" "")) := by
      unfold transformA
      dsimp only
      rw [if_pos h]
    rw [h1]
    unfold transformA
    dsimp only
    rw [getAttrD_setAttr_ne x "rel" "href" _ _ (by decide),
      getAttrD_setAttr_ne x "rel" "target" _ _ (by decide), if_pos h,
      getAttrD_setAttr_self, mergeRel_idem, setAttr_idem]
  · have h1 : transformA site x = x := by
      unfold transformA
      dsimp only
      rw [if_neg h]
    rw [h1, h1]

/-- `HtmlList.append` has `nil` as right unit. -/
theorem HtmlList.append_nil : (l : HtmlList) → HtmlList.append l .nil = l
  | .nil => rfl
  | .cons x xs => congrArg (fun l => HtmlList.cons x l) (HtmlList.append_nil xs)

/-- `HtmlList.append` is associative. -/
theorem HtmlList.append_assoc : (a b c : HtmlList) →
    HtmlList.append (HtmlList.append a b) c
      = HtmlList.append a (HtmlList.append b c)
  | .nil, b, c => rfl
  | .cons x xs, b, c =>
    congrArg (fun l => HtmlList.cons x l) (HtmlList.append_assoc xs b c)

/-- The engine distributes over fragment concatenation. -/
theorem sanitizeList_append (cfg : SanitizeConfig) (site : String) :
    (u v : HtmlList) →
    sanitizeList cfg site (HtmlList.append u v)
      = HtmlList.append (sanitizeList cfg site u) (sanitizeList cfg site v)
  | .nil, v => rfl
  | .cons (.text s) xs, v => by
    rw [show HtmlList.append (.cons (.text s) xs) v
        = .cons (.text s) (HtmlList.append xs v) from rfl,
      sanitizeList_cons_text, sanitizeList_cons_text,
      sanitizeList_append cfg site xs v]
    rfl
  | .cons (.elem t a c) xs, v => by
    rw [show HtmlList.append (.cons (.elem t a c) xs) v
        = .cons (.elem t a c) (HtmlList.append xs v) from rfl,
      sanitizeList_cons_elem, sanitizeList_cons_elem,
      sanitizeList_append cfg site xs v, HtmlList.append_assoc]

/-- A non-iframe element already in output form is reproduced verbatim by
`processElem`. -/
theorem fixed_elem (site tag : String) (a3 : List (String × String))
    (K : HtmlList)
    (htag : ALLOWED_TAGS.contains tag = true)
    (hni : tag ≠ "iframe")
    (h1 : a3.all (fun x => attrNameAllowed tag x.1) = true)
    (h2 : a3.all (fun x => !wpConfig.urlAttrs.contains x.1
        || schemeAllowedValue (effectiveSchemes tag) x.2) = true)
    (hta : tag = "a" → transformA site a3 = a3)
    (hp : tag = "p" → emptyParagraph K = false)
    (hvoid : voidTags.contains tag = true → K = .nil) :
    processElem wpConfig site tag a3 K = .cons (.elem tag a3 K) .nil := by
  unfold processElem
  rw [if_neg (by simpa [contains_iff_mem] using
    (contains_iff_mem _ tag).mp htag)]
  dsimp only
  rw [show List.filter (fun a => wpConfig.attrOk tag a.1) a3 = a3 from
      List.filter_eq_self.mpr (by simpa [List.all_eq_true] using h1),
    show List.filter (fun a => !wpConfig.urlAttrs.contains a.1
        || schemeAllowedValue (wpConfig.schemesFor tag) a.2) a3 = a3 from
      List.filter_eq_self.mpr (by simpa [List.all_eq_true] using h2)]
  rw [if_neg (by simp [hni])]
  have hK0 : (if voidTags.contains tag = true then HtmlList.nil else K)
      = K := by
    split
    · exact (hvoid (by assumption)).symm
    · rfl
  rw [hK0]
  by_cases ha : tag = "a"
  · subst ha
    rw [if_neg (show ¬(wpConfig.dropEmptyP && "a" == "p"
        && emptyParagraph K) = true by simp [wpConfig]),
      if_pos (show (wpConfig.useTransforms && "a" == "a") = true by decide),
      hta rfl]
  · by_cases hP : tag = "p"
    · subst hP
      rw [if_neg (by simp [wpConfig, hp rfl]),
        if_neg (show ¬(wpConfig.useTransforms && "p" == "a") = true by decide)]
    · rw [if_neg (by simp [wpConfig, hP]), if_neg (by simp [ha])]

/-- An iframe already in output form is reproduced verbatim by
`processElem`. -/
theorem fixed_iframe (site : String) (a' : List (String × String))
    (K : HtmlList)
    (h1 : a'.all (fun x => attrNameAllowed "iframe" x.1) = true)
    (h2 : a'.all (fun x => !wpConfig.urlAttrs.contains x.1
        || schemeAllowedValue (effectiveSchemes "iframe") x.2) = true)
    (hsrc : isAllowedIframeSrc (getAttrD a' "src" "") = true)
    (hload : getAttrD a' "loading" "" ≠ "")
    (hset : setAttr a' "loading" (getAttrD a' "loading" "") = a') :
    processElem wpConfig site "iframe" a' K
      = .cons (.elem "iframe" a' K) .nil := by
  unfold processElem
  rw [if_neg (by decide)]
  dsimp only
  rw [show List.filter (fun a => wpConfig.attrOk "iframe" a.1) a' = a' from
      List.filter_eq_self.mpr (by simpa [List.all_eq_true] using h1),
    show List.filter (fun a => !wpConfig.urlAttrs.contains a.1
        || schemeAllowedValue (wpConfig.schemesFor "iframe") a.2) a' = a' from
      List.filter_eq_self.mpr (by simpa [List.all_eq_true] using h2)]
  rw [if_pos (by decide), if_neg (show ¬voidTags.contains "iframe" = true
    by decide)]
  unfold transformIframe
  dsimp only
  rw [if_neg (by simp [hsrc]), if_neg (by simp [hload]), hset]

/-- The blocked-embed placeholder is reproduced verbatim by
`processElem`. -/
theorem fixed_blocked_div (site : String) :
    processElem wpConfig site "div"
      [("class", "blocked-embed"),
       ("data-blocked-src", "iframe-source-not-allowed")] .nil
    = .cons (.elem "div"
        [("class", "blocked-embed"),
         ("data-blocked-src", "iframe-source-not-allowed")] .nil) .nil :=
  fixed_elem site "div" _ _ (by decide) (by decide) (by decide) (by decide)
    (fun h => absurd h (by decide)) (fun h => absurd h (by decide))
    (fun h => absurd h (by decide))

/-- Re-sanitizing whatever `processElem` contributes changes nothing,
provided the supplied child list is a fixed point of the engine. -/
theorem processElem_fixed (site tag : String)
    (attrs : List (String × String)) (K : HtmlList)
    (hK : normalizeTexts (sanitizeList wpConfig site K) = K) :
    sanitizeList wpConfig site (processElem wpConfig site tag attrs K)
      = processElem wpConfig site tag attrs K := by
  unfold processElem
  by_cases htag : tag ∈ wpConfig.allowedTags
  case neg =>
    rw [if_pos (by simpa [contains_iff_mem] using htag)]
    rfl
  case pos =>
    rw [if_neg (by simpa [contains_iff_mem] using htag)]
    dsimp only
    have htagc : ALLOWED_TAGS.contains tag = true :=
      (contains_iff_mem _ _).mpr htag
    have hA1 : (attrs.filter (fun a => wpConfig.attrOk tag a.1)).all
        (fun x => attrNameAllowed tag x.1) = true :=
      filter_all_self (fun a => wpConfig.attrOk tag a.1) attrs
    have hA1' : ((attrs.filter (fun a => wpConfig.attrOk tag a.1)).filter
        (fun a => !wpConfig.urlAttrs.contains a.1
          || schemeAllowedValue (wpConfig.schemesFor tag) a.2)).all
        (fun x => attrNameAllowed tag x.1) = true :=
      all_of_all_filter _ _ _ hA1
    have hA2 : ((attrs.filter (fun a => wpConfig.attrOk tag a.1)).filter
        (fun a => !wpConfig.urlAttrs.contains a.1
          || schemeAllowedValue (wpConfig.schemesFor tag) a.2)).all
        (fun x => !wpConfig.urlAttrs.contains x.1
          || schemeAllowedValue (effectiveSchemes tag) x.2) = true :=
      filter_all_self _ _
    by_cases hif : tag = "iframe"
    · subst hif
      rw [if_pos (by decide),
        if_neg (show ¬voidTags.contains "iframe" = true by decide)]
      unfold transformIframe
      dsimp only
      by_cases hsrc : isAllowedIframeSrc (getAttrD
          ((attrs.filter (fun a => wpConfig.attrOk "iframe" a.1)).filter
            (fun a => !wpConfig.urlAttrs.contains a.1
              || schemeAllowedValue (wpConfig.schemesFor "iframe") a.2))
          "src" "") = true
      · rw [if_neg (by rw [hsrc]; decide)]
        rw [sanitizeList_cons_elem, hK]
        rw [fixed_iframe site _ K ?h1 ?h2 ?hsrc2 ?hload ?hset]
        case h1 =>
          exact all_setAttr _ _ "loading" _ hA1'
            (show attrNameAllowed "iframe" "loading" = true by decide)
        case h2 =>
          refine all_setAttr _ _ "loading" _ hA2 ?_
          show (!wpConfig.urlAttrs.contains "loading" || _) = true
          rw [show wpConfig.urlAttrs.contains "loading" = false from by decide]
          rfl
        case hsrc2 =>
          rw [getAttrD_setAttr_ne _ "loading" "src" _ _ (by decide)]
          exact hsrc
        case hload =>
          rw [getAttrD_setAttr_self]
          split
          · decide
          · next h => simpa using h
        case hset =>
          rw [getAttrD_setAttr_self, setAttr_idem]
        · rfl
      · have hsrc' : isAllowedIframeSrc (getAttrD
            ((attrs.filter (fun a => wpConfig.attrOk "iframe" a.1)).filter
              (fun a => !wpConfig.urlAttrs.contains a.1
                || schemeAllowedValue (wpConfig.schemesFor "iframe") a.2))
            "src" "") = false := by simpa using hsrc
        rw [if_pos (by rw [hsrc']; decide)]
        rw [sanitizeList_cons_elem,
          show normalizeTexts (sanitizeList wpConfig site HtmlList.nil)
            = HtmlList.nil from rfl,
          fixed_blocked_div site]
        rfl
    · rw [if_neg (by simp [hif])]
      by_cases hv : voidTags.contains tag = true
      · rw [if_pos hv]
        by_cases hdrop : (wpConfig.dropEmptyP && tag == "p"
            && emptyParagraph HtmlList.nil) = true
        · rw [if_pos hdrop]; rfl
        · rw [if_neg hdrop]
          rw [sanitizeList_cons_elem,
            show normalizeTexts (sanitizeList wpConfig site HtmlList.nil)
              = HtmlList.nil from rfl]
          by_cases ha : tag = "a"
          · subst ha
            rw [if_pos (show (wpConfig.useTransforms && "a" == "a") = true
              by decide)]
            rw [fixed_elem site "a" _ _ htagc hif
              (all_transformA _ _ _ hA1'
                (fun v => show attrNameAllowed "a" "rel" = true by decide))
              (by
                refine all_transformA _ _ _ hA2 (fun v => ?_)
                show (!wpConfig.urlAttrs.contains "rel" || _) = true
                rw [show wpConfig.urlAttrs.contains "rel" = false from
                  by decide]
                rfl)
              (fun h => transformA_idem site _)
              (fun h => absurd h (by decide)) (fun h => rfl)]
            rfl
          · rw [if_neg (by simp [ha])]
            rw [fixed_elem site tag _ _ htagc hif hA1' hA2
              (fun h => absurd h ha)
              (fun hP => by
                subst hP
                simpa [wpConfig] using hdrop)
              (fun h => rfl)]
            rfl
      · rw [if_neg hv]
        by_cases hdrop : (wpConfig.dropEmptyP && tag == "p"
            && emptyParagraph K) = true
        · rw [if_pos hdrop]; rfl
        · rw [if_neg hdrop]
          rw [sanitizeList_cons_elem, hK]
          by_cases ha : tag = "a"
          · subst ha
            rw [if_pos (show (wpConfig.useTransforms && "a" == "a") = true
              by decide)]
            rw [fixed_elem site "a" _ K htagc hif
              (all_transformA _ _ _ hA1'
                (fun v => show attrNameAllowed "a" "rel" = true by decide))
              (by
                refine all_transformA _ _ _ hA2 (fun v => ?_)
                show (!wpConfig.urlAttrs.contains "rel" || _) = true
                rw [show wpConfig.urlAttrs.contains "rel" = false from
                  by decide]
                rfl)
              (fun h => transformA_idem site _)
              (fun h => absurd h (by decide)) (fun h => absurd h hv)]
            rfl
          · rw [if_neg (by simp [ha])]
            rw [fixed_elem site tag _ K htagc hif hA1' hA2
              (fun h => absurd h ha)
              (fun hP => by
                subst hP
                simpa [wpConfig] using hdrop)
              (fun h => absurd h hv)]
            rfl

/-- The engine pass is idempotent. -/
theorem sanitizeList_idem (site : String) : (l : HtmlList) →
    sanitizeList wpConfig site (sanitizeList wpConfig site l)
      = sanitizeList wpConfig site l
  | .nil => rfl
  | .cons (.text s) xs => by
    rw [sanitizeList_cons_text, sanitizeList_cons_text,
      sanitizeList_idem site xs]
  | .cons (.elem tag attrs children) xs => by
    have ihc := sanitizeList_idem site children
    have hKfix : normalizeTexts (sanitizeList wpConfig site
        (normalizeTexts (sanitizeList wpConfig site children)))
        = normalizeTexts (sanitizeList wpConfig site children) := by
      rw [norm_sanitize_norm, ihc]
    rw [sanitizeList_cons_elem, sanitizeList_append,
      sanitizeList_idem site xs, processElem_fixed site tag attrs _ hKfix]

/-- The whole sanitization pipeline over fragments is idempotent. -/
theorem sanitizeFragment_idem (site : String) (l : HtmlList) :
    sanitizeFragment wpConfig site (sanitizeFragment wpConfig site l)
      = sanitizeFragment wpConfig site l := by
  unfold sanitizeFragment
  rw [norm_sanitize_norm, sanitizeList_idem]

-- ===========================================================================
-- Round trip, part 1: escaping and entity decoding are inverse
-- ===========================================================================

/-- Escaped text contains no `<`. -/
theorem escapeTextChar_no_lt (c d : Char) (h : d ∈ escapeTextChar c) :
    d ≠ '<' := by
  intro hd
  subst hd
  unfold escapeTextChar at h
  split_ifs at h with h1 h2 h3
  · revert h; decide
  · revert h; decide
  · revert h; decide
  · rw [List.mem_singleton] at h
    subst h
    exact h2 (by decide)

/-- Escaped attribute values contain no `"`. -/
theorem escapeAttrChar_no_quote (c d : Char) (h : d ∈ escapeAttrChar c) :
    d ≠ '"' := by
  intro hd
  subst hd
  unfold escapeAttrChar escapeTextChar at h
  split_ifs at h with h0 h1 h2 h3
  · revert h; decide
  · revert h; decide
  · revert h; decide
  · revert h; decide
  · rw [List.mem_singleton] at h
    subst h
    exact h0 (by decide)

/-- Decoding inverts text escaping, given enough fuel. -/
theorem decodeF_escapeText : (l : List Char) → (f : Nat) →
    (l.flatMap escapeTextChar).length ≤ f →
    decodeEntitiesF f (l.flatMap escapeTextChar) = l
  | [], f, _ => by cases f <;> rfl
  | c :: cs, f, hf => by
    rw [List.flatMap_cons] at hf ⊢
    by_cases hamp : c = '&'
    · subst hamp
      rw [show escapeTextChar '&' = ['&', 'a', 'm', 'p', ';'] from rfl] at hf ⊢
      simp only [List.length_append, List.length_cons] at hf
      obtain ⟨g, rfl⟩ : ∃ g, f = g + 1 := ⟨f - 1, by omega⟩
      rw [show decodeEntitiesF (g + 1)
          (['&', 'a', 'm', 'p', ';'] ++ cs.flatMap escapeTextChar)
        = '&' :: decodeEntitiesF g (cs.flatMap escapeTextChar) from rfl]
      rw [decodeF_escapeText cs g (by omega)]
    · by_cases hlt : c = '<'
      · subst hlt
        rw [show escapeTextChar '<' = ['&', 'l', 't', ';'] from rfl] at hf ⊢
        simp only [List.length_append, List.length_cons] at hf
        obtain ⟨g, rfl⟩ : ∃ g, f = g + 1 := ⟨f - 1, by omega⟩
        rw [show decodeEntitiesF (g + 1)
            (['&', 'l', 't', ';'] ++ cs.flatMap escapeTextChar)
          = '<' :: decodeEntitiesF g (cs.flatMap escapeTextChar) from rfl]
        rw [decodeF_escapeText cs g (by omega)]
      · by_cases hgt : c = '>'
        · subst hgt
          rw [show escapeTextChar '>' = ['&', 'g', 't', ';'] from rfl] at hf ⊢
          simp only [List.length_append, List.length_cons] at hf
          obtain ⟨g, rfl⟩ : ∃ g, f = g + 1 := ⟨f - 1, by omega⟩
          rw [show decodeEntitiesF (g + 1)
              (['&', 'g', 't', ';'] ++ cs.flatMap escapeTextChar)
            = '>' :: decodeEntitiesF g (cs.flatMap escapeTextChar) from rfl]
          rw [decodeF_escapeText cs g (by omega)]
        · rw [show escapeTextChar c = [c] from by
            simp [escapeTextChar, hamp, hlt, hgt]] at hf ⊢
          simp only [List.length_append, List.length_cons] at hf
          obtain ⟨g, rfl⟩ : ∃ g, f = g + 1 := ⟨f - 1, by omega⟩
          rw [show ([c] ++ cs.flatMap escapeTextChar)
            = c :: cs.flatMap escapeTextChar from rfl]
          rw [show decodeEntitiesF (g + 1) (c :: cs.flatMap escapeTextChar)
            = c :: decodeEntitiesF g (cs.flatMap escapeTextChar) from by
              simp [decodeEntitiesF, hamp]]
          rw [decodeF_escapeText cs g (by omega)]

/-- Decoding inverts attribute-value escaping, given enough fuel. -/
theorem decodeF_escapeAttr : (l : List Char) → (f : Nat) →
    (l.flatMap escapeAttrChar).length ≤ f →
    decodeEntitiesF f (l.flatMap escapeAttrChar) = l
  | [], f, _ => by cases f <;> rfl
  | c :: cs, f, hf => by
    rw [List.flatMap_cons] at hf ⊢
    by_cases hq : c = '"'
    · subst hq
      rw [show escapeAttrChar '"' = ['&', 'q', 'u', 'o', 't', ';'] from rfl]
        at hf ⊢
      simp only [List.length_append, List.length_cons] at hf
      obtain ⟨g, rfl⟩ : ∃ g, f = g + 1 := ⟨f - 1, by omega⟩
      rw [show decodeEntitiesF (g + 1)
          (['&', 'q', 'u', 'o', 't', ';'] ++ cs.flatMap escapeAttrChar)
        = '"' :: decodeEntitiesF g (cs.flatMap escapeAttrChar) from rfl]
      rw [decodeF_escapeAttr cs g (by omega)]
    · have heq : escapeAttrChar c = escapeTextChar c := by
        simp [escapeAttrChar, hq]
      rw [heq] at hf ⊢
      by_cases hamp : c = '&'
      · subst hamp
        rw [show escapeTextChar '&' = ['&', 'a', 'm', 'p', ';'] from rfl]
          at hf ⊢
        simp only [List.length_append, List.length_cons] at hf
        obtain ⟨g, rfl⟩ : ∃ g, f = g + 1 := ⟨f - 1, by omega⟩
        rw [show decodeEntitiesF (g + 1)
            (['&', 'a', 'm', 'p', ';'] ++ cs.flatMap escapeAttrChar)
          = '&' :: decodeEntitiesF g (cs.flatMap escapeAttrChar) from rfl]
        rw [decodeF_escapeAttr cs g (by omega)]
      · by_cases hlt : c = '<'
        · subst hlt
          rw [show escapeTextChar '<' = ['&', 'l', 't', ';'] from rfl] at hf ⊢
          simp only [List.length_append, List.length_cons] at hf
          obtain ⟨g, rfl⟩ : ∃ g, f = g + 1 := ⟨f - 1, by omega⟩
          rw [show decodeEntitiesF (g + 1)
              (['&', 'l', 't', ';'] ++ cs.flatMap escapeAttrChar)
            = '<' :: decodeEntitiesF g (cs.flatMap escapeAttrChar) from rfl]
          rw [decodeF_escapeAttr cs g (by omega)]
        · by_cases hgt : c = '>'
          · subst hgt
            rw [show escapeTextChar '>' = ['&', 'g', 't', ';'] from rfl]
              at hf ⊢
            simp only [List.length_append, List.length_cons] at hf
            obtain ⟨g, rfl⟩ : ∃ g, f = g + 1 := ⟨f - 1, by omega⟩
            rw [show decodeEntitiesF (g + 1)
                (['&', 'g', 't', ';'] ++ cs.flatMap escapeAttrChar)
              = '>' :: decodeEntitiesF g (cs.flatMap escapeAttrChar) from rfl]
            rw [decodeF_escapeAttr cs g (by omega)]
          · rw [show escapeTextChar c = [c] from by
              simp [escapeTextChar, hamp, hlt, hgt]] at hf ⊢
            simp only [List.length_append, List.length_cons] at hf
            obtain ⟨g, rfl⟩ : ∃ g, f = g + 1 := ⟨f - 1, by omega⟩
            rw [show ([c] ++ cs.flatMap escapeAttrChar)
              = c :: cs.flatMap escapeAttrChar from rfl]
            rw [show decodeEntitiesF (g + 1) (c :: cs.flatMap escapeAttrChar)
              = c :: decodeEntitiesF g (cs.flatMap escapeAttrChar) from by
                simp [decodeEntitiesF, hamp]]
            rw [decodeF_escapeAttr cs g (by omega)]

/-- Entity decoding inverts text escaping. -/
theorem decodeEntities_escapeText (s : String) :
    decodeEntities (escapeText s).data = s.data :=
  decodeF_escapeText s.data _ le_rfl

/-- Entity decoding inverts attribute-value escaping. -/
theorem decodeEntities_escapeAttrVal (s : String) :
    decodeEntities (escapeAttrVal s).data = s.data :=
  decodeF_escapeAttr s.data _ le_rfl

-- ===========================================================================
-- Round trip, part 2: well-formedness of serialized fragments
-- ===========================================================================

/-- Characters allowed in a serializable tag name (lower-case letters and
digits — all allowed tags use only these). -/
def isTagChar (c : Char) : Bool := c.isLower || c.isDigit

/-- A serializable tag name: nonempty, tag characters only, leading
letter. -/
def wfTag (t : String) : Bool :=
  t.data.all isTagChar && (t.data.headD '0').isAlpha

/-- A serializable attribute name: nonempty, no name-terminating characters,
lower-case fixed. -/
def wfAttrName (n : String) : Bool :=
  n != "" && n.data.all (fun c => !isNameEnd c && c.toLower == c)

/-- Serializable attribute lists: well-formed, duplicate-free names. -/
def attrsWf (attrs : List (String × String)) : Bool :=
  attrs.all (fun a => wfAttrName a.1) && decide ((attrs.map Prod.fst).Nodup)

/-- Lower-case letters and digits are fixed by `Char.toLower`. -/
theorem toLower_eq_self_of_tagChar (c : Char) (h : isTagChar c = true) :
    c.toLower = c := by
  unfold isTagChar at h
  unfold Char.toLower
  rw [if_neg]
  rintro ⟨h1, h2⟩
  simp only [Bool.or_eq_true, Char.isLower, Char.isDigit, Bool.and_eq_true,
    decide_eq_true_eq] at h
  have b1 : (65 : UInt32).toNat = 65 := rfl
  have b2 : (90 : UInt32).toNat = 90 := rfl
  have b3 : (97 : UInt32).toNat = 97 := rfl
  have b4 : (122 : UInt32).toNat = 122 := rfl
  have b5 : (48 : UInt32).toNat = 48 := rfl
  have b6 : (57 : UInt32).toNat = 57 := rfl
  rcases h with ⟨hl, hr⟩ | ⟨hl, hr⟩
  · have : (97 : UInt32).toNat ≤ c.val.toNat := hl
    rw [b3] at this
    have hn : c.toNat = c.val.toNat := rfl
    omega
  · have : c.val.toNat ≤ (57 : UInt32).toNat := hr
    rw [b6] at this
    have hn : c.toNat = c.val.toNat := rfl
    omega

/-- Bounds on the code point of a tag character. -/
theorem tagChar_bounds (c : Char) (h : isTagChar c = true) :
    (97 ≤ c.toNat ∧ c.toNat ≤ 122) ∨ (48 ≤ c.toNat ∧ c.toNat ≤ 57) := by
  unfold isTagChar at h
  simp only [Bool.or_eq_true, Char.isLower, Char.isDigit, Bool.and_eq_true,
    decide_eq_true_eq] at h
  rcases h with ⟨h1, h2⟩ | ⟨h1, h2⟩
  · have a1 : (97 : UInt32).toNat ≤ c.val.toNat := h1
    have a2 : c.val.toNat ≤ (122 : UInt32).toNat := h2
    rw [show (97 : UInt32).toNat = 97 from rfl] at a1
    rw [show (122 : UInt32).toNat = 122 from rfl] at a2
    exact Or.inl ⟨a1, a2⟩
  · have a1 : (48 : UInt32).toNat ≤ c.val.toNat := h1
    have a2 : c.val.toNat ≤ (57 : UInt32).toNat := h2
    rw [show (48 : UInt32).toNat = 48 from rfl] at a1
    rw [show (57 : UInt32).toNat = 57 from rfl] at a2
    exact Or.inr ⟨a1, a2⟩

/-- Tag characters are not name terminators. -/
theorem tagChar_not_nameEnd (c : Char) (h : isTagChar c = true) :
    isNameEnd c = false := by
  have hb := tagChar_bounds c h
  have hne : ∀ d : Char, d.toNat ≠ c.toNat → (c == d) = false := by
    intro d hd
    have hcd : c ≠ d := fun he => hd (by rw [he])
    simpa using hcd
  unfold isNameEnd isWsChar
  rw [hne ' ' (by rw [show ' '.toNat = 32 from rfl]; omega),
      hne '\t' (by rw [show '\t'.toNat = 9 from rfl]; omega),
      hne '\n' (by rw [show '\n'.toNat = 10 from rfl]; omega),
      hne '\r' (by rw [show '\r'.toNat = 13 from rfl]; omega),
      hne '\x0b' (by rw [show '\x0b'.toNat = 11 from rfl]; omega),
      hne '\x0c' (by rw [show '\x0c'.toNat = 12 from rfl]; omega),
      hne '=' (by rw [show '='.toNat = 61 from rfl]; omega),
      hne '/' (by rw [show '/'.toNat = 47 from rfl]; omega),
      hne '>' (by rw [show '>'.toNat = 62 from rfl]; omega)]
  rfl

/-- A code point in a valid range survives `Char.ofNat` unchanged. -/
theorem ofNat_toNat_lower (n : Nat) (h1 : 97 ≤ n) (h2 : n ≤ 122) :
    (Char.ofNat n).toNat = n := by
  unfold Char.ofNat
  rw [dif_pos (by constructor <;> omega : n.isValidChar)]
  rfl

/-- `Char.toLower` is idempotent. -/
theorem toLower_toLower (c : Char) : c.toLower.toLower = c.toLower := by
  unfold Char.toLower
  by_cases h : c.toNat ≥ 65 ∧ c.toNat ≤ 90
  · rw [if_pos h]
    have hv := ofNat_toNat_lower (c.toNat + 32) (by omega) (by omega)
    rw [if_neg (by omega)]
  · rw [if_neg h, if_neg h]

/-- Lower-case letters and digits form tag characters. -/
theorem isTagChar_of_bounds (c : Char)
    (h : (97 ≤ c.toNat ∧ c.toNat ≤ 122) ∨ (48 ≤ c.toNat ∧ c.toNat ≤ 57)) :
    isTagChar c = true := by
  unfold isTagChar
  simp only [Char.isLower, Char.isDigit, Bool.or_eq_true, Bool.and_eq_true,
    decide_eq_true_eq]
  rcases h with ⟨h1, h2⟩ | ⟨h1, h2⟩
  · exact Or.inl ⟨h1, h2⟩
  · exact Or.inr ⟨h1, h2⟩

/-- `Char.toLower` cannot create a name-terminating character. -/
theorem toLower_not_nameEnd (c : Char) (h : isNameEnd c = false) :
    isNameEnd c.toLower = false := by
  unfold Char.toLower
  by_cases hu : c.toNat ≥ 65 ∧ c.toNat ≤ 90
  · rw [if_pos hu]
    have hv := ofNat_toNat_lower (c.toNat + 32) (by omega) (by omega)
    exact tagChar_not_nameEnd _ (isTagChar_of_bounds _ (Or.inl (by omega)))
  · rw [if_neg hu]
    exact h

/-- Mapping `Char.toLower` over already-fixed characters is the identity. -/
theorem map_toLower_fixed : ∀ (l : List Char),
    (∀ c ∈ l, c.toLower = c) → l.map Char.toLower = l
  | [], _ => rfl
  | c :: cs, h => by
    rw [List.map_cons, h c (by simp),
      map_toLower_fixed cs (fun d hd => h d (List.mem_cons_of_mem c hd))]

/-- The head surviving `dropWhile` fails the predicate. -/
theorem dropWhile_head_false (p : Char → Bool) :
    ∀ (l : List Char) (c : Char) (r : List Char),
      l.dropWhile p = c :: r → p c = false := by
  intro l
  induction l with
  | nil => intro c r h; simp at h
  | cons a as ih =>
    intro c r h
    rw [List.dropWhile_cons] at h
    by_cases hp : p a = true
    · rw [if_pos hp] at h; exact ih c r h
    · rw [if_neg hp] at h
      cases h
      simpa using hp

/-- `dropWhile` never lengthens a list. -/
theorem length_dropWhile_le (p : Char → Bool) :
    ∀ (l : List Char), (l.dropWhile p).length ≤ l.length := by
  intro l
  induction l with
  | nil => simp
  | cons a as ih =>
    rw [List.dropWhile_cons]
    split
    · exact Nat.le_trans ih (Nat.le_succ _)
    · exact le_rfl

/-- `dropWhile` skips a satisfying head. -/
theorem dropWhile_cons_pos (p : Char → Bool) (c : Char) (l : List Char)
    (h : p c = true) : (c :: l).dropWhile p = l.dropWhile p := by
  rw [List.dropWhile_cons, if_pos h]

/-- `dropWhile` stops at a failing head. -/
theorem dropWhile_cons_neg (p : Char → Bool) (c : Char) (l : List Char)
    (h : p c = false) : (c :: l).dropWhile p = c :: l := by
  rw [List.dropWhile_cons, if_neg (by simp [h])]

/-- `takeWhile` over a satisfying prefix followed by a failing (or absent)
head takes exactly the prefix. -/
theorem takeWhile_append_eq (p : Char → Bool) :
    ∀ (xs ys : List Char), (∀ c ∈ xs, p c = true) →
      (∀ c r, ys = c :: r → p c = false) →
      (xs ++ ys).takeWhile p = xs
  | [], ys, _, hy => by
    cases ys with
    | nil => rfl
    | cons c r => simp [List.takeWhile_cons, hy c r rfl]
  | x :: xs, ys, hx, hy => by
    rw [List.cons_append, List.takeWhile_cons, if_pos (hx x (by simp)),
      takeWhile_append_eq p xs ys (fun c hc => hx c (List.mem_cons_of_mem x hc)) hy]

/-- Splitting `String.join` at the head. -/
theorem strJoin_cons (x : String) (xs : List String) :
    String.join (x :: xs) = x ++ String.join xs := by
  have hj : ∀ (ys : List String) (a : String),
      ys.foldl (fun r s => r ++ s) a = a ++ ys.foldl (fun r s => r ++ s) "" := by
    intro ys
    induction ys with
    | nil => intro a; simp
    | cons y ys ih =>
      intro a
      simp only [List.foldl_cons]
      rw [ih (a ++ y), ih ("" ++ y)]
      simp [String.append_assoc]
  simp only [String.join, List.foldl_cons]
  rw [hj xs ("" ++ x)]
  simp

/-- Characters of serialized attribute lists, head case. -/
theorem serAttrs_cons (a : String × String) (as : List (String × String)) :
    (serializeAttrs (a :: as)).data
      = ' ' :: (a.1.data ++ '=' :: '"' :: (escapeAttrVal a.2).data
          ++ '"' :: (serializeAttrs as).data) := by
  show (String.join ((a :: as).map _)).data = _
  rw [List.map_cons, strJoin_cons]
  simp only [serializeAttrs, String.data_append]
  simp [List.append_assoc]

/-- Characters of a serialized text-headed fragment. -/
theorem ser_text (s : String) (xs : HtmlList) :
    (serializeList (.cons (.text s) xs)).data
      = (escapeText s).data ++ (serializeList xs).data := by
  simp [serializeList, String.data_append]

/-- Characters of a serialized void element. -/
theorem ser_elem_void (tag : String) (attrs : List (String × String))
    (kids xs : HtmlList) (h : voidTags.contains tag = true) :
    (serializeList (.cons (.elem tag attrs kids) xs)).data
      = '<' :: (tag.data ++ (serializeAttrs attrs).data
          ++ ' ' :: '/' :: '>' :: (serializeList xs).data) := by
  simp only [serializeList, h, if_true, String.data_append]
  simp [List.append_assoc]

/-- Characters of a serialized non-void element. -/
theorem ser_elem_nonvoid (tag : String) (attrs : List (String × String))
    (kids xs : HtmlList) (h : voidTags.contains tag = false) :
    (serializeList (.cons (.elem tag attrs kids) xs)).data
      = '<' :: (tag.data ++ (serializeAttrs attrs).data
          ++ '>' :: ((serializeList kids).data
            ++ '<' :: '/' :: (tag.data ++ '>' :: (serializeList xs).data))) := by
  simp only [serializeList, h, if_false, Bool.false_eq_true, String.data_append]
  simp [List.append_assoc]

/-- Escaped text never contains `<`. -/
theorem escapeText_no_lt (s : String) :
    ∀ c r, (escapeText s).data = c :: r → (c == '<') = false := by
  intro c r h
  have hc : c ∈ (escapeText s).data := by rw [h]; simp
  show (c == '<') = false
  simp only [beq_eq_false_iff_ne, ne_eq]
  intro hlt
  subst hlt
  obtain ⟨d, _, hd2⟩ := List.mem_flatMap.mp hc
  exact escapeTextChar_no_lt d '<' hd2 rfl

/-- Escaping a character yields at least one character. -/
theorem escapeTextChar_ne_nil (c : Char) : escapeTextChar c ≠ [] := by
  unfold escapeTextChar
  split_ifs <;> simp

/-- Escaped nonempty text is nonempty. -/
theorem escapeText_ne_nil (s : String) (h : s ≠ "") :
    (escapeText s).data ≠ [] := by
  cases hs : s.data with
  | nil =>
    refine absurd ?_ h
    cases s with
    | mk d =>
      rw [show d = [] from hs]
  | cons c cs =>
    show (s.data.flatMap escapeTextChar) ≠ []
    rw [hs, List.flatMap_cons]
    intro hnil
    exact escapeTextChar_ne_nil c (List.append_eq_nil.mp hnil).1

-- ===========================================================================
-- Round trip, part 3: structural well-formedness of fragments
-- ===========================================================================

/-- Whether a fragment list is empty. -/
def kidsNil : HtmlList → Bool
  | .nil => true
  | .cons _ _ => false

/-- A text node on a well-formed spine is nonempty. -/
def textNodeOk : Html → Bool
  | .text s => !(s == "")
  | .elem _ _ _ => true

/-- Two adjacent spine positions never hold two text nodes. -/
def sepOk : Html → HtmlList → Bool
  | .text _, .cons (.text _) _ => false
  | _, _ => true

/-- Shallow spine well-formedness: no empty text nodes, no adjacent text
nodes. -/
def spineOk : HtmlList → Bool
  | .nil => true
  | .cons n rest => textNodeOk n && sepOk n rest && spineOk rest

/-- Deep element well-formedness: serializable tag and attribute names,
duplicate-free attributes, void elements childless, child spines
normalized. -/
def elemsOk : HtmlList → Bool
  | .nil => true
  | .cons (.text _) rest => elemsOk rest
  | .cons (.elem t a kids) rest =>
    wfTag t && attrsWf a && (!voidTags.contains t || kidsNil kids)
      && spineOk kids && elemsOk kids && elemsOk rest

/-- The token stream the tokenizer recovers from a serialized well-formed
fragment. -/
def tokensOf : HtmlList → List Token
  | .nil => []
  | .cons (.text s) xs => .chars s :: tokensOf xs
  | .cons (.elem t attrs kids) xs =>
    if voidTags.contains t then .startTag t attrs true :: tokensOf xs
    else .startTag t attrs false
      :: (tokensOf kids ++ .endTag t :: tokensOf xs)

/-- Attribute payload well-formedness of a token: start tags carry
terminator-free, lower-case-fixed, duplicate-free attribute names. -/
def tokOk : Token → Bool
  | .startTag _ a _ =>
    a.all (fun x => x.1.data.all (fun c => !isNameEnd c && c.toLower == c))
      && decide ((a.map Prod.fst).Nodup)
  | _ => true

/-- Per-element attribute precondition established by the parser: attribute
names are terminator-free, lower-case-fixed and duplicate-free. -/
def attrsPre (_ : String) (a : List (String × String)) : Bool :=
  a.all (fun x => x.1.data.all (fun c => !isNameEnd c && c.toLower == c))
    && decide ((a.map Prod.fst).Nodup)

/-- Skipping a comment never lengthens the input. -/
theorem skipCommentEnd_len (l : List Char) :
    (skipCommentEnd l).length ≤ l.length := by
  induction l using skipCommentEnd.induct with
  | case1 => simp [skipCommentEnd]
  | case2 rest => simp [skipCommentEnd]; omega
  | case3 c rest h ih =>
    rw [show skipCommentEnd (c :: rest) = skipCommentEnd rest from by
      rw [skipCommentEnd.eq_def]
      split
      · rename_i heq; exact absurd heq (by simp)
      · rename_i r heq
        injection heq with h1 h2
        exact (h r h1 h2).elim
      · rename_i heq
        injection heq with h1 h2
        rw [h2]]
    exact Nat.le_trans ih (Nat.le_succ _)

/-- The input remaining after the attribute reader is no longer than its
input. -/
theorem readAttrsF_len : ∀ (f : Nat) (l : List Char),
    (readAttrsF f l).2.2.length ≤ l.length
  | 0, l => le_rfl
  | f + 1, l => by
    simp only [readAttrsF]
    cases hdw : l.dropWhile isWsChar with
    | nil => simp
    | cons c rest =>
      have hdwlen : rest.length + 1 ≤ l.length := by
        have := length_dropWhile_le isWsChar l
        rw [hdw] at this
        simpa using this
      dsimp only
      by_cases h1 : c = '>'
      · rw [if_pos h1]; dsimp only; omega
      rw [if_neg h1]
      by_cases h2 : c = '/'
      · rw [if_pos h2]
        by_cases h3 : (rest.dropWhile isWsChar).headD ' ' = '>'
        · rw [if_pos h3]
          dsimp only
          have hd1 : ((rest.dropWhile isWsChar).drop 1).length
              ≤ (rest.dropWhile isWsChar).length := by
            rw [List.length_drop]; omega
          have := length_dropWhile_le isWsChar rest
          omega
        · rw [if_neg h3]
          have := readAttrsF_len f rest
          omega
      rw [if_neg h2]
      have hl2 : (((c :: rest).drop
          ((c :: rest).takeWhile (fun d => !isNameEnd d)).length).dropWhile
            isWsChar).length ≤ rest.length + 1 := by
        have ha := length_dropWhile_le isWsChar
          ((c :: rest).drop ((c :: rest).takeWhile (fun d => !isNameEnd d)).length)
        have hb : (((c :: rest)).drop
            ((c :: rest).takeWhile (fun d => !isNameEnd d)).length).length
            ≤ (c :: rest).length := by
          rw [List.length_drop]; omega
        simp only [List.length_cons] at hb
        omega
      set l2 := ((c :: rest).drop
        ((c :: rest).takeWhile (fun d => !isNameEnd d)).length).dropWhile
          isWsChar with hl2def
      by_cases h4 : l2.headD ' ' = '='
      · rw [if_pos h4]
        have hl3 : ((l2.drop 1).dropWhile isWsChar).length ≤ l2.length := by
          have := length_dropWhile_le isWsChar (l2.drop 1)
          rw [List.length_drop] at this
          omega
        set l3 := (l2.drop 1).dropWhile isWsChar with hl3def
        by_cases h5 : l3.headD ' ' = '"'
        · rw [if_pos h5]
          dsimp only
          rcases hh : readAttrsF f ((l3.drop 1).drop
              (((l3.drop 1).takeWhile (fun d => d != '"')).length + 1))
            with ⟨as, sc, r⟩
          dsimp only
          have := readAttrsF_len f ((l3.drop 1).drop
            (((l3.drop 1).takeWhile (fun d => d != '"')).length + 1))
          rw [hh] at this
          dsimp only at this
          simp only [List.length_drop] at this
          omega
        · rw [if_neg h5]
          by_cases h6 : l3.headD ' ' = '\''
          · rw [if_pos h6]
            dsimp only
            rcases hh : readAttrsF f ((l3.drop 1).drop
                (((l3.drop 1).takeWhile (fun d => d != '\'')).length + 1))
              with ⟨as, sc, r⟩
            dsimp only
            have := readAttrsF_len f ((l3.drop 1).drop
              (((l3.drop 1).takeWhile (fun d => d != '\'')).length + 1))
            rw [hh] at this
            dsimp only at this
            simp only [List.length_drop] at this
            omega
          · rw [if_neg h6]
            dsimp only
            rcases hh : readAttrsF f (l3.drop
                ((l3.takeWhile (fun d => !(isWsChar d || d == '>'))).length))
              with ⟨as, sc, r⟩
            dsimp only
            have := readAttrsF_len f (l3.drop
              ((l3.takeWhile (fun d => !(isWsChar d || d == '>'))).length))
            rw [hh] at this
            dsimp only at this
            simp only [List.length_drop] at this
            omega
      · rw [if_neg h4]
        dsimp only
        rcases hh : readAttrsF f l2 with ⟨as, sc, r⟩
        dsimp only
        have := readAttrsF_len f l2
        rw [hh] at this
        dsimp only at this
        omega

/-- The attribute reader is fuel-independent once the fuel dominates the
input length. -/
theorem readAttrsF_fi : ∀ (f g : Nat) (l : List Char),
    l.length < f → l.length < g → readAttrsF f l = readAttrsF g l
  | 0, _, l, hf, _ => absurd hf (by omega)
  | _ + 1, 0, l, _, hg => absurd hg (by omega)
  | f + 1, g + 1, l, hf, hg => by
    simp only [readAttrsF]
    cases hdw : l.dropWhile isWsChar with
    | nil => rfl
    | cons c rest =>
      have hdwlen : rest.length + 1 ≤ l.length := by
        have := length_dropWhile_le isWsChar l
        rw [hdw] at this
        simpa using this
      dsimp only
      by_cases h1 : c = '>'
      · simp only [if_pos h1]
      simp only [if_neg h1]
      by_cases h2 : c = '/'
      · simp only [if_pos h2]
        by_cases h3 : (rest.dropWhile isWsChar).headD ' ' = '>'
        · simp only [if_pos h3]
        · simp only [if_neg h3]
          exact readAttrsF_fi f g rest (by omega) (by omega)
      simp only [if_neg h2]
      have hcw : isWsChar c = false := dropWhile_head_false isWsChar l c rest hdw
      have hl2 : (((c :: rest).drop
          ((c :: rest).takeWhile (fun d => !isNameEnd d)).length).dropWhile
            isWsChar).length ≤ rest.length + 1 := by
        have ha := length_dropWhile_le isWsChar
          ((c :: rest).drop ((c :: rest).takeWhile (fun d => !isNameEnd d)).length)
        have hb : (((c :: rest)).drop
            ((c :: rest).takeWhile (fun d => !isNameEnd d)).length).length
            ≤ (c :: rest).length := by
          rw [List.length_drop]; omega
        simp only [List.length_cons] at hb
        omega
      set nmlen := ((c :: rest).takeWhile (fun d => !isNameEnd d)).length
        with hnmlen
      set l2 := ((c :: rest).drop nmlen).dropWhile isWsChar with hl2def
      by_cases h4 : l2.headD ' ' = '='
      · simp only [if_pos h4]
        have hl2ne : l2 ≠ [] := by
          intro he
          rw [he] at h4
          exact absurd h4 (by decide)
        have hl2pos : 1 ≤ l2.length := by
          cases hcl : l2 with
          | nil => exact absurd hcl hl2ne
          | cons _ _ => simp
        have hl3 : ((l2.drop 1).dropWhile isWsChar).length ≤ l2.length - 1 := by
          have := length_dropWhile_le isWsChar (l2.drop 1)
          rw [List.length_drop] at this
          omega
        set l3 := (l2.drop 1).dropWhile isWsChar with hl3def
        by_cases h5 : l3.headD ' ' = '"'
        · simp only [if_pos h5]
          rw [readAttrsF_fi f g ((l3.drop 1).drop
              (((l3.drop 1).takeWhile (fun d => d != '"')).length + 1))
            (by simp only [List.length_drop]; omega)
            (by simp only [List.length_drop]; omega)]
        · simp only [if_neg h5]
          by_cases h6 : l3.headD ' ' = '\''
          · simp only [if_pos h6]
            rw [readAttrsF_fi f g ((l3.drop 1).drop
                (((l3.drop 1).takeWhile (fun d => d != '\'')).length + 1))
              (by simp only [List.length_drop]; omega)
              (by simp only [List.length_drop]; omega)]
          · simp only [if_neg h6]
            rw [readAttrsF_fi f g (l3.drop
                ((l3.takeWhile (fun d => !(isWsChar d || d == '>'))).length))
              (by simp only [List.length_drop]; omega)
              (by simp only [List.length_drop]; omega)]
      · simp only [if_neg h4]
        have hname : 1 ≤ nmlen := by
          rw [hnmlen]
          by_cases hne : isNameEnd c = true
          · exfalso
            have hceq : c = '=' := by
              unfold isNameEnd at hne
              simp only [hcw, Bool.false_or, Bool.or_eq_true, beq_iff_eq] at hne
              rcases hne with (h | h) | h
              · exact h
              · exact absurd h h2
              · exact absurd h h1
            apply h4
            have : nmlen = 0 := by
              rw [hnmlen, List.takeWhile_cons, if_neg (by simp [hne])]
              rfl
            rw [hl2def, this, List.drop_zero,
              dropWhile_cons_neg isWsChar c rest hcw]
            exact hceq
          · rw [List.takeWhile_cons, if_pos (by simp at hne; simp [hne])]
            simp
        have hl2strict : l2.length ≤ rest.length := by
          have ha := length_dropWhile_le isWsChar ((c :: rest).drop nmlen)
          have hb : ((c :: rest).drop nmlen).length = rest.length + 1 - nmlen := by
            rw [List.length_drop]; rfl
          rw [hl2def]
          omega
        rw [readAttrsF_fi f g l2 (by omega) (by omega)]

/-- The tokenizer is fuel-independent once the fuel dominates the input
length. -/
theorem tokenizeF_fi : ∀ (f g : Nat) (l : List Char),
    l.length < f → l.length < g → tokenizeF f l = tokenizeF g l
  | 0, _, l, hf, _ => absurd hf (by omega)
  | _ + 1, 0, l, _, hg => absurd hg (by omega)
  | f + 1, g + 1, [], _, _ => rfl
  | f + 1, g + 1, c :: rest, hf, hg => by
    simp only [tokenizeF]
    simp only [List.length_cons] at hf hg
    by_cases h1 : c = '<'
    · simp only [if_pos h1]
      cases rest with
      | nil => rfl
      | cons d r2 =>
        simp only [List.length_cons] at hf hg
        dsimp only
        by_cases h2 : d = '/'
        · simp only [if_pos h2]
          have hlen : ((((r2.drop
              (r2.takeWhile (fun e => !(isWsChar e || e == '>'))).length)).dropWhile
                (fun e => e != '>')).drop 1).length ≤ r2.length := by
            have ha := length_dropWhile_le (fun e => e != '>')
              (r2.drop (r2.takeWhile (fun e => !(isWsChar e || e == '>'))).length)
            simp only [List.length_drop] at ha ⊢
            omega
          by_cases h3 : (r2.takeWhile
              (fun e => !(isWsChar e || e == '>'))).headD ' ' |>.isAlpha
          · simp only [if_pos h3]
            rw [tokenizeF_fi f g _ (by omega) (by omega)]
          · simp only [if_neg h3]
            exact tokenizeF_fi f g _ (by omega) (by omega)
        simp only [if_neg h2]
        by_cases h4 : d = '!'
        · simp only [if_pos h4]
          split
          · rename_i r5
            simp only [List.length_cons] at hf hg
            exact tokenizeF_fi f g _
              (by have := skipCommentEnd_len r5; omega)
              (by have := skipCommentEnd_len r5; omega)
          · have hlen2 : (((r2.dropWhile (fun x => x != '>')).drop 1)).length
                ≤ r2.length := by
              have := length_dropWhile_le (fun x => x != '>') r2
              simp only [List.length_drop]
              omega
            exact tokenizeF_fi f g _ (by omega) (by omega)
        simp only [if_neg h4]
        by_cases h5 : d.isAlpha
        · simp only [if_pos h5]
          have harg : ((d :: r2).drop
              ((d :: r2).takeWhile (fun e => !isNameEnd e)).length).length
              ≤ r2.length + 1 := by
            simp only [List.length_drop, List.length_cons]
            omega
          rw [readAttrsF_fi f g ((d :: r2).drop
              ((d :: r2).takeWhile (fun e => !isNameEnd e)).length)
            (by omega) (by omega)]
          rcases hra : readAttrsF g ((d :: r2).drop
              ((d :: r2).takeWhile (fun e => !isNameEnd e)).length)
            with ⟨attrs, sc, r3⟩
          have hr3 := readAttrsF_len g ((d :: r2).drop
            ((d :: r2).takeWhile (fun e => !isNameEnd e)).length)
          rw [hra] at hr3
          dsimp only at hr3
          simp only [List.length_drop, List.length_cons] at hr3
          dsimp only
          rw [tokenizeF_fi f g r3 (by omega) (by omega)]
        · simp only [if_neg h5]
          rw [tokenizeF_fi f g (d :: r2) (by simp; omega) (by simp; omega)]
    · simp only [if_neg h1]
      have ht : 1 ≤ ((c :: rest).takeWhile (fun d => d != '<')).length := by
        rw [List.takeWhile_cons, if_pos (by simp [h1])]
        simp
      have harg : ((c :: rest).drop
          ((c :: rest).takeWhile (fun d => d != '<')).length).length
          ≤ rest.length := by
        simp only [List.length_drop, List.length_cons]
        omega
      rw [tokenizeF_fi f g _ (by omega) (by omega)]

/-- Unpacking serializable attribute lists at a cons. -/
theorem attrsWf_cons (a : String × String) (as : List (String × String))
    (h : attrsWf (a :: as) = true) :
    wfAttrName a.1 = true ∧ attrsWf as = true := by
  simp only [attrsWf, List.all_cons, Bool.and_eq_true, decide_eq_true_eq,
    List.map_cons, List.nodup_cons] at h
  refine ⟨h.1.1, ?_⟩
  simp only [attrsWf, Bool.and_eq_true, decide_eq_true_eq]
  exact ⟨h.1.2, h.2.2⟩

/-- Unpacking a serializable attribute name. -/
theorem wfAttrName_unpack (n : String) (h : wfAttrName n = true) :
    n.data ≠ [] ∧ ∀ c ∈ n.data, isNameEnd c = false ∧ c.toLower = c := by
  simp only [wfAttrName, Bool.and_eq_true, bne_iff_ne, ne_eq,
    List.all_eq_true, Bool.not_eq_true', beq_iff_eq] at h
  refine ⟨?_, fun c hc => ⟨(h.2 c hc).1, (h.2 c hc).2⟩⟩
  intro hd
  apply h.1
  cases n with
  | mk d => rw [show d = [] from hd]

/-- Escaped attribute values contain no double quote. -/
theorem escapeAttrVal_no_quote (s : String) :
    ∀ c ∈ (escapeAttrVal s).data, (c != '"') = true := by
  intro c hc
  obtain ⟨d, _, hd2⟩ := List.mem_flatMap.mp hc
  simpa using escapeAttrChar_no_quote d c hd2

/-- Reading back a serialized attribute list: the reader recovers the
attributes, the self-closing flag of the terminator, and the input following
the terminator. -/
theorem ra_inv : ∀ (attrs : List (String × String)),
    attrsWf attrs = true → ∀ (sc : Bool) (term r : List Char),
      ((term = '>' :: r ∧ sc = false) ∨
        (term = ' ' :: '/' :: '>' :: r ∧ sc = true)) →
      ∀ (f : Nat), attrs.length + 1 ≤ f →
        readAttrsF f ((serializeAttrs attrs).data ++ term) = (attrs, sc, r)
  | [], _, sc, term, r, hterm, f, hf => by
    obtain ⟨f, rfl⟩ : ∃ f', f = f' + 1 := ⟨f - 1, by omega⟩
    rw [show (serializeAttrs []).data = [] from rfl, List.nil_append]
    rcases hterm with ⟨rfl, rfl⟩ | ⟨rfl, rfl⟩
    · simp only [readAttrsF]
      rw [dropWhile_cons_neg isWsChar '>' r (by decide)]
      dsimp only
      rw [if_pos rfl]
    · simp only [readAttrsF]
      rw [dropWhile_cons_pos isWsChar ' ' _ (by decide),
        dropWhile_cons_neg isWsChar '/' _ (by decide)]
      dsimp only
      rw [if_neg (by decide), if_pos rfl,
        dropWhile_cons_neg isWsChar '>' r (by decide)]
      rw [if_pos (show ('>' :: r).headD ' ' = '>' from rfl)]
      rfl
  | a :: as, hwf, sc, term, r, hterm, f, hf => by
    obtain ⟨hna, hwas⟩ := attrsWf_cons a as hwf
    obtain ⟨hne, hchars⟩ := wfAttrName_unpack a.1 hna
    obtain ⟨f, rfl⟩ : ∃ f', f = f' + 1 := ⟨f - 1, by omega⟩
    cases hA : a.1.data with
    | nil => exact absurd hA hne
    | cons c cs =>
      have hcn : isNameEnd c = false := (hchars c (by rw [hA]; simp)).1
      have hcw : isWsChar c = false := by
        unfold isNameEnd at hcn
        simp only [Bool.or_eq_false_iff] at hcn
        exact hcn.1.1.1
      rw [serAttrs_cons]
      rw [show (' ' :: (a.1.data ++ '=' :: '"' :: (escapeAttrVal a.2).data
            ++ '"' :: (serializeAttrs as).data)) ++ term
          = ' ' :: (a.1.data ++ '=' :: '"' :: ((escapeAttrVal a.2).data
            ++ '"' :: ((serializeAttrs as).data ++ term)))
        from by simp [List.append_assoc]]
      simp only [readAttrsF]
      rw [dropWhile_cons_pos isWsChar ' ' _ (by decide), hA, List.cons_append,
        dropWhile_cons_neg isWsChar c _ hcw]
      dsimp only
      rw [if_neg (by
          intro hc
          rw [hc] at hcn
          exact absurd hcn (by decide)),
        if_neg (by
          intro hc
          rw [hc] at hcn
          exact absurd hcn (by decide))]
      rw [← List.cons_append,
        takeWhile_append_eq (fun d => !isNameEnd d) (c :: cs) _
          (by
            intro d hd
            rw [← hA] at hd
            simp [(hchars d hd).1])
          (by
            intro d rr hdr
            injection hdr with h1 _
            rw [← h1]
            decide)]
      rw [← hA,
        show ((a.1.data ++ ('=' :: '"' :: ((escapeAttrVal a.2).data
            ++ '"' :: ((serializeAttrs as).data ++ term)))).drop
          a.1.data.length)
          = '=' :: '"' :: ((escapeAttrVal a.2).data
            ++ '"' :: ((serializeAttrs as).data ++ term))
          from List.drop_left _ _]
      rw [map_toLower_fixed a.1.data (fun d hd => (hchars d hd).2)]
      rw [dropWhile_cons_neg isWsChar '=' _ (by decide)]
      rw [if_pos (show ('=' :: '"' :: ((escapeAttrVal a.2).data
        ++ '"' :: ((serializeAttrs as).data ++ term))).headD ' ' = '=' from rfl)]
      rw [show (('=' :: '"' :: ((escapeAttrVal a.2).data
            ++ '"' :: ((serializeAttrs as).data ++ term))).drop 1)
          = '"' :: ((escapeAttrVal a.2).data
            ++ '"' :: ((serializeAttrs as).data ++ term)) from rfl]
      rw [dropWhile_cons_neg isWsChar '"' _ (by decide)]
      rw [if_pos (show ('"' :: ((escapeAttrVal a.2).data
        ++ '"' :: ((serializeAttrs as).data ++ term))).headD ' ' = '"' from rfl)]
      rw [show (('"' :: ((escapeAttrVal a.2).data
            ++ '"' :: ((serializeAttrs as).data ++ term))).drop 1)
          = (escapeAttrVal a.2).data
            ++ '"' :: ((serializeAttrs as).data ++ term) from rfl]
      rw [takeWhile_append_eq (fun d => d != '"') (escapeAttrVal a.2).data _
        (escapeAttrVal_no_quote a.2)
        (by
          intro d rr hdr
          injection hdr with h1 _
          rw [← h1]
          decide)]
      rw [show ((escapeAttrVal a.2).data
            ++ '"' :: ((serializeAttrs as).data ++ term)).drop
              ((escapeAttrVal a.2).data.length + 1)
          = (serializeAttrs as).data ++ term from by
        rw [show (escapeAttrVal a.2).data ++ '"'
              :: ((serializeAttrs as).data ++ term)
            = ((escapeAttrVal a.2).data ++ ['"'])
              ++ ((serializeAttrs as).data ++ term) from by simp,
          show (escapeAttrVal a.2).data.length + 1
            = ((escapeAttrVal a.2).data ++ ['"']).length from by simp]
        exact List.drop_left _ _]
      rw [ra_inv as hwas sc term r hterm f (by simp at hf; omega)]
      dsimp only
      rw [show (⟨decodeEntities (escapeAttrVal a.2).data⟩ : String) = a.2 from by
        rw [decodeEntities_escapeAttrVal]]

/-- Unpacking a serializable tag name. -/
theorem wfTag_unpack (t : String) (h : wfTag t = true) :
    t.data ≠ [] ∧ (∀ c ∈ t.data, isTagChar c = true)
      ∧ (t.data.headD '0').isAlpha = true := by
  simp only [wfTag, Bool.and_eq_true, List.all_eq_true] at h
  refine ⟨?_, h.1, h.2⟩
  intro hd
  rw [hd] at h
  exact absurd h.2 (by decide)

/-- Components of a failed name-terminator test. -/
theorem nameEnd_false_parts (c : Char) (h : isNameEnd c = false) :
    isWsChar c = false ∧ (c == '=') = false ∧ (c == '/') = false
      ∧ (c == '>') = false := by
  unfold isNameEnd at h
  simp only [Bool.or_eq_false_iff] at h
  exact ⟨h.1.1.1, h.1.1.2, h.1.2, h.2⟩

/-- Bounds on the code point of a letter. -/
theorem alpha_bounds (c : Char) (h : c.isAlpha = true) :
    (65 ≤ c.toNat ∧ c.toNat ≤ 90) ∨ (97 ≤ c.toNat ∧ c.toNat ≤ 122) := by
  simp only [Char.isAlpha, Char.isUpper, Char.isLower, Bool.or_eq_true,
    Bool.and_eq_true, decide_eq_true_eq] at h
  rcases h with ⟨h1, h2⟩ | ⟨h1, h2⟩
  · have a1 : (65 : UInt32).toNat ≤ c.val.toNat := h1
    have a2 : c.val.toNat ≤ (90 : UInt32).toNat := h2
    rw [show (65 : UInt32).toNat = 65 from rfl] at a1
    rw [show (90 : UInt32).toNat = 90 from rfl] at a2
    exact Or.inl ⟨a1, a2⟩
  · have a1 : (97 : UInt32).toNat ≤ c.val.toNat := h1
    have a2 : c.val.toNat ≤ (122 : UInt32).toNat := h2
    rw [show (97 : UInt32).toNat = 97 from rfl] at a1
    rw [show (122 : UInt32).toNat = 122 from rfl] at a2
    exact Or.inr ⟨a1, a2⟩

/-- A letter is neither a slash nor a bang. -/
theorem alpha_ne_slash_bang (c : Char) (h : c.isAlpha = true) :
    ¬c = '/' ∧ ¬c = '!' := by
  have hb := alpha_bounds c h
  constructor <;>
    · intro he
      rw [he] at hb
      revert hb
      decide

/-- A serialized attribute list is at least as long as the list. -/
theorem serAttrs_len : ∀ (attrs : List (String × String)),
    attrs.length ≤ (serializeAttrs attrs).data.length
  | [] => by simp [serializeAttrs, String.join]
  | a :: as => by
    rw [serAttrs_cons]
    have := serAttrs_len as
    simp only [List.length_cons, List.length_append]
    omega

/-- The first character after a serialized attribute list, continued by a
terminator, ends a name. -/
theorem serAttrs_append_head_nameEnd (attrs : List (String × String))
    (k : List Char) (hk : ∀ c r, k = c :: r → isNameEnd c = true) :
    ∀ c r, (serializeAttrs attrs).data ++ k = c :: r → isNameEnd c = true := by
  intro c r h
  cases attrs with
  | nil =>
    rw [show (serializeAttrs []).data = [] from rfl, List.nil_append] at h
    exact hk c r h
  | cons a as =>
    rw [serAttrs_cons, List.cons_append] at h
    injection h with h1 _
    rw [← h1]
    decide

/-- Escaped text contains no `<` anywhere. -/
theorem escapeText_all_ne_lt (s : String) :
    ∀ c ∈ (escapeText s).data, (c != '<') = true := by
  intro c hc
  obtain ⟨d, _, hd2⟩ := List.mem_flatMap.mp hc
  simpa using escapeTextChar_no_lt d c hd2

/-- Deduplication is the identity on duplicate-free attribute lists. -/
theorem dedupAttrsAux_id : ∀ (seen : List String)
    (l : List (String × String)), (l.map Prod.fst).Nodup →
    (∀ x ∈ l, seen.contains x.1 = false) → dedupAttrsAux seen l = l
  | _, [], _, _ => rfl
  | seen, a :: as, hnd, hseen => by
    simp only [List.map_cons, List.nodup_cons] at hnd
    unfold dedupAttrsAux
    rw [hseen a (by simp)]
    simp only [Bool.false_eq_true, if_false]
    rw [dedupAttrsAux_id (a.1 :: seen) as hnd.2]
    intro x hx
    simp only [List.contains_cons, Bool.or_eq_false_iff]
    refine ⟨?_, hseen x (List.mem_cons_of_mem a hx)⟩
    simp only [beq_eq_false_iff_ne, ne_eq]
    intro he
    exact hnd.1 (he ▸ List.mem_map_of_mem Prod.fst hx)

/-- Deduplication is the identity on duplicate-free attribute lists. -/
theorem dedupAttrs_id (l : List (String × String))
    (hnd : (l.map Prod.fst).Nodup) : dedupAttrs l = l :=
  dedupAttrsAux_id [] l hnd (fun x _ => rfl)

/-- An empty child test means an empty child list. -/
theorem kidsNil_eq (k : HtmlList) (h : kidsNil k = true) : k = .nil := by
  cases k with
  | nil => rfl
  | cons a b => exact absurd h (by simp [kidsNil])

/-- The tokenizer reads a serialized closing tag into an end-tag token. -/
theorem tk_endtag (t : String) (hwt : wfTag t = true) (R : List Char)
    (g : Nat) :
    tokenizeF (g + 1) ('<' :: '/' :: (t.data ++ '>' :: R))
      = .endTag t :: tokenizeF g R := by
  obtain ⟨htne, htch, htal⟩ := wfTag_unpack t hwt
  simp only [tokenizeF]
  rw [if_pos trivial]
  rw [if_pos trivial]
  rw [takeWhile_append_eq (fun e => !(isWsChar e || e == '>')) t.data ('>' :: R)
    (by
      intro c hc
      obtain ⟨hw, _, _, hg⟩ := nameEnd_false_parts c
        (tagChar_not_nameEnd c (htch c hc))
      simp [hw, hg])
    (by
      intro c r hcr
      injection hcr with h1 _
      rw [← h1]
      decide)]
  rw [List.drop_left, dropWhile_cons_neg (fun e => e != '>') '>' R (by decide),
    show ('>' :: R).drop 1 = R from rfl]
  cases hT : t.data with
  | nil => exact absurd hT htne
  | cons d ds =>
    rw [if_pos (by
      rw [hT] at htal
      simpa using htal)]
    rw [← hT, map_toLower_fixed t.data
      (fun c hc => toLower_eq_self_of_tagChar c (htch c hc)),
      show (⟨t.data⟩ : String) = t from rfl]

/-- The tokenizer recovers the token stream of a serialized well-formed
fragment, then proceeds with whatever follows (which must be empty or
tag-opening). -/
theorem tk_inv : ∀ (T : HtmlList), spineOk T = true → elemsOk T = true →
    ∀ (rest : List Char), (rest = [] ∨ ∃ r', rest = '<' :: r') →
    ∀ (f : Nat), (serializeList T).data.length + rest.length + 1 ≤ f →
    tokenizeF f ((serializeList T).data ++ rest)
      = tokensOf T ++ tokenizeF (rest.length + 1) rest
  | .nil, _, _, rest, hrest, f, hf => by
    rw [show (serializeList .nil).data = [] from rfl, List.nil_append,
      show tokensOf .nil = [] from rfl, List.nil_append]
    have h0 : (serializeList HtmlList.nil).data.length = 0 := rfl
    exact tokenizeF_fi f (rest.length + 1) rest (by omega) (by omega)
  | .cons (.text s) xs, hs, he, rest, hrest, f, hf => by
    have hsp : ¬s = "" ∧ sepOk (.text s) xs = true
        ∧ spineOk xs = true := by
      simpa [spineOk, textNodeOk, Bool.and_eq_true, and_assoc] using hs
    have hsne : s ≠ "" := hsp.1
    have hexs : elemsOk xs = true := by simpa [elemsOk] using he
    obtain ⟨f', rfl⟩ : ∃ f', f = f' + 1 := ⟨f - 1, by omega⟩
    have hEne := escapeText_ne_nil s hsne
    have hlen : (serializeList (.cons (.text s) xs)).data.length
        = (escapeText s).data.length + (serializeList xs).data.length := by
      rw [ser_text, List.length_append]
    have htail : ∀ d r, (serializeList xs).data ++ rest = d :: r →
        ((fun e => e != '<') d) = false := by
      intro d r hdr
      cases xs with
      | nil =>
        rw [show (serializeList .nil).data = [] from rfl,
          List.nil_append] at hdr
        rcases hrest with h0 | ⟨r', h0⟩
        · rw [h0] at hdr; cases hdr
        · rw [h0] at hdr
          injection hdr with h1 _
          rw [← h1]
          decide
      | cons y ys =>
        cases y with
        | text s2 => exact absurd hsp.2.1 (by simp [sepOk])
        | elem t2 a2 k2 =>
          by_cases hv : voidTags.contains t2 = true
          · rw [ser_elem_void t2 a2 k2 ys hv, List.cons_append] at hdr
            injection hdr with h1 _
            rw [← h1]
            decide
          · rw [ser_elem_nonvoid t2 a2 k2 ys (by simpa using hv),
              List.cons_append] at hdr
            injection hdr with h1 _
            rw [← h1]
            decide
    cases hE : (escapeText s).data with
    | nil => exact absurd hE hEne
    | cons c cs =>
      have hclt : (c != '<') = true :=
        escapeText_all_ne_lt s c (by rw [hE]; simp)
      rw [ser_text, hE, List.append_assoc, List.cons_append]
      simp only [tokenizeF]
      rw [if_neg (by simpa using hclt)]
      rw [show c :: (cs ++ ((serializeList xs).data ++ rest))
          = (c :: cs) ++ ((serializeList xs).data ++ rest) from rfl]
      rw [takeWhile_append_eq (fun d => d != '<') (c :: cs) _
        (by
          intro d hd
          exact escapeText_all_ne_lt s d (by rw [hE]; exact hd))
        htail]
      rw [List.drop_left, ← hE,
        show (⟨decodeEntities (escapeText s).data⟩ : String) = s from by
          rw [decodeEntities_escapeText],
        tk_inv xs hsp.2.2 hexs rest hrest f' (by
          rw [hlen, hE] at hf
          simp only [List.length_cons] at hf
          omega)]
      rfl
  | .cons (.elem t attrs kids) xs, hs, he, rest, hrest, f, hf => by
    have hsx : spineOk xs = true := by
      simp only [spineOk, Bool.and_eq_true] at hs
      exact hs.2
    have heu : wfTag t = true ∧ attrsWf attrs = true
        ∧ (!voidTags.contains t || kidsNil kids) = true
        ∧ spineOk kids = true ∧ elemsOk kids = true ∧ elemsOk xs = true := by
      simpa [elemsOk, Bool.and_eq_true, and_assoc] using he
    obtain ⟨hwt, hwa, hvk, hsk, hek, hex⟩ := heu
    obtain ⟨htne, htch, htal⟩ := wfTag_unpack t hwt
    obtain ⟨f', rfl⟩ : ∃ f', f = f' + 1 := ⟨f - 1, by omega⟩
    have hndup : (attrs.map Prod.fst).Nodup := by
      have hwa2 := hwa
      simp only [attrsWf, Bool.and_eq_true, decide_eq_true_eq] at hwa2
      exact hwa2.2
    have hAlen := serAttrs_len attrs
    cases hT : t.data with
    | nil => exact absurd hT htne
    | cons d ds =>
      have hda : d.isAlpha = true := by
        rw [hT] at htal
        simpa using htal
      obtain ⟨hd_slash, hd_bang⟩ := alpha_ne_slash_bang d hda
      have htw : ∀ (ys : List Char),
          (∀ c r, ys = c :: r → isNameEnd c = true) →
          (t.data ++ ys).takeWhile (fun e => !isNameEnd e) = t.data := by
        intro ys hys
        exact takeWhile_append_eq _ t.data ys
          (by
            intro c hc
            simp [tagChar_not_nameEnd c (htch c hc)])
          (by
            intro c r hcr
            simp [hys c r hcr])
      by_cases hv : voidTags.contains t = true
      · have hknil : kids = .nil := kidsNil_eq kids (by
          have hvk2 := hvk
          rw [hv] at hvk2
          simpa using hvk2)
        have hL := congrArg List.length (ser_elem_void t attrs kids xs hv)
        simp only [List.length_append, List.length_cons] at hL
        rw [ser_elem_void t attrs kids xs hv]
        rw [show ('<' :: (t.data ++ (serializeAttrs attrs).data
              ++ ' ' :: '/' :: '>' :: (serializeList xs).data)) ++ rest
            = '<' :: (t.data ++ ((serializeAttrs attrs).data
              ++ ' ' :: '/' :: '>' :: ((serializeList xs).data ++ rest)))
          from by simp [List.append_assoc]]
        simp only [tokenizeF]
        rw [if_pos trivial]
        rw [hT, List.cons_append]
        dsimp only
        rw [if_neg hd_slash, if_neg hd_bang, if_pos hda]
        rw [show d :: (ds ++ ((serializeAttrs attrs).data
              ++ ' ' :: '/' :: '>' :: ((serializeList xs).data ++ rest)))
            = t.data ++ ((serializeAttrs attrs).data
              ++ ' ' :: '/' :: '>' :: ((serializeList xs).data ++ rest))
          from by rw [hT, List.cons_append]]
        rw [htw _ (serAttrs_append_head_nameEnd attrs _ (by
          intro c r hcr
          injection hcr with h1 _
          rw [← h1]
          decide))]
        rw [List.drop_left]
        rw [ra_inv attrs hwa true
          (' ' :: '/' :: '>' :: ((serializeList xs).data ++ rest))
          ((serializeList xs).data ++ rest)
          (Or.inr ⟨rfl, rfl⟩) f' (by omega)]
        dsimp only
        rw [map_toLower_fixed t.data
            (fun c hc => toLower_eq_self_of_tagChar c (htch c hc)),
          show (⟨t.data⟩ : String) = t from rfl,
          dedupAttrs_id attrs hndup,
          tk_inv xs hsx hex rest hrest f' (by omega)]
        rw [show tokensOf (.cons (.elem t attrs kids) xs)
            = .startTag t attrs true :: tokensOf xs from by
          simp only [tokensOf]
          rw [if_pos hv]]
        rfl
      · have hL := congrArg List.length
          (ser_elem_nonvoid t attrs kids xs (by simpa using hv))
        simp only [List.length_append, List.length_cons] at hL
        rw [ser_elem_nonvoid t attrs kids xs (by simpa using hv)]
        rw [show ('<' :: (t.data ++ (serializeAttrs attrs).data
              ++ '>' :: ((serializeList kids).data
                ++ '<' :: '/' :: (t.data ++ '>' :: (serializeList xs).data)))) ++ rest
            = '<' :: (t.data ++ ((serializeAttrs attrs).data
              ++ '>' :: ((serializeList kids).data
                ++ '<' :: '/' :: (t.data ++ '>' :: ((serializeList xs).data ++ rest)))))
          from by simp [List.append_assoc]]
        simp only [tokenizeF]
        rw [if_pos trivial]
        rw [hT, List.cons_append]
        dsimp only
        rw [if_neg hd_slash, if_neg hd_bang, if_pos hda]
        rw [show d :: (ds ++ ((serializeAttrs attrs).data
              ++ '>' :: ((serializeList kids).data
                ++ '<' :: '/' :: ((d :: ds) ++ '>' :: ((serializeList xs).data ++ rest)))))
            = t.data ++ ((serializeAttrs attrs).data
              ++ '>' :: ((serializeList kids).data
                ++ '<' :: '/' :: (t.data ++ '>' :: ((serializeList xs).data ++ rest))))
          from by rw [hT]; simp]
        rw [htw _ (serAttrs_append_head_nameEnd attrs _ (by
          intro c r hcr
          injection hcr with h1 _
          rw [← h1]
          decide))]
        rw [List.drop_left]
        rw [ra_inv attrs hwa false
          ('>' :: ((serializeList kids).data
            ++ '<' :: '/' :: (t.data ++ '>' :: ((serializeList xs).data ++ rest))))
          ((serializeList kids).data
            ++ '<' :: '/' :: (t.data ++ '>' :: ((serializeList xs).data ++ rest)))
          (Or.inl ⟨rfl, rfl⟩) f' (by omega)]
        dsimp only
        rw [map_toLower_fixed t.data
            (fun c hc => toLower_eq_self_of_tagChar c (htch c hc)),
          show (⟨t.data⟩ : String) = t from rfl,
          dedupAttrs_id attrs hndup]
        rw [tk_inv kids hsk hek
          ('<' :: '/' :: (t.data ++ '>' :: ((serializeList xs).data ++ rest)))
          (Or.inr ⟨_, rfl⟩) f' (by
            simp only [List.length_cons, List.length_append] at hL ⊢
            omega)]
        rw [show ('<' :: '/' :: (t.data ++ '>'
              :: ((serializeList xs).data ++ rest))).length
            = (t.data ++ '>' :: ((serializeList xs).data ++ rest)).length + 2
          from by simp]
        rw [show (t.data ++ '>' :: ((serializeList xs).data ++ rest)).length + 2 + 1
            = ((t.data ++ '>' :: ((serializeList xs).data ++ rest)).length + 2) + 1
          from rfl]
        rw [tk_endtag t hwt ((serializeList xs).data ++ rest) _]
        rw [tk_inv xs hsx hex rest hrest
          ((t.data ++ '>' :: ((serializeList xs).data ++ rest)).length + 2)
          (by
            simp only [List.length_append, List.length_cons]
            omega)]
        rw [show tokensOf (.cons (.elem t attrs kids) xs)
            = .startTag t attrs false
              :: (tokensOf kids ++ .endTag t :: tokensOf xs) from by
          simp only [tokensOf]
          rw [if_neg hv]]
        simp

/-- The tree builder recovers a well-formed fragment from its token stream,
leaving the trailing tokens (which must be empty under no stop tag, or begin
with the awaited closing tag) unconsumed. -/
theorem bd_inv : ∀ (T : HtmlList), elemsOk T = true →
    ∀ (stop : Option String) (extra : List Token),
      ((stop = none ∧ extra = []) ∨
        (∃ tg rest, stop = some tg ∧ extra = .endTag tg :: rest)) →
      ∀ (f : Nat), 2 * (tokensOf T).length + 1 ≤ f →
        buildNodesF f (tokensOf T ++ extra) stop = (T, extra)
  | .nil, _, stop, extra, hstop, f, hf => by
    obtain ⟨f', rfl⟩ : ∃ f', f = f' + 1 := ⟨f - 1, by omega⟩
    rw [show tokensOf .nil = [] from rfl, List.nil_append]
    rcases hstop with ⟨rfl, rfl⟩ | ⟨tg, rest, rfl, rfl⟩
    · rfl
    · simp only [buildNodesF]
      rw [if_pos trivial]
  | .cons (.text s) xs, he, stop, extra, hstop, f, hf => by
    obtain ⟨f', rfl⟩ : ∃ f', f = f' + 1 := ⟨f - 1, by omega⟩
    have hex : elemsOk xs = true := by simpa [elemsOk] using he
    rw [show tokensOf (.cons (.text s) xs) = .chars s :: tokensOf xs from rfl,
      List.cons_append]
    simp only [buildNodesF]
    rw [bd_inv xs hex stop extra hstop f' (by
      have : (tokensOf (.cons (.text s) xs)).length = (tokensOf xs).length + 1 :=
        by simp [tokensOf]
      omega)]
  | .cons (.elem t attrs kids) xs, he, stop, extra, hstop, f, hf => by
    obtain ⟨f', rfl⟩ : ∃ f', f = f' + 1 := ⟨f - 1, by omega⟩
    have heu : wfTag t = true ∧ attrsWf attrs = true
        ∧ (!voidTags.contains t || kidsNil kids) = true
        ∧ spineOk kids = true ∧ elemsOk kids = true ∧ elemsOk xs = true := by
      simpa [elemsOk, Bool.and_eq_true, and_assoc] using he
    obtain ⟨hwt, hwa, hvk, hsk, hek, hex⟩ := heu
    by_cases hv : voidTags.contains t = true
    · have hknil : kids = .nil := kidsNil_eq kids (by
        have hvk2 := hvk
        rw [hv] at hvk2
        simpa using hvk2)
      have hlen : (tokensOf (.cons (.elem t attrs kids) xs)).length
          = (tokensOf xs).length + 1 := by
        simp only [tokensOf]
        rw [if_pos hv]
        simp only [List.length_cons]
      rw [show tokensOf (.cons (.elem t attrs kids) xs)
          = .startTag t attrs true :: tokensOf xs from by
        simp only [tokensOf]; rw [if_pos hv], List.cons_append]
      simp only [buildNodesF]
      rw [if_pos (by simp)]
      rw [bd_inv xs hex stop extra hstop f' (by omega)]
      rw [hknil]
    · have hlen : (tokensOf (.cons (.elem t attrs kids) xs)).length
          = (tokensOf kids).length + (tokensOf xs).length + 2 := by
        simp only [tokensOf]
        rw [if_neg hv]
        simp only [List.length_cons, List.length_append]
        omega
      rw [show tokensOf (.cons (.elem t attrs kids) xs)
          = .startTag t attrs false
            :: (tokensOf kids ++ .endTag t :: tokensOf xs) from by
        simp only [tokensOf]; rw [if_neg hv], List.cons_append]
      simp only [buildNodesF]
      rw [if_neg (by simp only [Bool.or_false]; exact hv)]
      rw [show (tokensOf kids ++ .endTag t :: tokensOf xs) ++ extra
          = tokensOf kids ++ (.endTag t :: (tokensOf xs ++ extra)) from by
        simp]
      rw [bd_inv kids hek (some t) (.endTag t :: (tokensOf xs ++ extra))
        (Or.inr ⟨t, tokensOf xs ++ extra, rfl, rfl⟩) f' (by omega)]
      dsimp only
      rw [if_pos rfl]
      rw [bd_inv xs hex stop extra hstop f' (by omega)]

/-- Text normalization is the identity on well-formed spines. -/
theorem norm_id : ∀ (T : HtmlList), spineOk T = true → normalizeTexts T = T
  | .nil, _ => rfl
  | .cons (.text a) rest, hs => by
    have hsp : ¬a = "" ∧ sepOk (.text a) rest = true ∧ spineOk rest = true := by
      simpa [spineOk, textNodeOk, Bool.and_eq_true, and_assoc] using hs
    have ih := norm_id rest hsp.2.2
    simp only [normalizeTexts]
    rw [ih]
    cases rest with
    | nil =>
      dsimp only
      rw [if_neg (by simpa using hsp.1)]
    | cons y more =>
      cases y with
      | text b => exact absurd hsp.2.1 (by simp [sepOk])
      | elem t2 a2 k2 =>
        dsimp only
        rw [if_neg (by simpa using hsp.1)]
  | .cons (.elem t a k) rest, hs => by
    have hsx : spineOk rest = true := by
      simp only [spineOk, Bool.and_eq_true] at hs
      exact hs.2
    simp only [normalizeTexts]
    rw [norm_id rest hsx]

/-- Text normalization produces a well-formed spine. -/
theorem norm_spineOk : ∀ (T : HtmlList), spineOk (normalizeTexts T) = true
  | .nil => rfl
  | .cons (.text a) rest => by
    have ih := norm_spineOk rest
    simp only [normalizeTexts]
    cases hnr : normalizeTexts rest with
    | nil =>
      dsimp only
      by_cases ha : a == ""
      · rw [if_pos ha]
        rfl
      · rw [if_neg ha]
        simp [spineOk, textNodeOk, sepOk, ha]
    | cons y more =>
      rw [hnr] at ih
      cases y with
      | text b =>
        dsimp only
        simp only [spineOk, textNodeOk, Bool.and_eq_true] at ih
        by_cases hab : a ++ b == ""
        · rw [if_pos hab]
          exact ih.2
        · rw [if_neg hab]
          simp only [spineOk, textNodeOk, Bool.and_eq_true]
          refine ⟨⟨by simpa using hab, ?_⟩, ih.2⟩
          cases more with
          | nil => trivial
          | cons z zs =>
            cases z with
            | text c => exact absurd ih.1.2 (by simp [sepOk])
            | elem _ _ _ => trivial
      | elem t2 a2 k2 =>
        dsimp only
        by_cases ha : a == ""
        · rw [if_pos ha]
          exact ih
        · rw [if_neg ha]
          simp_all [spineOk, textNodeOk, sepOk]
  | .cons (.elem t a k) rest => by
    have ih := norm_spineOk rest
    simp only [normalizeTexts, spineOk, textNodeOk, Bool.and_eq_true]
    refine ⟨⟨trivial, ?_⟩, ih⟩
    cases hnr : normalizeTexts rest with
    | nil => trivial
    | cons y more => cases y <;> trivial

/-- Deep element well-formedness is invariant under text normalization. -/
theorem elemsOk_normalizeTexts : (l : HtmlList) →
    elemsOk (normalizeTexts l) = elemsOk l
  | .nil => rfl
  | .cons (.text a) rest => by
    have ih := elemsOk_normalizeTexts rest
    simp only [normalizeTexts]
    cases hnr : normalizeTexts rest with
    | nil =>
      rw [hnr] at ih
      split <;> (try split) <;> simp_all [elemsOk]
    | cons y more =>
      rw [hnr] at ih
      cases y <;> split <;> (try split) <;> simp_all [elemsOk]
  | .cons (.elem t a c) rest => by
    have ih := elemsOk_normalizeTexts rest
    simp only [normalizeTexts, elemsOk, ih]

/-- Deep element well-formedness distributes over appending. -/
theorem elemsOk_append : (a : HtmlList) → (b : HtmlList) →
    elemsOk (HtmlList.append a b) = (elemsOk a && elemsOk b)
  | .nil, b => by simp [HtmlList.append, elemsOk]
  | .cons (.text s) xs, b => by
    simp [HtmlList.append, elemsOk, elemsOk_append xs b]
  | .cons (.elem t a c) xs, b => by
    simp [HtmlList.append, elemsOk, elemsOk_append xs b, Bool.and_assoc]

/-- A lower-cased name read by `takeWhile` on the name-terminator predicate
has serializable characters. -/
theorem nmOk_of_takeWhile (l : List Char) :
    (⟨(l.takeWhile (fun d => !isNameEnd d)).map Char.toLower⟩ : String).data.all
      (fun c => !isNameEnd c && c.toLower == c) = true := by
  show ((l.takeWhile _).map Char.toLower).all _ = true
  simp only [List.all_eq_true]
  intro c hc
  obtain ⟨d, hd, rfl⟩ := List.mem_map.mp hc
  have hdn : isNameEnd d = false := by
    have := List.mem_takeWhile_imp hd
    simpa using this
  simp [toLower_not_nameEnd d hdn, toLower_toLower d]

/-- Members of a deduplicated attribute list come from the original. -/
theorem mem_dedupAttrsAux : ∀ (seen : List String)
    (l : List (String × String)) (x : String × String),
    x ∈ dedupAttrsAux seen l → x ∈ l
  | _, [], _, hx => by simp [dedupAttrsAux] at hx
  | seen, a :: as, x, hx => by
    unfold dedupAttrsAux at hx
    by_cases hc : seen.contains a.1 = true
    · rw [if_pos hc] at hx
      exact List.mem_cons_of_mem a (mem_dedupAttrsAux seen as x hx)
    · rw [if_neg hc] at hx
      rcases List.mem_cons.mp hx with h | h
      · exact h ▸ List.mem_cons_self a as
      · exact List.mem_cons_of_mem a (mem_dedupAttrsAux (a.1 :: seen) as x h)

/-- Deduplicated attribute lists have duplicate-free names avoiding the seen
set. -/
theorem nodup_dedupAttrsAux : ∀ (seen : List String)
    (l : List (String × String)),
    ((dedupAttrsAux seen l).map Prod.fst).Nodup
      ∧ ∀ n ∈ (dedupAttrsAux seen l).map Prod.fst, seen.contains n = false
  | _, [] => by simp [dedupAttrsAux]
  | seen, a :: as => by
    unfold dedupAttrsAux
    by_cases hc : seen.contains a.1 = true
    · rw [if_pos hc]
      exact nodup_dedupAttrsAux seen as
    · rw [if_neg hc]
      have ih := nodup_dedupAttrsAux (a.1 :: seen) as
      simp only [List.map_cons, List.nodup_cons]
      refine ⟨⟨?_, ih.1⟩, ?_⟩
      · intro hmem
        have := ih.2 a.1 hmem
        simp [List.contains_cons] at this
      · intro n hn
        rcases List.mem_cons.mp hn with h | h
        · rw [h]
          simpa using hc
        · have := ih.2 n h
          simp only [List.contains_cons, Bool.or_eq_false_iff] at this
          exact this.2

/-- All attribute names produced by the attribute reader have serializable
characters. -/
theorem ra_names : ∀ (f : Nat) (l : List Char),
    ((readAttrsF f l).1).all
      (fun p => p.1.data.all (fun c => !isNameEnd c && c.toLower == c)) = true
  | 0, l => rfl
  | f + 1, l => by
    simp only [readAttrsF]
    cases hdw : l.dropWhile isWsChar with
    | nil => rfl
    | cons c rest =>
      dsimp only
      by_cases h1 : c = '>'
      · rw [if_pos h1]
        rfl
      rw [if_neg h1]
      by_cases h2 : c = '/'
      · rw [if_pos h2]
        by_cases h3 : (rest.dropWhile isWsChar).headD ' ' = '>'
        · rw [if_pos h3]
          rfl
        · rw [if_neg h3]
          exact ra_names f rest
      rw [if_neg h2]
      set nmlen := ((c :: rest).takeWhile (fun d => !isNameEnd d)).length
        with hnmlen
      set l2 := ((c :: rest).drop nmlen).dropWhile isWsChar with hl2def
      have hnm := nmOk_of_takeWhile (c :: rest)
      by_cases h4 : l2.headD ' ' = '='
      · rw [if_pos h4]
        set l3 := (l2.drop 1).dropWhile isWsChar with hl3def
        by_cases h5 : l3.headD ' ' = '"'
        · rw [if_pos h5]
          rcases hh : readAttrsF f ((l3.drop 1).drop
              (((l3.drop 1).takeWhile (fun d => d != '"')).length + 1))
            with ⟨as, sc, r⟩
          have ih := ra_names f ((l3.drop 1).drop
            (((l3.drop 1).takeWhile (fun d => d != '"')).length + 1))
          rw [hh] at ih
          dsimp only at ih ⊢
          simp only [List.all_cons, Bool.and_eq_true]
          exact ⟨hnm, ih⟩
        · rw [if_neg h5]
          by_cases h6 : l3.headD ' ' = '\''
          · rw [if_pos h6]
            rcases hh : readAttrsF f ((l3.drop 1).drop
                (((l3.drop 1).takeWhile (fun d => d != '\'')).length + 1))
              with ⟨as, sc, r⟩
            have ih := ra_names f ((l3.drop 1).drop
              (((l3.drop 1).takeWhile (fun d => d != '\'')).length + 1))
            rw [hh] at ih
            dsimp only at ih ⊢
            simp only [List.all_cons, Bool.and_eq_true]
            exact ⟨hnm, ih⟩
          · rw [if_neg h6]
            rcases hh : readAttrsF f (l3.drop
                ((l3.takeWhile (fun d => !(isWsChar d || d == '>'))).length))
              with ⟨as, sc, r⟩
            have ih := ra_names f (l3.drop
              ((l3.takeWhile (fun d => !(isWsChar d || d == '>'))).length))
            rw [hh] at ih
            dsimp only at ih ⊢
            simp only [List.all_cons, Bool.and_eq_true]
            exact ⟨hnm, ih⟩
      · rw [if_neg h4]
        rcases hh : readAttrsF f l2 with ⟨as, sc, r⟩
        have ih := ra_names f l2
        rw [hh] at ih
        dsimp only at ih ⊢
        simp only [List.all_cons, Bool.and_eq_true]
        exact ⟨hnm, ih⟩

/-- Every token the tokenizer emits carries well-formed attribute payloads. -/
theorem tok_names : ∀ (f : Nat) (l : List Char) (tok : Token),
    tok ∈ tokenizeF f l → tokOk tok = true
  | 0, l, tok, h => by simp [tokenizeF] at h
  | f + 1, [], tok, h => by simp [tokenizeF] at h
  | f + 1, c :: rest, tok, h => by
    simp only [tokenizeF] at h
    by_cases h1 : c = '<'
    · rw [if_pos h1] at h
      cases rest with
      | nil =>
        simp only [List.mem_singleton] at h
        rw [h]
        rfl
      | cons d r2 =>
        dsimp only at h
        by_cases h2 : d = '/'
        · rw [if_pos h2] at h
          by_cases h3 : (r2.takeWhile
              (fun e => !(isWsChar e || e == '>'))).headD ' ' |>.isAlpha
          · rw [if_pos h3] at h
            rcases List.mem_cons.mp h with h | h
            · rw [h]
              rfl
            · exact tok_names f _ tok h
          · rw [if_neg h3] at h
            exact tok_names f _ tok h
        rw [if_neg h2] at h
        by_cases h4 : d = '!'
        · rw [if_pos h4] at h
          split at h
          · exact tok_names f _ tok h
          · exact tok_names f _ tok h
        rw [if_neg h4] at h
        by_cases h5 : d.isAlpha
        · rw [if_pos h5] at h
          rcases hra : readAttrsF f ((d :: r2).drop
              ((d :: r2).takeWhile (fun e => !isNameEnd e)).length)
            with ⟨attrs, sc, r3⟩
          rw [hra] at h
          dsimp only at h
          rcases List.mem_cons.mp h with h | h
          · rw [h]
            simp only [tokOk, Bool.and_eq_true, decide_eq_true_eq]
            constructor
            · have hall := ra_names f ((d :: r2).drop
                ((d :: r2).takeWhile (fun e => !isNameEnd e)).length)
              rw [hra] at hall
              dsimp only at hall
              simp only [List.all_eq_true] at hall ⊢
              intro p hp
              exact hall p (mem_dedupAttrsAux [] attrs p hp)
            · exact (nodup_dedupAttrsAux [] attrs).1
          · exact tok_names f r3 tok h
        · rw [if_neg h5] at h
          rcases List.mem_cons.mp h with h | h
          · rw [h]
            rfl
          · exact tok_names f _ tok h
    · rw [if_neg h1] at h
      rcases List.mem_cons.mp h with h | h
      · rw [h]
        rfl
      · exact tok_names f _ tok h

/-- Trees built from well-formed tokens have well-formed attribute lists on
every element, and the unconsumed tokens remain well-formed. -/
theorem bd_pre : ∀ (f : Nat) (toks : List Token) (stop : Option String),
    (∀ tok ∈ toks, tokOk tok = true) →
    allElemsSat attrsPre (buildNodesF f toks stop).1 = true
      ∧ ∀ tok ∈ (buildNodesF f toks stop).2, tokOk tok = true
  | 0, toks, stop, h => ⟨rfl, h⟩
  | f + 1, [], stop, h => ⟨rfl, by intro tok ht; simp [buildNodesF] at ht⟩
  | f + 1, .chars s :: rest, stop, h => by
    simp only [buildNodesF]
    rcases hb : buildNodesF f rest stop with ⟨ns, r⟩
    have ih := bd_pre f rest stop
      (fun tok ht => h tok (List.mem_cons_of_mem _ ht))
    rw [hb] at ih
    dsimp only at ih ⊢
    exact ⟨by simpa [allElemsSat] using ih.1, ih.2⟩
  | f + 1, .endTag n :: rest, stop, h => by
    simp only [buildNodesF]
    by_cases hst : stop = some n
    · rw [if_pos hst]
      exact ⟨rfl, h⟩
    · rw [if_neg hst]
      exact bd_pre f rest stop
        (fun tok ht => h tok (List.mem_cons_of_mem _ ht))
  | f + 1, .startTag n attrs sc :: rest, stop, h => by
    have hattrs : attrsPre n attrs = true := by
      have := h _ (List.mem_cons_self _ _)
      simpa [tokOk, attrsPre] using this
    have hrest : ∀ tok ∈ rest, tokOk tok = true :=
      fun tok ht => h tok (List.mem_cons_of_mem _ ht)
    simp only [buildNodesF]
    by_cases hvs : (voidTags.contains n || sc) = true
    · rw [if_pos hvs]
      rcases hb : buildNodesF f rest stop with ⟨ns, r⟩
      have ih := bd_pre f rest stop hrest
      rw [hb] at ih
      dsimp only at ih ⊢
      constructor
      · simp only [allElemsSat, Bool.and_eq_true]
        exact ⟨⟨hattrs, trivial⟩, ih.1⟩
      · exact ih.2
    · rw [if_neg hvs]
      rcases hb1 : buildNodesF f rest (some n) with ⟨children, r1⟩
      have ih1 := bd_pre f rest (some n) hrest
      rw [hb1] at ih1
      dsimp only at ih1 ⊢
      split
      · rename_i junk mtag mrest
        by_cases hmn : mtag = n
        · rw [if_pos hmn]
          rcases hb3 : buildNodesF f mrest stop with ⟨ns, r3⟩
          have ih3 := bd_pre f mrest stop
            (fun tok ht => ih1.2 tok (List.mem_cons_of_mem _ ht))
          rw [hb3] at ih3
          dsimp only at ih3 ⊢
          constructor
          · simp only [allElemsSat, Bool.and_eq_true]
            exact ⟨⟨hattrs, ih1.1⟩, ih3.1⟩
          · exact ih3.2
        · rw [if_neg hmn]
          rcases hb3 : buildNodesF f (Token.endTag mtag :: mrest) stop
            with ⟨ns, r3⟩
          have ih3 := bd_pre f (Token.endTag mtag :: mrest) stop ih1.2
          rw [hb3] at ih3
          dsimp only at ih3 ⊢
          constructor
          · simp only [allElemsSat, Bool.and_eq_true]
            exact ⟨⟨hattrs, ih1.1⟩, ih3.1⟩
          · exact ih3.2
      · rcases hb3 : buildNodesF f r1 stop with ⟨ns, r3⟩
        have ih3 := bd_pre f r1 stop ih1.2
        rw [hb3] at ih3
        dsimp only at ih3 ⊢
        constructor
        · simp only [allElemsSat, Bool.and_eq_true]
          exact ⟨⟨hattrs, ih1.1⟩, ih3.1⟩
        · exact ih3.2

/-- Every fragment the parser produces satisfies the attribute
precondition on all its elements. -/
theorem parse_pre (s : String) : allElemsSat attrsPre (parseHtml s) = true := by
  unfold parseHtml
  rw [allElemsSat_normalizeTexts]
  exact (bd_pre _ _ none (fun tok ht => tok_names _ _ tok ht)).1

/-- Every allowed tag is serializable. -/
theorem allowed_wfTag : ALLOWED_TAGS.all wfTag = true := by decide

/-- The empty attribute name is never allowed. -/
theorem attrName_empty_false (t : String) : attrNameAllowed t "" = false := by
  unfold attrNameAllowed
  rw [show GLOBAL_ATTRIBUTES.contains "" = false from by decide,
    show strStarts "" "aria-" = false from by decide,
    show strStarts "" "data-" = false from by decide]
  simp only [Bool.false_or]
  unfold tagAttributes
  split <;> decide

/-- Names present after `setAttr` come from the original list or are the set
name. -/
theorem mem_setAttr_fst : ∀ (l : List (String × String)) (n v x : String),
    x ∈ (setAttr l n v).map Prod.fst → x ∈ l.map Prod.fst ∨ x = n
  | [], n, v, x, hx => by
    simp only [setAttr, List.map_cons, List.map_nil, List.mem_singleton] at hx
    exact Or.inr hx
  | a :: rest, n, v, x, hx => by
    unfold setAttr at hx
    by_cases ha : a.1 == n
    · rw [if_pos ha] at hx
      simp only [List.map_cons, List.mem_cons] at hx
      rcases hx with h | h
      · exact Or.inr h
      · exact Or.inl (by simp only [List.map_cons, List.mem_cons]; exact Or.inr h)
    · rw [if_neg ha] at hx
      simp only [List.map_cons, List.mem_cons] at hx
      rcases hx with h | h
      · exact Or.inl (by simp only [List.map_cons, List.mem_cons]; exact Or.inl h)
      · rcases mem_setAttr_fst rest n v x h with h2 | h2
        · exact Or.inl (by simp only [List.map_cons, List.mem_cons]; exact Or.inr h2)
        · exact Or.inr h2

/-- `setAttr` preserves serializable attribute lists when the set name is
serializable. -/
theorem setAttr_attrsWf : ∀ (l : List (String × String)) (n v : String),
    attrsWf l = true → wfAttrName n = true → attrsWf (setAttr l n v) = true
  | [], n, v, _, hn => by
    simp [setAttr, attrsWf, hn]
  | a :: rest, n, v, hl, hn => by
    simp only [attrsWf, List.all_cons, List.map_cons, List.nodup_cons,
      Bool.and_eq_true, decide_eq_true_eq] at hl
    obtain ⟨⟨hwa, hall⟩, hnm, hnd⟩ := hl
    unfold setAttr
    by_cases ha : a.1 == n
    · rw [if_pos ha]
      simp only [attrsWf, List.all_cons, List.map_cons, List.nodup_cons,
        Bool.and_eq_true, decide_eq_true_eq]
      refine ⟨⟨hn, hall⟩, ?_, hnd⟩
      have hna : a.1 = n := by simpa using ha
      rw [show n = a.1 from hna.symm]
      exact hnm
    · rw [if_neg ha]
      have ih := setAttr_attrsWf rest n v (by
        simp only [attrsWf, Bool.and_eq_true, decide_eq_true_eq]
        exact ⟨hall, hnd⟩) hn
      simp only [attrsWf, List.all_cons, List.map_cons, List.nodup_cons,
        Bool.and_eq_true, decide_eq_true_eq] at ih ⊢
      refine ⟨⟨hwa, ih.1⟩, ?_, ih.2⟩
      intro hmem
      rcases mem_setAttr_fst rest n v a.1 hmem with h | h
      · exact hnm h
      · exact absurd h (by simpa using ha)

/-- Attributes surviving the sanitizer's two filters form a serializable
attribute list. -/
theorem attrsWf_filtered (tag : String) (attrs : List (String × String))
    (q : String × String → Bool) (hpre : attrsPre tag attrs = true) :
    attrsWf ((attrs.filter (fun a => attrNameAllowed tag a.1)).filter q)
      = true := by
  simp only [attrsPre, Bool.and_eq_true, decide_eq_true_eq,
    List.all_eq_true] at hpre
  simp only [attrsWf, Bool.and_eq_true, decide_eq_true_eq, List.all_eq_true]
  constructor
  · intro x hx
    have hx2 := List.mem_filter.mp hx
    have hx3 := List.mem_filter.mp hx2.1
    have hnm := hpre.1 x hx3.1
    have hallow : attrNameAllowed tag x.1 = true := hx3.2
    simp only [wfAttrName, Bool.and_eq_true, List.all_eq_true]
    refine ⟨?_, hnm⟩
    simp only [bne_iff_ne, ne_eq]
    intro he
    rw [he] at hallow
    rw [attrName_empty_false tag] at hallow
    exact absurd hallow (by decide)
  · refine List.Nodup.sublist ?_ hpre.2
    exact List.Sublist.map Prod.fst
      (List.Sublist.trans (List.filter_sublist _) (List.filter_sublist _))

/-- The anchor transform preserves serializable attribute lists. -/
theorem transformA_attrsWf (site : String) (attrs : List (String × String))
    (h : attrsWf attrs = true) : attrsWf (transformA site attrs) = true := by
  unfold transformA
  dsimp only
  split
  · exact setAttr_attrsWf _ _ _ h (by decide)
  · exact h

/-- A single processed element is deeply well-formed provided its attributes
satisfy the parser's precondition and its (already processed) children are
well-formed. -/
theorem processElem_elemsOk (site tag : String)
    (attrs : List (String × String)) (kids : HtmlList)
    (hpre : attrsPre tag attrs = true)
    (hks : spineOk kids = true) (hke : elemsOk kids = true) :
    elemsOk (processElem wpConfig site tag attrs kids) = true := by
  unfold processElem
  by_cases htag : tag ∈ wpConfig.allowedTags
  case neg =>
    rw [if_pos (by simpa [contains_iff_mem] using htag)]
    rfl
  case pos =>
    rw [if_neg (by simpa [contains_iff_mem] using htag)]
    dsimp only
    have hwt : wfTag tag = true := by
      have hall := allowed_wfTag
      simp only [List.all_eq_true] at hall
      exact hall tag htag
    have hwa2 : attrsWf ((attrs.filter (fun a => wpConfig.attrOk tag a.1)).filter
        (fun a => !wpConfig.urlAttrs.contains a.1
          || schemeAllowedValue (wpConfig.schemesFor tag) a.2)) = true :=
      attrsWf_filtered tag attrs _ hpre
    by_cases hif : tag = "iframe"
    · subst hif
      rw [if_pos (by decide)]
      rw [if_neg (show ¬voidTags.contains "iframe" = true by decide)]
      unfold transformIframe
      dsimp only
      by_cases hsrc : isAllowedIframeSrc (getAttrD
          ((attrs.filter (fun a => wpConfig.attrOk "iframe" a.1)).filter
            (fun a => !wpConfig.urlAttrs.contains a.1
              || schemeAllowedValue (wpConfig.schemesFor "iframe") a.2))
          "src" "") = true
      · rw [if_neg (by rw [hsrc]; decide)]
        simp only [elemsOk, Bool.and_eq_true]
        refine ⟨⟨⟨⟨⟨by decide, setAttr_attrsWf _ _ _ hwa2 (by decide)⟩,
          by rw [show voidTags.contains "iframe" = false from by decide]; rfl⟩,
          hks⟩, hke⟩, trivial⟩
      · have hsrc' : isAllowedIframeSrc (getAttrD
            ((attrs.filter (fun a => wpConfig.attrOk "iframe" a.1)).filter
              (fun a => !wpConfig.urlAttrs.contains a.1
                || schemeAllowedValue (wpConfig.schemesFor "iframe") a.2))
            "src" "") = false := by simpa using hsrc
        rw [if_pos (by rw [hsrc']; rfl)]
        decide
    · rw [if_neg (by simp [hif])]
      by_cases hv : voidTags.contains tag = true
      · rw [if_pos hv]
        by_cases hdrop : (wpConfig.dropEmptyP && tag == "p"
            && emptyParagraph HtmlList.nil) = true
        · rw [if_pos hdrop]
          rfl
        · rw [if_neg hdrop]
          simp only [elemsOk, Bool.and_eq_true]
          refine ⟨⟨⟨⟨⟨hwt, ?_⟩, by
            rw [show kidsNil HtmlList.nil = true from rfl, Bool.or_true]⟩,
            rfl⟩, trivial⟩, trivial⟩
          by_cases ha : tag = "a"
          · subst ha
            rw [if_pos (by decide)]
            exact transformA_attrsWf site _ hwa2
          · rw [if_neg (by simp [ha])]
            exact hwa2
      · have hv' : voidTags.contains tag = false := by simpa using hv
        rw [if_neg hv]
        by_cases hdrop : (wpConfig.dropEmptyP && tag == "p"
            && emptyParagraph kids) = true
        · rw [if_pos hdrop]
          rfl
        · rw [if_neg hdrop]
          simp only [elemsOk, Bool.and_eq_true]
          refine ⟨⟨⟨⟨⟨hwt, ?_⟩, by rw [hv']; rfl⟩, hks⟩, hke⟩, trivial⟩
          by_cases ha : tag = "a"
          · subst ha
            rw [if_pos (by decide)]
            exact transformA_attrsWf site _ hwa2
          · rw [if_neg (by simp [ha])]
            exact hwa2

/-- The sanitizer's pass produces a deeply well-formed fragment from any
input satisfying the parser's attribute precondition. -/
theorem san_elemsOk (site : String) : (l : HtmlList) →
    allElemsSat attrsPre l = true →
    elemsOk (sanitizeList wpConfig site l) = true
  | .nil, _ => rfl
  | .cons (.text s) xs, h => by
    simpa [sanitizeList, elemsOk] using
      san_elemsOk site xs (by simpa [allElemsSat] using h)
  | .cons (.elem tag attrs children) xs, h => by
    have hh : attrsPre tag attrs = true ∧ allElemsSat attrsPre children = true
        ∧ allElemsSat attrsPre xs = true := by
      simpa [allElemsSat, Bool.and_eq_true, and_assoc] using h
    have ihc := san_elemsOk site children hh.2.1
    have ihx := san_elemsOk site xs hh.2.2
    simp only [sanitizeList]
    rw [elemsOk_append,
      processElem_elemsOk site tag attrs _ hh.1
        (norm_spineOk _)
        (by rw [elemsOk_normalizeTexts]; exact ihc),
      ihx]
    rfl

/-- The full sanitizer output is spine- and element-well-formed. -/
theorem sanFragment_wf (site : String) (l : HtmlList)
    (h : allElemsSat attrsPre l = true) :
    spineOk (sanitizeFragment wpConfig site l) = true
      ∧ elemsOk (sanitizeFragment wpConfig site l) = true := by
  unfold sanitizeFragment
  exact ⟨norm_spineOk _, by
    rw [elemsOk_normalizeTexts]
    exact san_elemsOk site l h⟩

/-- Parsing a serialized well-formed fragment recovers the fragment. -/
theorem parse_serialize (T : HtmlList) (hs : spineOk T = true)
    (he : elemsOk T = true) : parseHtml (serializeList T) = T := by
  unfold parseHtml
  have htk : tokenizeF ((serializeList T).data.length + 1)
      (serializeList T).data = tokensOf T := by
    have := tk_inv T hs he [] (Or.inl rfl)
      ((serializeList T).data.length + 1) (by simp)
    rw [List.append_nil] at this
    rw [this]
    simp [tokenizeF]
  rw [htk]
  dsimp only
  have hbd := bd_inv T he none [] (Or.inl ⟨rfl, rfl⟩)
    (2 * (tokensOf T).length + 2) (by omega)
  rw [List.append_nil] at hbd
  rw [hbd]
  exact norm_id T hs

/-- C6: `sanitizeWordPressHtml` is idempotent — feeding its output (for any
site origin and any input, null and undefined included) back through the
sanitizer returns that output unchanged, at the level of HTML strings. -/
theorem C6_idempotent (site : String) (x : WpInput) :
    sanitizeWordPressHtml site (.str (sanitizeWordPressHtml site x))
      = sanitizeWordPressHtml site x := by
  have hempty : sanitizeWordPressHtml site (.str "") = "" := rfl
  cases x with
  | null => exact hempty
  | undef => exact hempty
  | str s =>
    have hdef : sanitizeWordPressHtml site (.str s)
        = if (s == "") = true then ""
          else serializeList (sanitizeFragment wpConfig site (parseHtml s)) :=
      rfl
    by_cases hs : (s == "") = true
    · rw [hdef, if_pos hs]
      exact hempty
    · rw [hdef, if_neg hs]
      set T := sanitizeFragment wpConfig site (parseHtml s) with hT
      have hdef2 : sanitizeWordPressHtml site (.str (serializeList T))
          = if (serializeList T == "") = true then ""
            else serializeList
              (sanitizeFragment wpConfig site (parseHtml (serializeList T))) :=
        rfl
      by_cases ho : (serializeList T == "") = true
      · rw [hdef2, if_pos ho]
        exact (eq_of_beq ho).symm
      · rw [hdef2, if_neg ho]
        have hwf := sanFragment_wf site (parseHtml s) (parse_pre s)
        rw [parse_serialize T (hT ▸ hwf.1) (hT ▸ hwf.2), hT,
          sanitizeFragment_idem]
